import Mathlib

/-! # uACPI-OS kernel services: page allocator, pool allocator, synchronisation

A shallow embedding of `kernel/mem/page.c`, `kernel/mem/pool.c`,
`kernel/sync/mutex.c`, `kernel/sync/event.c`, `kernel/sync/spinlock.c` and
`kernel/thread/sleep.c`.

* Machine words are natural numbers; every 64-bit operation of the source is
  followed by an explicit reduction modulo `2 ^ 64`.
* A pointer is the natural number of its address; `NULL` is `0`.
* The intrusive doubly linked list `m_memory_map` is the sequence of its nodes
  in link order (`m_memory_map.next` first, `m_memory_map.prev` last).  A node
  is stored in place at the start of the run it describes, so a node is the
  pair of its own address and its `number_of_pages` field.
* Every argument and every stored field is a 64-bit value.
* The mutexes guarding the two allocators are not part of this sequential
  model.
* Where the source has no defined behaviour (`__builtin_clz(0)`, an index
  outside `m_alloc_pool_lists`, a `memset` running past the end of the block)
  the pool functions return `none`.
-/

namespace Kernel

/-! ## `kernel/mem/page.h` -/

/-- The number of values of a 64-bit word (`size_t`, `uintptr_t`, `void*`). -/
def WORD : Nat := 2 ^ 64

/-- The constant `UINT64_MAX`. -/
def UINT64_MAX : Nat := 2 ^ 64 - 1

/-- The constant `PAGE_SIZE`. -/
def PAGE_SIZE : Nat := 4096

/-- The constant `PAGE_MASK`. -/
def PAGE_MASK : Nat := 0xFFF

/-- The constant `PAGE_SHIFT`. -/
def PAGE_SHIFT : Nat := 12

/-- The `SIZE_TO_PAGES` conversion of `page.h`:
`((Size) >> PAGE_SHIFT) + (((Size) & PAGE_MASK) ? 1 : 0)`. -/
def SIZE_TO_PAGES (Size : Nat) : Nat :=
  (Size >>> PAGE_SHIFT) + (if Size &&& PAGE_MASK ≠ 0 then 1 else 0)

/-- The `PAGES_TO_SIZE` conversion of `page.h`: `(Pages) << PAGE_SHIFT`, on a
64-bit operand. -/
def PAGES_TO_SIZE (Pages : Nat) : Nat :=
  (Pages <<< PAGE_SHIFT) % WORD

/-! ## `kernel/mem/page.c` -/

/-- The type `free_page_list_t`: a free-list node.  `addr` is the address the
node is stored at (the first byte of the free run), `number_of_pages` its
field of that name.  The `link` field is represented by the position of the
node in the list. -/
structure free_page_list_t where
  addr : Nat
  number_of_pages : Nat
deriving DecidableEq

/-- The function `alloc_pages_on_node`.  Returns the pointer and the nodes that
stand in the list where `pages` stood: the residual lower part of `pages`
(absent when `bottom = 0`, `list_remove`) followed by the node split off above
the ceiling (present when `top < pages->number_of_pages`, `list_insert` after
`pages`).  The split node is a node of its own whenever `top > 0`; at `top = 0`
the source writes it over `pages` itself, and only the returned pointer of the
model is meaningful there. -/
def alloc_pages_on_node (pages : free_page_list_t) (number_of_pages max_address : Nat) :
    Nat × List free_page_list_t :=
  -- uintptr_t top = (max_address + 1 - (uintptr_t)pages) >> PAGE_SHIFT;
  let top := ((max_address + 1 + WORD - pages.addr) % WORD) >>> PAGE_SHIFT
  let top := if top > pages.number_of_pages then pages.number_of_pages else top
  let split : List free_page_list_t :=
    if top < pages.number_of_pages then
      [{ addr := (pages.addr + PAGES_TO_SIZE top) % WORD,
         number_of_pages := pages.number_of_pages - top }]
    else []
  -- uintptr_t bottom = top - number_of_pages;
  let bottom := (top + WORD - number_of_pages) % WORD
  let rest : List free_page_list_t :=
    if bottom > 0 then [{ pages with number_of_pages := bottom }] else []
  ((pages.addr + PAGES_TO_SIZE bottom) % WORD, rest ++ split)

/-- The test of the loop of `page_alloc_max` on one node:
`pages->number_of_pages >= page_count &&
 ((uintptr_t)pages + PAGES_TO_SIZE(page_count) - 1) <= max_address`. -/
def page_fits (pages : free_page_list_t) (page_count max_address : Nat) : Bool :=
  decide (pages.number_of_pages ≥ page_count) &&
    decide ((pages.addr + PAGES_TO_SIZE page_count + WORD - 1) % WORD ≤ max_address)

/-- The loop of `page_alloc_max` over the nodes from `m_memory_map.prev`
backwards: the nodes nearer the tail are tried first, and the first node
passing the test is handed to `alloc_pages_on_node`.  `none` when the loop
ends without a match. -/
def page_alloc_scan (page_count max_address : Nat) :
    List free_page_list_t → Option (Nat × List free_page_list_t)
  | [] => none
  | pages :: later =>
    match page_alloc_scan page_count max_address later with
    | some (ptr, later') => some (ptr, pages :: later')
    | none =>
      if page_fits pages page_count max_address then
        let r := alloc_pages_on_node pages page_count max_address
        some (r.1, r.2 ++ later)
      else none

/-- The function `page_alloc_max`: the pointer (`0` for `NULL`) and the free
list after the call. -/
def page_alloc_max (m_memory_map : List free_page_list_t) (page_count max_address : Nat) :
    Nat × List free_page_list_t :=
  match page_alloc_scan page_count max_address m_memory_map with
  | some r => r
  | none => (0, m_memory_map)

/-- The function `page_alloc`. -/
def page_alloc (m_memory_map : List free_page_list_t) (page_count : Nat) :
    Nat × List free_page_list_t :=
  page_alloc_max m_memory_map page_count UINT64_MAX

/-- The function `page_merge_nodes`, applied to `node` and the node `next`
that follows it in the list.  Returns the nodes that stand where the two
stood; the pointer the source returns is the last of them. -/
def page_merge_nodes (node next : free_page_list_t) : List free_page_list_t :=
  if ((next.addr + WORD - node.addr) % WORD) >>> PAGE_SHIFT = node.number_of_pages then
    [{ node with number_of_pages := (node.number_of_pages + next.number_of_pages) % WORD }]
  else [node, next]

/-- The function `page_free`.  The scan stops at the first node with
`ptr < (void*)pages`; `before` are the nodes walked past, `after` starts at
`node` (empty when `node == &m_memory_map`).  The new node is linked in front
of `node`, merged backwards when it has a predecessor, and the node returned
by that merge is merged forwards when `node != &m_memory_map`. -/
def page_free (m_memory_map : List free_page_list_t) (ptr page_count : Nat) :
    List free_page_list_t :=
  let before := m_memory_map.takeWhile (fun pages => !decide (ptr < pages.addr))
  let after := m_memory_map.dropWhile (fun pages => !decide (ptr < pages.addr))
  let pages : free_page_list_t := { addr := ptr, number_of_pages := page_count }
  match before.reverse, after with
  | [], [] => [pages]
  | [], node :: rest => page_merge_nodes pages node ++ rest
  | prev :: init, [] => init.reverse ++ page_merge_nodes prev pages
  | prev :: init, node :: rest =>
    match page_merge_nodes prev pages with
    | [merged] => init.reverse ++ (page_merge_nodes merged node ++ rest)
    | _ => init.reverse ++ (prev :: (page_merge_nodes pages node ++ rest))

/-- The classification of a boot memory-map entry, after the table
`m_memmap_entry_name`. -/
inductive limine_memmap_type where
  | USABLE | RESERVED | ACPI_RECLAIMABLE | ACPI_NVS | BAD_MEMORY
  | BOOTLOADER_RECLAIMABLE | KERNEL_AND_MODULES | FRAMEBUFFER
deriving DecidableEq

/-- The fields of `struct limine_memmap_entry` that `init_page` reads. -/
structure limine_memmap_entry where
  base : Nat
  length : Nat
  type : limine_memmap_type
deriving DecidableEq

/-- The function `init_page`: every usable entry is handed to `page_free` at
its address in the direct map (`base + offset`). -/
def init_page (offset : Nat) (entries : List limine_memmap_entry)
    (m_memory_map : List free_page_list_t) : List free_page_list_t :=
  entries.foldl
    (fun m e =>
      if e.type = limine_memmap_type.USABLE then
        page_free m ((e.base + offset) % WORD) (SIZE_TO_PAGES e.length)
      else m)
    m_memory_map

/-! ## `kernel/mem/pool.c` -/

/-- The constant `MIN_POOL_SHIFT`. -/
def MIN_POOL_SHIFT : Nat := 6

/-- The constant `MIN_POOL_SIZE`, `1 << MIN_POOL_SHIFT`. -/
def MIN_POOL_SIZE : Nat := 1 <<< MIN_POOL_SHIFT

/-- The constant `MAX_POOL_SHIFT`, `PAGE_SHIFT - 1`. -/
def MAX_POOL_SHIFT : Nat := PAGE_SHIFT - 1

/-- The constant `MAX_POOL_SIZE`, `1 << MAX_POOL_SHIFT`. -/
def MAX_POOL_SIZE : Nat := 1 <<< MAX_POOL_SHIFT

/-- The constant `MAX_POOL_INDEX`, the number of pool lists. -/
def MAX_POOL_INDEX : Nat := MAX_POOL_SHIFT - MIN_POOL_SHIFT + 1

/-- The size in bytes of `pool_header_t`, a single `size_t` field. -/
def POOL_HEADER_SIZE : Nat := 8

/-- The memory the two allocators work on.
* `m_memory_map`: the page free list.
* `m_alloc_pool_lists k`: the blocks linked on pool list `k`, first
  (`.next`) to last, each given by the address of its `free_pool_header_t`.
* `hdr_size a`: the `size` field of the `pool_header_t` stored at address `a`.
* `bytes a`: the byte at address `a` as read through a payload pointer.
The link fields of free blocks are represented by the lists; header words and
payload bytes are kept as two views, which agree with the source as long as a
payload write stays inside its block. -/
structure Heap where
  m_memory_map : List free_page_list_t
  m_alloc_pool_lists : Nat → List Nat
  hdr_size : Nat → Nat
  bytes : Nat → Nat

/-- The store `hdr->header.size = v`. -/
def Heap.set_size (s : Heap) (hdr v : Nat) : Heap :=
  { s with hdr_size := fun a => if a = hdr then v else s.hdr_size a }

/-- Replaces the blocks linked on pool list `pool_index`. -/
def Heap.set_pool (s : Heap) (pool_index : Nat) (l : List Nat) : Heap :=
  { s with m_alloc_pool_lists := fun k => if k = pool_index then l else s.m_alloc_pool_lists k }

/-- The tail of `alloc_pool_by_index`:
`if (hdr != NULL) hdr->header.size = MIN_POOL_SIZE << pool_index; return hdr;`. -/
def pool_set_header (hdr : Nat) (s : Heap) (pool_index : Nat) : Nat × Heap :=
  if hdr ≠ 0 then (hdr, s.set_size hdr (MIN_POOL_SIZE <<< pool_index)) else (hdr, s)

/-- The function `alloc_pool_by_index` at `pool_index = MAX_POOL_INDEX - d`; the
recursion of the source on `pool_index + 1` is the recursion on `d`. -/
def alloc_pool_below (s : Heap) : Nat → Nat × Heap
  | 0 =>
    -- pool_index == MAX_POOL_INDEX: hdr = page_alloc(1)
    let r := page_alloc s.m_memory_map 1
    pool_set_header r.1 { s with m_memory_map := r.2 } MAX_POOL_INDEX
  | d + 1 =>
    let pool_index := MAX_POOL_INDEX - (d + 1)
    match s.m_alloc_pool_lists pool_index with
    | hdr :: rest =>
      -- the list is not empty: take its first block, list_remove
      pool_set_header hdr (s.set_pool pool_index rest) pool_index
    | [] =>
      let r := alloc_pool_below s d
      if r.1 ≠ 0 then
        -- hdr->header.size >>= 1; list_insert(&m_alloc_pool_lists[pool_index], &hdr->link)
        let s1 := r.2.set_size r.1 (r.2.hdr_size r.1 >>> 1)
        let s2 := s1.set_pool pool_index (r.1 :: s1.m_alloc_pool_lists pool_index)
        -- hdr = (free_pool_header_t*)((uintptr_t)hdr + hdr->header.size)
        pool_set_header ((r.1 + s2.hdr_size r.1) % WORD) s2 pool_index
      else pool_set_header 0 r.2 pool_index

/-- The function `alloc_pool_by_index`.  `none` stands for a `pool_index` above
`MAX_POOL_INDEX`, where the source indexes `m_alloc_pool_lists` out of bounds. -/
def alloc_pool_by_index (s : Heap) (pool_index : Nat) : Option (Nat × Heap) :=
  if pool_index ≤ MAX_POOL_INDEX then
    some (alloc_pool_below s (MAX_POOL_INDEX - pool_index))
  else none

/-- The number of leading zero bits among the low `k` bits of `val`. -/
def leading_zeros (val : Nat) : Nat → Nat
  | 0 => 0
  | k + 1 => if val.testBit k then 0 else leading_zeros val k + 1

/-- The builtin `__builtin_clz` on a `uint32_t`; undefined (`none`) at `0`. -/
def builtin_clz (val : Nat) : Option Nat :=
  if val % 2 ^ 32 = 0 then none else some (leading_zeros (val % 2 ^ 32) 32)

/-- The function `highest_set_bit`: `31 - __builtin_clz(val)`. -/
def highest_set_bit (val : Nat) : Option Nat :=
  (builtin_clz val).map (fun z => 31 - z)

/-- The pool index `uacpi_kernel_alloc` computes from `size` (header included):
`size = (size + MIN_POOL_SIZE - 1) >> MIN_POOL_SHIFT; pool_index = highest_set_bit(size);
 if ((size & (size - 1)) != 0) pool_index++;`. -/
def pool_index_of (size : Nat) : Option Nat :=
  let size := ((size + MIN_POOL_SIZE - 1) % WORD) >>> MIN_POOL_SHIFT
  (highest_set_bit size).map
    (fun pool_index => if size &&& (size - 1) ≠ 0 then pool_index + 1 else pool_index)

/-- The function `uacpi_kernel_alloc`: the payload pointer (`0` for `NULL`) and
the memory after the call; `none` where the source has no defined result. -/
def uacpi_kernel_alloc (s : Heap) (size : Nat) : Option (Nat × Heap) :=
  -- size += sizeof(pool_header_t);
  let size := (size + POOL_HEADER_SIZE) % WORD
  if size > MAX_POOL_SIZE then
    let no_pages := SIZE_TO_PAGES size
    let r := page_alloc s.m_memory_map no_pages
    if r.1 = 0 then some (0, { s with m_memory_map := r.2 })
    else
      some ((r.1 + POOL_HEADER_SIZE) % WORD,
        ({ s with m_memory_map := r.2 } : Heap).set_size r.1 (PAGES_TO_SIZE no_pages))
  else
    match pool_index_of size with
    | none => none
    | some pool_index =>
      match alloc_pool_by_index s pool_index with
      | none => none
      | some (ptr, s') =>
        some (if ptr ≠ 0 then (ptr + POOL_HEADER_SIZE) % WORD else 0, s')

/-- The header address `(pool_header_t*)mem - 1` of a payload pointer. -/
def header_of (mem : Nat) : Nat :=
  (mem + WORD - POOL_HEADER_SIZE) % WORD

/-- The function `uacpi_kernel_free`; `none` where the source has no defined
result (a recorded size below `MIN_POOL_SIZE`, whose list index is out of
bounds). -/
def uacpi_kernel_free (s : Heap) (mem : Nat) : Option Heap :=
  if mem = 0 then some s
  else
    let header := header_of mem
    if s.hdr_size header > MAX_POOL_SIZE then
      some { s with
        m_memory_map := page_free s.m_memory_map header (SIZE_TO_PAGES (s.hdr_size header)) }
    else
      match highest_set_bit (s.hdr_size header) with
      | none => none
      | some bit =>
        if bit < MIN_POOL_SHIFT then none
        else
          let pool_index := bit - MIN_POOL_SHIFT
          some (s.set_pool pool_index (header :: s.m_alloc_pool_lists pool_index))

/-- The builtin `__builtin_memset(ptr, 0, n)` on the block whose payload starts
at `ptr`.  The header in front of the payload records the size of the block,
header included, so the payload has room for `hdr_size - 8` bytes.  The `n`
bytes are written when they lie inside the block and below the end of the
64-bit address space.  A write that runs past the end of the block has no
defined result (`none`): in the source it runs over the headers and list
links of whatever follows the block, for as many bytes as `n` says. -/
def memset_zero (s : Heap) (ptr n : Nat) : Option Heap :=
  if n + POOL_HEADER_SIZE ≤ s.hdr_size (header_of ptr) ∧ ptr + n ≤ WORD then
    some { s with bytes := fun a => if ptr ≤ a ∧ a < ptr + n then 0 else s.bytes a }
  else none

/-- The function `uacpi_kernel_calloc`; `count` and `size` are 64-bit values,
and `__builtin_mul_overflow` reports that their product does not fit in 64
bits.  `none` where the source has no defined result: where
`uacpi_kernel_alloc` has none, and where the `memset` of `result` bytes runs
past the end of the block that `uacpi_kernel_alloc` returned. -/
def uacpi_kernel_calloc (s : Heap) (count size : Nat) : Option (Nat × Heap) :=
  if count * size ≥ WORD then some (0, s)
  else
    let result := count * size
    match uacpi_kernel_alloc s result with
    | none => none
    | some (ptr, s') =>
      if ptr ≠ 0 then (memset_zero s' ptr result).map (fun zeroed => (ptr, zeroed))
      else some (ptr, s')

/-! ## Predicates and sample memories used in the statements -/

/-- The first address above the run of a node. -/
def free_page_list_t.limit (nd : free_page_list_t) : Nat :=
  nd.addr + nd.number_of_pages * PAGE_SIZE

/-- The list invariant of the page free list: every node address is page
aligned and not `NULL`, no run wraps past the end of the 64-bit address space,
and the runs are strictly increasing and not adjacent: each run ends strictly
below the start of every later run. -/
def list_invariant (m : List free_page_list_t) : Prop :=
  (∀ nd ∈ m, nd.addr % PAGE_SIZE = 0 ∧ nd.addr ≠ 0 ∧ nd.limit ≤ WORD) ∧
  m.Pairwise (fun a b => a.limit < b.addr)

/-- The byte at address `x` lies in the run of a node of the free list. -/
def is_free (m : List free_page_list_t) (x : Nat) : Prop :=
  ∃ nd ∈ m, nd.addr ≤ x ∧ x < nd.limit

/-- The clamped top boundary (in pages from the node start) that
`alloc_pages_on_node` computes for a node at `A` with `n` pages, written
without wrap-around. -/
def clamped_top (A n max_address : Nat) : Nat :=
  min n ((max_address + 1 - A) / PAGE_SIZE)

/-- A run of `c` contiguous free pages starts at `p`: `p` is page aligned and
every byte of `[p, p + c * PAGE_SIZE)` is free. -/
def free_run (m : List free_page_list_t) (p c : Nat) : Prop :=
  p % PAGE_SIZE = 0 ∧ ∀ x, p ≤ x → x < p + c * PAGE_SIZE → is_free m x

/-- The six size classes of the pool, `MIN_POOL_SIZE << k` for the indices `k`
of `m_alloc_pool_lists`. -/
def pool_classes : List Nat :=
  (List.range MAX_POOL_INDEX).map (fun k => MIN_POOL_SIZE <<< k)

/-- Every block address linked on one of the six pool lists is a 64-bit
pointer value. -/
def pool_typed (s : Heap) : Prop :=
  ∀ k, k < MAX_POOL_INDEX → ∀ a ∈ s.m_alloc_pool_lists k, a < WORD

/-- A memory with one free page at `4096`, empty pool lists, no recorded
header and every byte set to `0xAA`. -/
def one_page_heap : Heap :=
  { m_memory_map := [⟨4096, 1⟩]
    m_alloc_pool_lists := fun _ => []
    hdr_size := fun _ => 0
    bytes := fun _ => 0xAA }

/-- The memory `one_page_heap` after `uacpi_kernel_alloc 100`, which returns
the payload pointer `8072` of a 128-byte block. -/
def heap_after_alloc : Heap :=
  ((uacpi_kernel_alloc one_page_heap 100).getD (0, one_page_heap)).2

/-- A memory with sixteen free pages at `0x100000`, empty pool lists and no
recorded header. -/
def sixteen_page_heap : Heap :=
  { m_memory_map := [⟨0x100000, 16⟩]
    m_alloc_pool_lists := fun _ => []
    hdr_size := fun _ => 0
    bytes := fun _ => 0 }

/-! ## `kernel/thread/sleep.c` -/

/-- The static `m_tsc_frequency`, which no code of the repository changes. -/
def m_tsc_frequency : Nat := 1

/-- The function `uacpi_kernel_get_ticks`, on the value `tsc` that
`__builtin_ia32_rdtsc` returns: `(tsc / m_tsc_frequency) * 10000000u` in 64
bits. -/
def uacpi_kernel_get_ticks (tsc : Nat) : Nat :=
  ((tsc / m_tsc_frequency) * 10000000) % WORD

/-! ## `kernel/sync/mutex.c`, `kernel/sync/spinlock.c`, `kernel/sync/event.c`

The waiting loops run under a fuel bound: `none` means that the call has not
returned after `fuel` atomic operations.  `env i v` is the value other
execution contexts leave in the shared object just before the `i`-th atomic
operation of the call, `v` being the value the call last left there; the
identity stands for a call that nobody interferes with.  `tsc j` is the cycle
counter at the `j`-th tick reading inside the loop, `now` the one at the
reading that computes the deadline. -/

/-- The constant `UINT16_MAX`. -/
def UINT16_MAX : Nat := 0xFFFF

/-- The deadline both `uacpi_kernel_acquire_mutex` and
`uacpi_kernel_wait_for_event` compute:
`deadline = UINT64_MAX; if (timeout < UINT16_MAX)
 deadline = uacpi_kernel_get_ticks() + (((uint64_t)timeout) * 10000);`. -/
def wait_deadline (timeout now : Nat) : Nat :=
  if timeout < UINT16_MAX then
    (uacpi_kernel_get_ticks now + (timeout * 10000) % WORD) % WORD
  else UINT64_MAX

/-- The environment of a call that runs alone. -/
def no_interference {α : Type} : Nat → α → α := fun _ v => v

/-- The loop of `uacpi_kernel_acquire_mutex`:
`while (!atomic_flag_test_and_set_explicit(&mutex->flag, ...)) { pause;
 if (uacpi_kernel_get_ticks() >= deadline) return false; } return true;`.
`atomic_flag_test_and_set` sets the flag and returns the value it had.  The
result is the returned boolean and the flag after the call. -/
def mutex_spin (env : Nat → Bool → Bool) (tsc : Nat → Nat) (deadline : Nat) :
    Nat → Nat → Bool → Option (Bool × Bool)
  | 0, _, _ => none
  | fuel + 1, i, flag =>
    let previous := env i flag
    if !previous then
      if uacpi_kernel_get_ticks (tsc i) ≥ deadline then some (false, true)
      else mutex_spin env tsc deadline fuel (i + 1) true
    else some (true, true)

/-- The function `uacpi_kernel_acquire_mutex` on a mutex whose flag is `flag`. -/
def uacpi_kernel_acquire_mutex (env : Nat → Bool → Bool) (now : Nat) (tsc : Nat → Nat)
    (fuel : Nat) (flag : Bool) (timeout : Nat) : Option (Bool × Bool) :=
  mutex_spin env tsc (wait_deadline timeout now) fuel 0 flag

/-- The function `uacpi_kernel_release_mutex`: the flag after
`atomic_flag_clear_explicit`. -/
def uacpi_kernel_release_mutex (_flag : Bool) : Bool := false

/-- The loop of `uacpi_kernel_lock_spinlock`:
`while (!atomic_flag_test_and_set_explicit(&lock->flag, ...));`.  The result
is the number of test-and-set operations performed and the flag after the
loop. -/
def spinlock_spin (env : Nat → Bool → Bool) : Nat → Nat → Bool → Option (Nat × Bool)
  | 0, _, _ => none
  | fuel + 1, i, flag =>
    let previous := env i flag
    if !previous then spinlock_spin env fuel (i + 1) true
    else some (i + 1, true)

/-- What a call of `uacpi_kernel_lock_spinlock` that returns leaves behind. -/
structure spinlock_outcome where
  /-- the returned `uacpi_cpu_flags` -/
  flags : Nat
  /-- whether interrupts are enabled after the call -/
  interrupts : Bool
  /-- the flag of the spinlock after the call -/
  flag : Bool
  /-- the number of test-and-set operations performed -/
  iterations : Nat
deriving DecidableEq

/-- The function `uacpi_kernel_lock_spinlock`; `eflags` is the value of
`__builtin_ia32_readeflags_u64()`, whose bit `0x0200` is the interrupt flag
that `cli` clears. -/
def uacpi_kernel_lock_spinlock (env : Nat → Bool → Bool) (fuel : Nat) (eflags : Nat)
    (flag : Bool) : Option spinlock_outcome :=
  match spinlock_spin env fuel 0 flag with
  | none => none
  | some (n, flag') =>
    some { flags := eflags, interrupts := false, flag := flag', iterations := n }

/-- What a call of `uacpi_kernel_wait_for_event` that returns leaves behind. -/
structure wait_outcome where
  /-- the returned boolean -/
  returned : Bool
  /-- the counter `event->count` after the call -/
  count : Nat
  /-- the stores the call made to `event->count`, as (old value, new value) -/
  writes : List (Nat × Nat)
  /-- the number of timeout checks the call made -/
  checks : Nat
deriving DecidableEq

/-- The `for (;;)` loop of `uacpi_kernel_wait_for_event`, one atomic operation
per step.  `count` is the local variable of that name and `shared` the counter
`event->count`: at `count = 0` the next operation is the `atomic_load` of the
first inner loop, otherwise it is the `atomic_compare_exchange_strong` of the
second, which on failure stores the current value of the counter into
`count`. -/
def event_wait_loop (env : Nat → Nat → Nat) (tsc : Nat → Nat) (deadline : Nat) :
    Nat → Nat → Nat → Nat → Nat → Option wait_outcome
  | 0, _, _, _, _ => none
  | fuel + 1, i, checks, count, shared =>
    let current := env i shared
    if count = 0 then
      if current = 0 then
        if uacpi_kernel_get_ticks (tsc checks) ≥ deadline then
          some { returned := false, count := current, writes := [], checks := checks + 1 }
        else event_wait_loop env tsc deadline fuel (i + 1) (checks + 1) 0 current
      else event_wait_loop env tsc deadline fuel (i + 1) checks current current
    else
      if current = count then
        some { returned := true, count := count - 1, writes := [(count, count - 1)],
               checks := checks }
      else event_wait_loop env tsc deadline fuel (i + 1) checks current current

/-- The function `uacpi_kernel_wait_for_event` on an event whose counter is
`count`. -/
def uacpi_kernel_wait_for_event (env : Nat → Nat → Nat) (now : Nat) (tsc : Nat → Nat)
    (fuel : Nat) (count : Nat) (timeout : Nat) : Option wait_outcome :=
  event_wait_loop env tsc (wait_deadline timeout now) fuel 0 0 0 count

/-- The function `uacpi_kernel_signal_event`: the counter after
`atomic_fetch_add_explicit(&event->count, 1, ...)`. -/
def uacpi_kernel_signal_event (count : Nat) : Nat := (count + 1) % WORD

/-- The function `uacpi_kernel_reset_event`: the counter after the store of `0`. -/
def uacpi_kernel_reset_event (_count : Nat) : Nat := 0

/-- A run of `n` calls of `uacpi_kernel_wait_for_event`, one after the other
and without interference, the `k`-th from the end with timeout `timeout k` and
tick readings `now k`, `tsc k`: the outcomes in call order and the counter
after the last call; `none` when a call does not return within `fuel`. -/
def event_wait_sequence (timeout now : Nat → Nat) (tsc : Nat → Nat → Nat) (fuel : Nat) :
    Nat → Nat → Option (List wait_outcome × Nat)
  | 0, count => some ([], count)
  | n + 1, count =>
    match uacpi_kernel_wait_for_event no_interference (now n) (tsc n) fuel count (timeout n) with
    | none => none
    | some o =>
      match event_wait_sequence timeout now tsc fuel n o.count with
      | none => none
      | some (os, final) => some (o :: os, final)

/-! ## Calls of `page_alloc` made by the pool allocator -/

/-- The number of calls of `page_alloc` that `alloc_pool_by_index` makes at
`pool_index = MAX_POOL_INDEX - d`: one when the recursion reaches
`MAX_POOL_INDEX`, none when it stops at a list that is not empty. -/
def page_alloc_calls_below (s : Heap) : Nat → Nat
  | 0 => 1
  | d + 1 =>
    match s.m_alloc_pool_lists (MAX_POOL_INDEX - (d + 1)) with
    | _ :: _ => 0
    | [] => page_alloc_calls_below s d

/-- The number of calls of `page_alloc` that `uacpi_kernel_alloc s size` makes,
along the same branches as `uacpi_kernel_alloc`. -/
def uacpi_kernel_alloc_page_calls (s : Heap) (size : Nat) : Option Nat :=
  let size := (size + POOL_HEADER_SIZE) % WORD
  if size > MAX_POOL_SIZE then some 1
  else
    match pool_index_of size with
    | none => none
    | some pool_index =>
      if pool_index ≤ MAX_POOL_INDEX then
        some (page_alloc_calls_below s (MAX_POOL_INDEX - pool_index))
      else none


/-! ## The free-list invariant with non-empty nodes -/

/-- The free-list invariant: the list invariant, and every node has at least
one page. -/
def free_list_invariant (m : List free_page_list_t) : Prop :=
  list_invariant m ∧ ∀ nd ∈ m, 1 ≤ nd.number_of_pages

/-- The predicate of the free list with no more than these words: node
addresses are page aligned and strictly increasing, every node has at least
one page, and no node ends exactly where the next begins. -/
def free_list_predicate_as_stated (m : List free_page_list_t) : Prop :=
  (∀ nd ∈ m, nd.addr % PAGE_SIZE = 0 ∧ 1 ≤ nd.number_of_pages) ∧
  m.Pairwise (fun a b => a.addr < b.addr) ∧
  m.Chain' (fun a b => a.limit ≠ b.addr)


/-! ## The pool invariant -/

/-- The number of blocks linked on pool list `k` whose bytes
`[a, a + (MIN_POOL_SIZE << k))` contain `x`. -/
def class_cover (s : Heap) (k x : Nat) : Nat :=
  (s.m_alloc_pool_lists k).countP (fun a => decide (a ≤ x ∧ x < a + MIN_POOL_SIZE <<< k))

/-- The number of blocks linked on the six pool lists that contain the byte `x`. -/
def pool_cover (s : Heap) (x : Nat) : Nat :=
  class_cover s 0 x + class_cover s 1 x + class_cover s 2 x + class_cover s 3 x +
    class_cover s 4 x + class_cover s 5 x

/-- The number of live blocks that contain the byte `x`; a live block is given
by its payload pointer `p` and extends from its header for the number of bytes
the header records. -/
def live_cover (s : Heap) (live : List Nat) (x : Nat) : Nat :=
  live.countP (fun p =>
    decide (header_of p ≤ x ∧ x < header_of p + s.hdr_size (header_of p)))

/-- The predicate of the pool free lists: for every index `k` in `0..5`, every
block on list `k` has recorded header size `64 * 2 ^ k`. -/
def pool_class_invariant (s : Heap) : Prop :=
  ∀ k, k < MAX_POOL_INDEX → ∀ a ∈ s.m_alloc_pool_lists k, s.hdr_size a = 64 * 2 ^ k

/-- The invariant of the memory together with the payload pointers `live` that
`uacpi_kernel_alloc` has returned and `uacpi_kernel_free` has not yet taken
back: the page free list satisfies the free-list invariant; every block on a
pool list is not `NULL`, lies inside the address space and records the size of
its class; every live pointer is its header plus 8 and its header records a
class size or a whole number of pages at a page-aligned address; no byte lies
in two blocks, pool or live; and no free page byte lies in any of them. -/
def pool_invariant (s : Heap) (live : List Nat) : Prop :=
  free_list_invariant s.m_memory_map ∧
  (∀ k, k < MAX_POOL_INDEX → ∀ a ∈ s.m_alloc_pool_lists k,
    a ≠ 0 ∧ a + MIN_POOL_SIZE <<< k ≤ WORD ∧ s.hdr_size a = MIN_POOL_SIZE <<< k) ∧
  (∀ p ∈ live, p < WORD ∧ p = header_of p + POOL_HEADER_SIZE ∧ header_of p ≠ 0 ∧
    header_of p + s.hdr_size (header_of p) ≤ WORD ∧
    ((∃ k, k < MAX_POOL_INDEX ∧ s.hdr_size (header_of p) = MIN_POOL_SIZE <<< k) ∨
     (header_of p % PAGE_SIZE = 0 ∧ ∃ n, 1 ≤ n ∧ s.hdr_size (header_of p) = n * PAGE_SIZE))) ∧
  (∀ x, pool_cover s x + live_cover s live x ≤ 1) ∧
  (∀ x, is_free s.m_memory_map x → pool_cover s x + live_cover s live x = 0)

/-- The memories that can be reached, paired with their live pointers: from
six empty pool lists over a page free list satisfying the free-list invariant,
by calls of `uacpi_kernel_alloc` of any size and calls of `uacpi_kernel_free`
on pointers that are live. -/
inductive pool_reachable : Heap → List Nat → Prop
  | init (s : Heap) :
      free_list_invariant s.m_memory_map →
      (∀ k, k < MAX_POOL_INDEX → s.m_alloc_pool_lists k = []) →
      pool_reachable s []
  | alloc (s : Heap) (live : List Nat) (size p : Nat) (s' : Heap) :
      pool_reachable s live →
      uacpi_kernel_alloc s size = some (p, s') →
      pool_reachable s' (if p = 0 then live else p :: live)
  | free (s : Heap) (live : List Nat) (p : Nat) (s' : Heap) :
      pool_reachable s live →
      p ∈ live →
      uacpi_kernel_free s p = some s' →
      pool_reachable s' (live.erase p)



/-! ## Byte ranges of the blocks -/

/-- The byte ranges `[start, stop)`, as pairs `(start, stop)`, of the live
blocks (from the header, for the number of bytes the header records), of the
blocks linked on the six pool lists (likewise), and of the nodes of the page
free list (`number_of_pages` pages from the node). -/
def block_ranges (s : Heap) (live : List Nat) : List (Nat × Nat) :=
  live.map (fun p => (header_of p, header_of p + s.hdr_size (header_of p))) ++
  (((List.range MAX_POOL_INDEX).map (fun k =>
      (s.m_alloc_pool_lists k).map (fun a => (a, a + s.hdr_size a)))).flatten ++
    s.m_memory_map.map (fun nd => (nd.addr, nd.limit)))

/-- Two byte ranges share no byte: one ends at or below the start of the
other. -/
def ranges_disjoint (r₁ r₂ : Nat × Nat) : Prop :=
  r₁.2 ≤ r₂.1 ∨ r₂.2 ≤ r₁.1

instance ranges_disjoint_decidable (r₁ r₂ : Nat × Nat) : Decidable (ranges_disjoint r₁ r₂) :=
  inferInstanceAs (Decidable (r₁.2 ≤ r₂.1 ∨ r₂.2 ≤ r₁.1))

/-- The number of ranges of a list that contain the byte `x`. -/
def range_cover (l : List (Nat × Nat)) (x : Nat) : Nat :=
  l.countP (fun r => decide (r.1 ≤ x ∧ x < r.2))



/-! ## Word arithmetic -/

theorem shr12 (x : Nat) : x >>> PAGE_SHIFT = x / 4096 := by
  simp [PAGE_SHIFT, Nat.shiftRight_eq_div_pow]

theorem PAGES_TO_SIZE_eq (p : Nat) : PAGES_TO_SIZE p = (p * 4096) % 2 ^ 64 := by
  simp [PAGES_TO_SIZE, PAGE_SHIFT, WORD, Nat.shiftLeft_eq]

theorem and_mask (x : Nat) : x &&& PAGE_MASK = x % 4096 := by
  have := Nat.and_pow_two_sub_one_eq_mod x 12
  simpa [PAGE_MASK] using this

theorem SIZE_TO_PAGES_eq (s : Nat) : SIZE_TO_PAGES s = (s + 4095) / 4096 := by
  simp only [SIZE_TO_PAGES, shr12, and_mask]
  split <;> omega

/-! ## One node -/

theorem page_fits_iff (A n c max_address : Nat) (hfit : A + n * 4096 ≤ 2 ^ 64)
    (hc : 1 ≤ c) :
    page_fits ⟨A, n⟩ c max_address = true ↔ c ≤ n ∧ A + c * 4096 ≤ max_address + 1 := by
  simp only [page_fits, PAGES_TO_SIZE_eq, WORD, Bool.and_eq_true, decide_eq_true_eq]
  constructor
  · rintro ⟨h1, h2⟩
    refine ⟨h1, ?_⟩
    omega
  · rintro ⟨h1, h2⟩
    refine ⟨h1, ?_⟩
    omega

theorem clamped_top_bounds (A n c max_address : Nat) (hcn : c ≤ n)
    (hlow : A + c * 4096 ≤ max_address + 1) :
    c ≤ clamped_top A n max_address ∧ clamped_top A n max_address ≤ n ∧
      A + clamped_top A n max_address * 4096 ≤ max_address + 1 := by
  unfold clamped_top
  simp only [PAGE_SIZE]
  have h1 : c ≤ (max_address + 1 - A) / 4096 := by
    apply (Nat.le_div_iff_mul_le (by norm_num)).2; omega
  have h2 : (max_address + 1 - A) / 4096 * 4096 ≤ max_address + 1 - A :=
    Nat.div_mul_le_self _ _
  omega

theorem alloc_pages_on_node_eq (A n c max_address : Nat) (hA : A ≠ 0)
    (hfit : A + n * 4096 ≤ 2 ^ 64) (hc : 1 ≤ c) (hcn : c ≤ n) (hmax : max_address < 2 ^ 64)
    (hlow : A + c * 4096 ≤ max_address + 1) :
    alloc_pages_on_node ⟨A, n⟩ c max_address =
      (A + (clamped_top A n max_address - c) * 4096,
        (if 0 < clamped_top A n max_address - c
          then [⟨A, clamped_top A n max_address - c⟩] else []) ++
        (if clamped_top A n max_address < n
          then [⟨A + clamped_top A n max_address * 4096, n - clamped_top A n max_address⟩]
          else [])) := by
  have htop0 : ((max_address + 1 + WORD - A) % WORD) >>> PAGE_SHIFT
      = (max_address + 1 - A) / 4096 := by
    rw [shr12]; simp only [WORD]
    have : (max_address + 1 + 2 ^ 64 - A) % 2 ^ 64 = max_address + 1 - A := by omega
    rw [this]
  have htop : (if (max_address + 1 - A) / 4096 > n then n else (max_address + 1 - A) / 4096)
      = clamped_top A n max_address := by
    unfold clamped_top; simp only [PAGE_SIZE]; split <;> omega
  obtain ⟨hct, htn, -⟩ := clamped_top_bounds A n c max_address hcn hlow
  generalize clamped_top A n max_address = t at *
  have hbot : (t + WORD - c) % WORD = t - c := by simp only [WORD]; omega
  have hp1 : t < n → (A + PAGES_TO_SIZE t) % WORD = A + t * 4096 := by
    intro _; rw [PAGES_TO_SIZE_eq]; simp only [WORD]; omega
  have hp2 : (A + PAGES_TO_SIZE (t - c)) % WORD = A + (t - c) * 4096 := by
    rw [PAGES_TO_SIZE_eq]; simp only [WORD]; omega
  simp only [alloc_pages_on_node, htop0, htop, hbot, hp2, gt_iff_lt]
  by_cases h : t < n
  · simp only [h, hp1 h, if_true]
  · simp only [h, if_false]

/-! ## The scan of `page_alloc_max` -/

theorem page_alloc_scan_none (c max_address : Nat) (m : List free_page_list_t) :
    page_alloc_scan c max_address m = none ↔ ∀ nd ∈ m, page_fits nd c max_address = false := by
  induction m with
  | nil => simp [page_alloc_scan]
  | cons pages later ih =>
    simp only [page_alloc_scan, List.mem_cons, forall_eq_or_imp]
    cases hl : page_alloc_scan c max_address later with
    | some r => 
      have : ¬ ∀ nd ∈ later, page_fits nd c max_address = false := by
        intro h; rw [ih.2 h] at hl; cases hl
      simp [this]
    | none =>
      have := ih.1 hl
      by_cases hf : page_fits pages c max_address = true
      · simp [hf]
      · simp [hf]; exact this

theorem page_alloc_scan_some (c max_address : Nat) (m : List free_page_list_t)
    (r : Nat × List free_page_list_t) (h : page_alloc_scan c max_address m = some r) :
    ∃ pre nd post, m = pre ++ nd :: post ∧ page_fits nd c max_address = true ∧
      (∀ x ∈ post, page_fits x c max_address = false) ∧
      r = ((alloc_pages_on_node nd c max_address).1,
            pre ++ ((alloc_pages_on_node nd c max_address).2 ++ post)) := by
  induction m generalizing r with
  | nil => simp [page_alloc_scan] at h
  | cons pages later ih =>
    simp only [page_alloc_scan] at h
    cases hl : page_alloc_scan c max_address later with
    | some r' =>
      obtain ⟨pre, nd, post, hm, hf, hpost, hr⟩ := ih r' hl
      rw [hl] at h
      simp only [Option.some.injEq] at h
      refine ⟨pages :: pre, nd, post, by simp [hm], hf, hpost, ?_⟩
      rw [← h, hr]
      rfl
    | none =>
      rw [hl] at h
      by_cases hf : page_fits pages c max_address = true
      · simp only [hf, if_true, Option.some.injEq] at h
        exact ⟨[], pages, later, rfl, hf, (page_alloc_scan_none _ _ _).1 hl, by simp [← h]⟩
      · simp [hf] at h

/-! ## The list invariant -/

theorem list_invariant_replace (pre post mid : List free_page_list_t) (nd : free_page_list_t)
    (hinv : list_invariant (pre ++ nd :: post))
    (hmid : ∀ e ∈ mid, e.addr % PAGE_SIZE = 0 ∧ nd.addr ≤ e.addr ∧ e.limit ≤ nd.limit)
    (hpw : mid.Pairwise (fun a b => a.limit < b.addr)) :
    list_invariant (pre ++ (mid ++ post)) := by
  obtain ⟨hall, hp⟩ := hinv
  rw [List.pairwise_append] at hp
  obtain ⟨hp1, hp2, hp3⟩ := hp
  rw [List.pairwise_cons] at hp2
  obtain ⟨hp2a, hp2b⟩ := hp2
  have hnd := hall nd (by simp)
  have hnd_le : nd.addr ≤ nd.limit := by unfold free_page_list_t.limit; omega
  constructor
  · intro e he
    simp only [List.mem_append] at he
    rcases he with he | he | he
    · exact hall e (by simp [he])
    · obtain ⟨h1, h2, h3⟩ := hmid e he
      exact ⟨h1, by omega, by omega⟩
    · exact hall e (by simp [he])
  · rw [List.pairwise_append]
    refine ⟨hp1, ?_, ?_⟩
    · rw [List.pairwise_append]
      refine ⟨hpw, hp2b, ?_⟩
      intro a ha b hb
      have := hp2a b hb
      have := (hmid a ha).2.2
      omega
    · intro a ha b hb
      simp only [List.mem_append] at hb
      rcases hb with hb | hb
      · have := hp3 a ha nd (by simp)
        have := (hmid b hb).2.1
        omega
      · exact hp3 a ha b (by simp [hb])

theorem is_free_append (l₁ l₂ : List free_page_list_t) (x : Nat) :
    is_free (l₁ ++ l₂) x ↔ is_free l₁ x ∨ is_free l₂ x := by
  simp only [is_free, List.mem_append]
  constructor
  · rintro ⟨nd, h | h, hx⟩
    · exact Or.inl ⟨nd, h, hx⟩
    · exact Or.inr ⟨nd, h, hx⟩
  · rintro (⟨nd, h, hx⟩ | ⟨nd, h, hx⟩)
    · exact ⟨nd, Or.inl h, hx⟩
    · exact ⟨nd, Or.inr h, hx⟩

theorem is_free_cons (nd : free_page_list_t) (l : List free_page_list_t) (x : Nat) :
    is_free (nd :: l) x ↔ (nd.addr ≤ x ∧ x < nd.limit) ∨ is_free l x := by
  simp [is_free]

/-- In a list satisfying the invariant, a byte of the run of one node is in
the run of no node before or after it. -/
theorem is_free_unique (pre post : List free_page_list_t) (nd : free_page_list_t)
    (hinv : list_invariant (pre ++ nd :: post)) (x : Nat) (h1 : nd.addr ≤ x) (h2 : x < nd.limit) :
    ¬ is_free pre x ∧ ¬ is_free post x := by
  obtain ⟨-, hp⟩ := hinv
  rw [List.pairwise_append] at hp
  obtain ⟨-, hp2, hp3⟩ := hp
  rw [List.pairwise_cons] at hp2
  constructor
  · rintro ⟨e, he, hx1, hx2⟩
    have := hp3 e he nd (by simp)
    omega
  · rintro ⟨e, he, hx1, hx2⟩
    have := hp2.1 e he
    omega

/-- What a successful scan does on a list that satisfies the invariant: it
picks the node `⟨A, n⟩` nearest the tail that passes the test, returns the
`c` pages below the clamped top of that node, and leaves the part below them
and the part above the clamped top in the place of the node. -/
theorem page_alloc_scan_inv (m : List free_page_list_t) (c max_address : Nat)
    (hinv : list_invariant m) (hc : 1 ≤ c) (hmax : max_address < 2 ^ 64)
    (r : Nat × List free_page_list_t) (h : page_alloc_scan c max_address m = some r) :
    ∃ pre A n post, m = pre ++ ⟨A, n⟩ :: post ∧ c ≤ n ∧ A + c * 4096 ≤ max_address + 1 ∧
      (∀ x ∈ post, page_fits x c max_address = false) ∧
      r = (A + (clamped_top A n max_address - c) * 4096,
        pre ++ (((if 0 < clamped_top A n max_address - c
          then [⟨A, clamped_top A n max_address - c⟩] else []) ++
        (if clamped_top A n max_address < n
          then [⟨A + clamped_top A n max_address * 4096, n - clamped_top A n max_address⟩]
          else [])) ++ post)) := by
  obtain ⟨pre, ⟨A, n⟩, post, hm, hf, hpost, hr⟩ := page_alloc_scan_some c max_address m r h
  have hnd := hinv.1 ⟨A, n⟩ (by simp [hm])
  simp only [free_page_list_t.limit, PAGE_SIZE, WORD] at hnd
  obtain ⟨hcn, hlow⟩ := (page_fits_iff A n c max_address hnd.2.2 hc).1 hf
  refine ⟨pre, A, n, post, hm, hcn, hlow, hpost, ?_⟩
  rw [hr, alloc_pages_on_node_eq A n c max_address hnd.2.1 hnd.2.2 hc hcn hmax hlow]

/-- The facts about a successful `page_alloc_max` that the contract-level
statements use. -/
theorem page_alloc_scan_post (m : List free_page_list_t) (c max_address : Nat)
    (hinv : list_invariant m) (hc : 1 ≤ c) (hmax : max_address < 2 ^ 64)
    (r : Nat × List free_page_list_t) (h : page_alloc_scan c max_address m = some r) :
    r.1 ≠ 0 ∧ r.1 % PAGE_SIZE = 0 ∧ r.1 + c * PAGE_SIZE ≤ max_address + 1 ∧
      list_invariant r.2 ∧
      (∀ x, r.1 ≤ x → x < r.1 + c * PAGE_SIZE → is_free m x) ∧
      (∀ x, is_free r.2 x → is_free m x ∧ ¬ (r.1 ≤ x ∧ x < r.1 + c * PAGE_SIZE)) := by
  obtain ⟨pre, A, n, post, hm, hcn, hlow, -, hr⟩ :=
    page_alloc_scan_inv m c max_address hinv hc hmax r h
  obtain ⟨hct, htn, htm⟩ := clamped_top_bounds A n c max_address hcn hlow
  subst hm
  have hnd := hinv.1 ⟨A, n⟩ (by simp)
  simp only [free_page_list_t.limit, PAGE_SIZE, WORD] at hnd
  obtain ⟨hal, hA, hfit⟩ := hnd
  generalize clamped_top A n max_address = t at *
  subst hr
  simp only [PAGE_SIZE]
  refine ⟨by omega, by omega, by omega, ?_, ?_, ?_⟩
  · apply list_invariant_replace pre post _ ⟨A, n⟩ hinv
    · intro e he
      simp only [List.mem_append] at he
      rcases he with he | he
      · split at he
        · simp only [List.mem_singleton] at he
          subst he
          simp only [free_page_list_t.limit, PAGE_SIZE]
          omega
        · simp at he
      · split at he
        · simp only [List.mem_singleton] at he
          subst he
          simp only [free_page_list_t.limit, PAGE_SIZE]
          omega
        · simp at he
    · split <;> split <;> simp [free_page_list_t.limit, PAGE_SIZE]
      omega
  · intro x hx1 hx2
    rw [is_free_append, is_free_cons]
    right; left
    simp only [free_page_list_t.limit, PAGE_SIZE]
    omega
  · intro x hx
    rw [is_free_append, is_free_append] at hx
    rcases hx with hx | hx | hx
    · refine ⟨by rw [is_free_append]; exact Or.inl hx, ?_⟩
      intro hin
      exact (is_free_unique pre post ⟨A, n⟩ hinv x (by simp only; omega)
        (by simp only [free_page_list_t.limit, PAGE_SIZE]; omega)).1 hx
    · have hx' : A ≤ x ∧ x < A + n * 4096 ∧
          ¬ (A + (t - c) * 4096 ≤ x ∧ x < A + (t - c) * 4096 + c * 4096) := by
        rw [is_free_append] at hx
        rcases hx with hx | hx
        · split at hx
          · simp only [is_free, List.mem_singleton, exists_eq_left, free_page_list_t.limit,
              PAGE_SIZE] at hx
            omega
          · simp [is_free] at hx
        · split at hx
          · simp only [is_free, List.mem_singleton, exists_eq_left, free_page_list_t.limit,
              PAGE_SIZE] at hx
            omega
          · simp [is_free] at hx
      refine ⟨?_, hx'.2.2⟩
      rw [is_free_append, is_free_cons]
      right; left
      simp only [free_page_list_t.limit, PAGE_SIZE]
      omega
    · refine ⟨by rw [is_free_append, is_free_cons]; exact Or.inr (Or.inr hx), ?_⟩
      intro hin
      exact (is_free_unique pre post ⟨A, n⟩ hinv x (by simp only; omega)
        (by simp only [free_page_list_t.limit, PAGE_SIZE]; omega)).2 hx

/-! ## `page_free` on short lists -/

theorem page_merge_nodes_adjacent (B a b : Nat) (hfit : B + (a + b) * 4096 ≤ 2 ^ 64)
    (hb : 1 ≤ b) :
    page_merge_nodes ⟨B, a⟩ ⟨B + a * 4096, b⟩ = [⟨B, a + b⟩] := by
  have h1 : ((B + a * 4096 + WORD - B) % WORD) >>> PAGE_SHIFT = a := by
    rw [shr12]; simp only [WORD]; omega
  have h2 : (a + b) % WORD = a + b := by simp only [WORD]; omega
  simp [page_merge_nodes, h1, h2]

theorem page_free_nil (ptr n : Nat) : page_free [] ptr n = [⟨ptr, n⟩] := by
  simp [page_free]

theorem page_free_after (A n ptr k : Nat) (h : A ≤ ptr) :
    page_free [⟨A, n⟩] ptr k = page_merge_nodes ⟨A, n⟩ ⟨ptr, k⟩ := by
  have : ¬ ptr < A := by omega
  simp [page_free, List.takeWhile, List.dropWhile, this]

theorem page_free_before (A n ptr k : Nat) (h : ptr < A) :
    page_free [⟨A, n⟩] ptr k = page_merge_nodes ⟨ptr, k⟩ ⟨A, n⟩ := by
  simp [page_free, List.takeWhile, List.dropWhile, h]

theorem page_free_two_runs (B a b : Nat) (ha : 1 ≤ a) (hb : 1 ≤ b)
    (hfit : B + (a + b) * 4096 ≤ 2 ^ 64) :
    page_free (page_free [] B a) (B + a * 4096) b = [⟨B, a + b⟩] ∧
      page_free (page_free [] (B + a * 4096) b) B a = [⟨B, a + b⟩] := by
  constructor
  · rw [page_free_nil, page_free_after _ _ _ _ (by omega), page_merge_nodes_adjacent B a b hfit hb]
  · rw [page_free_nil, page_free_before _ _ _ _ (by omega), page_merge_nodes_adjacent B a b hfit hb]

theorem page_alloc_max_of_some (m : List free_page_list_t) (c max_address : Nat)
    (r : Nat × List free_page_list_t) (h : page_alloc_scan c max_address m = some r) :
    page_alloc_max m c max_address = r := by
  simp [page_alloc_max, h]

theorem page_alloc_max_of_none (m : List free_page_list_t) (c max_address : Nat)
    (h : page_alloc_scan c max_address m = none) :
    page_alloc_max m c max_address = (0, m) := by
  simp [page_alloc_max, h]

theorem page_alloc_max_ne_null (m : List free_page_list_t) (c max_address : Nat)
    (h : (page_alloc_max m c max_address).1 ≠ 0) :
    page_alloc_scan c max_address m = some (page_alloc_max m c max_address) := by
  cases hs : page_alloc_scan c max_address m with
  | none => rw [page_alloc_max_of_none m c max_address hs] at h; exact absurd rfl h
  | some r => rw [page_alloc_max_of_some m c max_address r hs]

theorem page_alloc_single (B n : Nat) (hB : B ≠ 0) (hn : 1 ≤ n) (hfit : B + n * 4096 ≤ 2 ^ 64) :
    page_alloc [⟨B, n⟩] n = (B, []) := by
  have hf : page_fits ⟨B, n⟩ n UINT64_MAX = true :=
    (page_fits_iff B n n UINT64_MAX hfit hn).2 ⟨le_refl _, by simp only [UINT64_MAX]; omega⟩
  have ht : clamped_top B n UINT64_MAX = n := by
    simp only [clamped_top, UINT64_MAX, PAGE_SIZE]; omega
  have := alloc_pages_on_node_eq B n n UINT64_MAX hB hfit hn (le_refl _)
    (by simp only [UINT64_MAX]; omega) (by simp only [UINT64_MAX]; omega)
  rw [ht] at this
  simp only [Nat.sub_self, lt_irrefl, if_false, Nat.zero_mul, Nat.add_zero,
    List.append_nil] at this
  simp [page_alloc, page_alloc_max, page_alloc_scan, hf, this]

/-! ## Contract of the page allocator -/

/-- C1 (coalescing).  Starting from the empty free list, freeing the adjacent
runs `(B, a pages)` and `(B + a * 4096, b pages)` with `page_free`, in either
order, leaves exactly the one node `(B, a + b)`, and the following
`page_alloc (a + b)` returns `B` (not `NULL`, as `B ≠ 0`). -/
theorem page_free_coalesces (B a b : Nat) (hB : B ≠ 0) (_hal : B % PAGE_SIZE = 0)
    (ha : 1 ≤ a) (hb : 1 ≤ b) (hfit : B + (a + b) * PAGE_SIZE ≤ WORD) :
    page_free (page_free [] B a) (B + a * PAGE_SIZE) b = [⟨B, a + b⟩] ∧
    page_free (page_free [] (B + a * PAGE_SIZE) b) B a = [⟨B, a + b⟩] ∧
    (page_alloc (page_free (page_free [] B a) (B + a * PAGE_SIZE) b) (a + b)).1 = B ∧
    (page_alloc (page_free (page_free [] (B + a * PAGE_SIZE) b) B a) (a + b)).1 = B := by
  simp only [PAGE_SIZE, WORD] at *
  obtain ⟨h1, h2⟩ := page_free_two_runs B a b ha hb hfit
  rw [h1, h2, page_alloc_single B (a + b) hB (by omega) hfit]
  exact ⟨rfl, rfl, rfl, rfl⟩

theorem page_free_coalesces_witness :
    page_free (page_free [] 4096 2) (4096 + 2 * PAGE_SIZE) 3 = [⟨4096, 2 + 3⟩] ∧
    page_free (page_free [] (4096 + 2 * PAGE_SIZE) 3) 4096 2 = [⟨4096, 2 + 3⟩] ∧
    (page_alloc (page_free (page_free [] 4096 2) (4096 + 2 * PAGE_SIZE) 3) (2 + 3)).1 = 4096 ∧
    (page_alloc (page_free (page_free [] (4096 + 2 * PAGE_SIZE) 3) 4096 2) (2 + 3)).1 = 4096 :=
  page_free_coalesces 4096 2 3 (by decide) (by decide) (by decide) (by decide) (by decide)

/-- C2 (no overlap).  On a free list satisfying the list invariant, when
`page_alloc c1` and then `page_alloc c2` both return non-null pointers, the
byte ranges `[p1, p1 + c1 * 4096)` and `[p2, p2 + c2 * 4096)` share no byte,
and every byte of both was free before the first call. -/
theorem page_alloc_twice_disjoint (m : List free_page_list_t) (c1 c2 : Nat)
    (hinv : list_invariant m) (hc1 : 1 ≤ c1) (hc2 : 1 ≤ c2)
    (h1 : (page_alloc m c1).1 ≠ 0)
    (h2 : (page_alloc (page_alloc m c1).2 c2).1 ≠ 0) :
    (∀ x, ¬ (((page_alloc m c1).1 ≤ x ∧ x < (page_alloc m c1).1 + c1 * PAGE_SIZE) ∧
      ((page_alloc (page_alloc m c1).2 c2).1 ≤ x ∧
        x < (page_alloc (page_alloc m c1).2 c2).1 + c2 * PAGE_SIZE))) ∧
    (∀ x, (page_alloc m c1).1 ≤ x → x < (page_alloc m c1).1 + c1 * PAGE_SIZE → is_free m x) ∧
    (∀ x, (page_alloc (page_alloc m c1).2 c2).1 ≤ x →
      x < (page_alloc (page_alloc m c1).2 c2).1 + c2 * PAGE_SIZE → is_free m x) := by
  have hmax : UINT64_MAX < 2 ^ 64 := by decide
  unfold page_alloc at *
  have hs1 := page_alloc_max_ne_null m c1 UINT64_MAX h1
  obtain ⟨-, -, -, hinv1, hfree1, hsub1⟩ :=
    page_alloc_scan_post m c1 UINT64_MAX hinv hc1 hmax _ hs1
  have hs2 := page_alloc_max_ne_null _ c2 UINT64_MAX h2
  obtain ⟨-, -, -, -, hfree2, -⟩ :=
    page_alloc_scan_post _ c2 UINT64_MAX hinv1 hc2 hmax _ hs2
  refine ⟨?_, hfree1, ?_⟩
  · rintro x ⟨hx1, hx2⟩
    exact (hsub1 x (hfree2 x hx2.1 hx2.2)).2 hx1
  · intro x hx1 hx2
    exact (hsub1 x (hfree2 x hx1 hx2)).1

theorem list_invariant_two : list_invariant [⟨4096, 4⟩, ⟨40960, 2⟩] := by
  constructor
  · intro nd hnd
    simp only [List.mem_cons, List.mem_singleton, List.not_mem_nil, or_false] at hnd
    rcases hnd with rfl | rfl <;> decide
  · simp [free_page_list_t.limit, PAGE_SIZE]

theorem page_alloc_twice_disjoint_witness :
    (∀ x, ¬ (((page_alloc [⟨4096, 4⟩, ⟨40960, 2⟩] 1).1 ≤ x ∧
        x < (page_alloc [⟨4096, 4⟩, ⟨40960, 2⟩] 1).1 + 1 * PAGE_SIZE) ∧
      ((page_alloc (page_alloc [⟨4096, 4⟩, ⟨40960, 2⟩] 1).2 3).1 ≤ x ∧
        x < (page_alloc (page_alloc [⟨4096, 4⟩, ⟨40960, 2⟩] 1).2 3).1 + 3 * PAGE_SIZE))) ∧
    (∀ x, (page_alloc [⟨4096, 4⟩, ⟨40960, 2⟩] 1).1 ≤ x →
      x < (page_alloc [⟨4096, 4⟩, ⟨40960, 2⟩] 1).1 + 1 * PAGE_SIZE →
      is_free [⟨4096, 4⟩, ⟨40960, 2⟩] x) ∧
    (∀ x, (page_alloc (page_alloc [⟨4096, 4⟩, ⟨40960, 2⟩] 1).2 3).1 ≤ x →
      x < (page_alloc (page_alloc [⟨4096, 4⟩, ⟨40960, 2⟩] 1).2 3).1 + 3 * PAGE_SIZE →
      is_free [⟨4096, 4⟩, ⟨40960, 2⟩] x) :=
  page_alloc_twice_disjoint [⟨4096, 4⟩, ⟨40960, 2⟩] 1 3 list_invariant_two
    (by decide) (by decide) (by decide) (by decide)

/-- C3 (ceiling respected).  On a free list satisfying the list invariant, a
non-null result `p` of `page_alloc_max page_count max_address` has its last
byte `p + page_count * 4096 - 1` at or below `max_address`, as natural
numbers, whatever nodes lie above the ceiling. -/
theorem page_alloc_max_below_ceiling (m : List free_page_list_t)
    (page_count max_address : Nat) (hinv : list_invariant m) (hc : 1 ≤ page_count)
    (hmax : max_address ≤ UINT64_MAX)
    (h : (page_alloc_max m page_count max_address).1 ≠ 0) :
    (page_alloc_max m page_count max_address).1 + page_count * PAGE_SIZE - 1 ≤ max_address := by
  have hmax' : max_address < 2 ^ 64 := by simp only [UINT64_MAX] at hmax; omega
  have hs := page_alloc_max_ne_null m page_count max_address h
  obtain ⟨-, -, hle, -⟩ := page_alloc_scan_post m page_count max_address hinv hc hmax' _ hs
  omega

theorem page_alloc_max_below_ceiling_witness :
    (page_alloc_max [⟨4096, 4⟩, ⟨40960, 2⟩] 2 16383).1 + 2 * PAGE_SIZE - 1 ≤ 16383 :=
  page_alloc_max_below_ceiling [⟨4096, 4⟩, ⟨40960, 2⟩] 2 16383 list_invariant_two
    (by decide) (by decide) (by decide)

/-- A non-empty range of free bytes of a list satisfying the invariant lies
in the run of a single node. -/
theorem free_range_in_node (m : List free_page_list_t) (hinv : list_invariant m)
    (p len : Nat) (hlen : 0 < len) (hfree : ∀ x, p ≤ x → x < p + len → is_free m x) :
    ∃ nd ∈ m, nd.addr ≤ p ∧ p + len ≤ nd.limit := by
  obtain ⟨nd, hnd, hlo, hhi⟩ := hfree p (le_refl _) (by omega)
  refine ⟨nd, hnd, hlo, ?_⟩
  by_contra hcon
  obtain ⟨nd', hnd', hlo', hhi'⟩ := hfree nd.limit (by omega) (by omega)
  have hne : nd ≠ nd' := by
    rintro rfl; omega
  have hsym : Symmetric (fun a b : free_page_list_t => a.limit < b.addr ∨ b.limit < a.addr) := by
    intro a b hab; exact hab.symm
  have hpw : m.Pairwise (fun a b => a.limit < b.addr ∨ b.limit < a.addr) :=
    hinv.2.imp (fun hab => Or.inl hab)
  rcases hpw.forall hsym hnd hnd' hne with h | h
  · omega
  · omega

/-- C4 (exhaustion).  On a free list satisfying the list invariant,
`page_alloc_max page_count max_address` returns `NULL` exactly when the free
list holds no run of `page_count` contiguous free pages whose last byte is at
or below `max_address`; and when it returns `NULL` the free list is
unchanged. -/
theorem page_alloc_max_null_iff (m : List free_page_list_t)
    (page_count max_address : Nat) (hinv : list_invariant m) (hc : 1 ≤ page_count)
    (hmax : max_address ≤ UINT64_MAX) :
    ((page_alloc_max m page_count max_address).1 = 0 ↔
      ¬ ∃ p, free_run m p page_count ∧ p + page_count * PAGE_SIZE - 1 ≤ max_address) ∧
    ((page_alloc_max m page_count max_address).1 = 0 →
      (page_alloc_max m page_count max_address).2 = m) := by
  have hmax' : max_address < 2 ^ 64 := by simp only [UINT64_MAX] at hmax; omega
  have hnone : (page_alloc_max m page_count max_address).1 = 0 →
      page_alloc_scan page_count max_address m = none := by
    intro h0
    cases hs : page_alloc_scan page_count max_address m with
    | none => rfl
    | some r =>
      have := (page_alloc_scan_post m page_count max_address hinv hc hmax' r hs).1
      rw [page_alloc_max_of_some m _ _ r hs] at h0
      exact absurd h0 this
  refine ⟨⟨?_, ?_⟩, ?_⟩
  · rintro h0 ⟨p, ⟨-, hrun⟩, hlast⟩
    have hfalse := (page_alloc_scan_none _ _ _).1 (hnone h0)
    obtain ⟨⟨A, n⟩, hnd, hlo, hhi⟩ := free_range_in_node m hinv p (page_count * PAGE_SIZE)
      (by simp only [PAGE_SIZE]; omega) hrun
    have hwf := hinv.1 _ hnd
    simp only [free_page_list_t.limit, PAGE_SIZE, WORD] at hwf hlo hhi hlast
    have hfit : page_fits ⟨A, n⟩ page_count max_address = true :=
      (page_fits_iff A n page_count max_address hwf.2.2 hc).2 ⟨by omega, by omega⟩
    rw [hfalse _ hnd] at hfit
    cases hfit
  · intro hno
    by_contra hne
    have hs := page_alloc_max_ne_null m page_count max_address hne
    obtain ⟨-, hal, hle, -, hfree, -⟩ :=
      page_alloc_scan_post m page_count max_address hinv hc hmax' _ hs
    exact hno ⟨_, ⟨hal, hfree⟩, by omega⟩
  · intro h0
    rw [page_alloc_max_of_none m _ _ (hnone h0)]

theorem page_alloc_max_null_iff_witness :
    ((page_alloc_max [⟨4096, 4⟩, ⟨40960, 2⟩] 5 UINT64_MAX).1 = 0 ↔
      ¬ ∃ p, free_run [⟨4096, 4⟩, ⟨40960, 2⟩] p 5 ∧ p + 5 * PAGE_SIZE - 1 ≤ UINT64_MAX) ∧
    ((page_alloc_max [⟨4096, 4⟩, ⟨40960, 2⟩] 5 UINT64_MAX).1 = 0 →
      (page_alloc_max [⟨4096, 4⟩, ⟨40960, 2⟩] 5 UINT64_MAX).2 = [⟨4096, 4⟩, ⟨40960, 2⟩]) :=
  page_alloc_max_null_iff [⟨4096, 4⟩, ⟨40960, 2⟩] 5 UINT64_MAX list_invariant_two
    (by decide) (by decide)

/-- C5, as stated, fails at base `0`: after importing `[0, 4096)` and
`[4096, 8192)` with direct-map offset `0` the free list is the single node
`(0, 2)`, and `page_alloc 2` returns `0xFFFFFFFFFFFFE000`, not address `0`. -/
theorem scenario_base_zero_fails :
    init_page 0 [⟨0, 4096, .USABLE⟩, ⟨4096, 4096, .USABLE⟩] [] = [⟨0, 2⟩] ∧
    (page_alloc (init_page 0 [⟨0, 4096, .USABLE⟩, ⟨4096, 4096, .USABLE⟩] []) 2).1
      = 0xFFFFFFFFFFFFE000 ∧
    (page_alloc (init_page 0 [⟨0, 4096, .USABLE⟩, ⟨4096, 4096, .USABLE⟩] []) 2).1 ≠ 0 := by
  decide

/-- C5, amended to a direct-map offset `H` that is page aligned and not `0`:
after importing the two adjacent usable entries `[0, 4096)` and `[4096, 8192)`
into an empty free list, the list is the single node `(H, 2)` and
`page_alloc 2` returns `H` and empties the list; after freeing the two pages
separately, in either order, `page_alloc 2` returns `H` again. -/
theorem scenario_nonzero_offset (H : Nat) (hH : H ≠ 0) (_hal : H % PAGE_SIZE = 0)
    (hfit : H + 2 * PAGE_SIZE ≤ WORD) :
    init_page H [⟨0, 4096, .USABLE⟩, ⟨4096, 4096, .USABLE⟩] [] = [⟨H, 2⟩] ∧
    page_alloc (init_page H [⟨0, 4096, .USABLE⟩, ⟨4096, 4096, .USABLE⟩] []) 2 = (H, []) ∧
    (page_alloc (page_free (page_free [] H 1) (H + PAGE_SIZE) 1) 2).1 = H ∧
    (page_alloc (page_free (page_free [] (H + PAGE_SIZE) 1) H 1) 2).1 = H := by
  simp only [PAGE_SIZE, WORD] at *
  obtain ⟨h1, h2⟩ := page_free_two_runs H 1 1 (le_refl _) (le_refl _) (by omega)
  simp only [Nat.one_mul] at h1 h2
  have hinit : init_page H [⟨0, 4096, .USABLE⟩, ⟨4096, 4096, .USABLE⟩] [] = [⟨H, 2⟩] := by
    have e1 : (0 + H) % WORD = H := by simp only [WORD]; omega
    have e2 : (4096 + H) % WORD = H + 4096 := by simp only [WORD]; omega
    have e3 : SIZE_TO_PAGES 4096 = 1 := by decide
    simp only [init_page, List.foldl, if_true, e1, e2, e3]
    exact h1
  rw [hinit, h1, h2, page_alloc_single H 2 hH (by omega) (by omega)]
  exact ⟨rfl, rfl, rfl, rfl⟩

theorem scenario_nonzero_offset_witness :
    init_page 4096 [⟨0, 4096, .USABLE⟩, ⟨4096, 4096, .USABLE⟩] [] = [⟨4096, 2⟩] ∧
    page_alloc (init_page 4096 [⟨0, 4096, .USABLE⟩, ⟨4096, 4096, .USABLE⟩] []) 2
      = (4096, []) ∧
    (page_alloc (page_free (page_free [] 4096 1) (4096 + PAGE_SIZE) 1) 2).1 = 4096 ∧
    (page_alloc (page_free (page_free [] (4096 + PAGE_SIZE) 1) 4096 1) 2).1 = 4096 :=
  scenario_nonzero_offset 4096 (by decide) (by decide) (by decide)

/-! ## The pool allocator -/

theorem page_alloc_max_lt (m : List free_page_list_t) (c max_address : Nat) :
    (page_alloc_max m c max_address).1 < WORD := by
  cases hs : page_alloc_scan c max_address m with
  | none => rw [page_alloc_max_of_none m _ _ hs]; show 0 < WORD; decide
  | some r =>
    rw [page_alloc_max_of_some m _ _ r hs]
    obtain ⟨pre, nd, post, -, -, -, hr⟩ := page_alloc_scan_some c max_address m r hs
    rw [hr]
    exact Nat.mod_lt _ (by decide)

theorem pool_set_header_fst (hdr : Nat) (s : Heap) (k : Nat) :
    (pool_set_header hdr s k).1 = hdr := by
  unfold pool_set_header; split <;> rfl

theorem pool_set_header_size (hdr : Nat) (s : Heap) (k : Nat) (h : hdr ≠ 0) :
    (pool_set_header hdr s k).2.hdr_size hdr = MIN_POOL_SIZE <<< k := by
  simp [pool_set_header, h, Heap.set_size]

/-- The block `alloc_pool_by_index` returns is a 64-bit pointer and, when not
`NULL`, its header records the class of the index asked for. -/
theorem alloc_pool_below_header (s : Heap) (d : Nat) (hd : d ≤ MAX_POOL_INDEX)
    (hty : pool_typed s) :
    (alloc_pool_below s d).1 < WORD ∧
    ((alloc_pool_below s d).1 ≠ 0 →
      (alloc_pool_below s d).2.hdr_size (alloc_pool_below s d).1
        = MIN_POOL_SIZE <<< (MAX_POOL_INDEX - d)) := by
  cases d with
  | zero =>
    simp only [alloc_pool_below, pool_set_header_fst]
    refine ⟨page_alloc_max_lt _ _ _, fun h => ?_⟩
    exact pool_set_header_size _ _ _ h
  | succ d =>
    simp only [alloc_pool_below]
    cases hl : s.m_alloc_pool_lists (MAX_POOL_INDEX - (d + 1)) with
    | cons hdr rest =>
      simp only [pool_set_header_fst]
      refine ⟨?_, fun h => pool_set_header_size _ _ _ h⟩
      apply hty (MAX_POOL_INDEX - (d + 1)) (by simp only [MAX_POOL_INDEX] at *; omega)
      rw [hl]; simp
    | nil =>
      simp only []
      split
      · simp only [pool_set_header_fst]
        exact ⟨Nat.mod_lt _ (by decide), fun h => pool_set_header_size _ _ _ h⟩
      · simp only [pool_set_header_fst]
        exact ⟨by decide, fun h => absurd rfl h⟩

theorem pool_index_of_quotient :
    ∀ q, q < 33 → 1 ≤ q → ∃ k, k < 6 ∧
      (highest_set_bit q).map
        (fun pool_index => if q &&& (q - 1) ≠ 0 then pool_index + 1 else pool_index) = some k ∧
      q ≤ 2 ^ k ∧ (k = 0 ∨ 2 ^ (k - 1) < q) := by
  decide

/-- The index computed from a total size of `1 .. 2048` bytes is one of the
six lists, and its class is the smallest that holds the size. -/
theorem pool_index_of_spec (size : Nat) (h1 : 1 ≤ size) (h2 : size ≤ 2048) :
    ∃ k, k < 6 ∧ pool_index_of size = some k ∧ size ≤ 64 * 2 ^ k ∧
      (k = 0 ∨ 64 * 2 ^ (k - 1) < size) := by
  have hq : ((size + MIN_POOL_SIZE - 1) % WORD) >>> MIN_POOL_SHIFT = (size + 63) / 64 := by
    simp only [MIN_POOL_SIZE, MIN_POOL_SHIFT, WORD, Nat.shiftRight_eq_div_pow]
    have : (size + 1 <<< 6 - 1) % 2 ^ 64 = size + 63 := by
      have : (1 : Nat) <<< 6 = 64 := by decide
      rw [this]; omega
    rw [this]
  obtain ⟨k, hk, hidx, hle, hmin⟩ :=
    pool_index_of_quotient ((size + 63) / 64) (by omega) (by omega)
  refine ⟨k, hk, ?_, ?_, ?_⟩
  · simp only [pool_index_of, hq]; exact hidx
  · have : size ≤ 64 * ((size + 63) / 64) := by omega
    calc size ≤ 64 * ((size + 63) / 64) := this
      _ ≤ 64 * 2 ^ k := Nat.mul_le_mul_left _ hle
  · rcases hmin with h | h
    · exact Or.inl h
    · right
      have h' : 2 ^ (k - 1) + 1 ≤ (size + 63) / 64 := h
      have : 64 * (2 ^ (k - 1) + 1) ≤ 64 * ((size + 63) / 64) := Nat.mul_le_mul_left _ h'
      omega

theorem header_of_payload (hdr : Nat) (h : hdr < WORD) :
    header_of ((hdr + POOL_HEADER_SIZE) % WORD) = hdr := by
  simp only [header_of, POOL_HEADER_SIZE, WORD] at *
  omega

theorem min_pool_size_shift (k : Nat) : MIN_POOL_SIZE <<< k = 64 * 2 ^ k := by
  simp [MIN_POOL_SIZE, MIN_POOL_SHIFT, Nat.shiftLeft_eq]

theorem mem_pool_classes (c : Nat) :
    c ∈ pool_classes ↔ c = 64 ∨ c = 128 ∨ c = 256 ∨ c = 512 ∨ c = 1024 ∨ c = 2048 := by
  have : pool_classes = [64, 128, 256, 512, 1024, 2048] := by decide
  rw [this]; simp

/-- The pool path of `uacpi_kernel_alloc`. -/
theorem uacpi_kernel_alloc_pool_eq (s : Heap) (size k : Nat)
    (hsize : (size + POOL_HEADER_SIZE) % WORD ≤ MAX_POOL_SIZE)
    (hidx : pool_index_of ((size + POOL_HEADER_SIZE) % WORD) = some k)
    (hk : k ≤ MAX_POOL_INDEX) :
    uacpi_kernel_alloc s size =
      some (if (alloc_pool_below s (MAX_POOL_INDEX - k)).1 ≠ 0
          then ((alloc_pool_below s (MAX_POOL_INDEX - k)).1 + POOL_HEADER_SIZE) % WORD else 0,
        (alloc_pool_below s (MAX_POOL_INDEX - k)).2) := by
  have hnot : ¬ (size + POOL_HEADER_SIZE) % WORD > MAX_POOL_SIZE := by omega
  simp only [uacpi_kernel_alloc, hnot, if_false, hidx, alloc_pool_by_index, hk, if_true]

/-- C6 (pool class selection).  For `0 < size ≤ 2048 - 8`, `uacpi_kernel_alloc
size` has a defined result, and when the pointer `p` it returns is not `NULL`
the header at `p - 8` records one of the six classes, that class is at least
`size + 8`, and no class that is at least `size + 8` is smaller. -/
theorem uacpi_kernel_alloc_smallest_class (s : Heap) (size : Nat) (hty : pool_typed s)
    (h0 : 0 < size) (hsz : size ≤ MAX_POOL_SIZE - POOL_HEADER_SIZE) :
    ∃ r, uacpi_kernel_alloc s size = some r ∧
      (r.1 ≠ 0 →
        r.2.hdr_size (header_of r.1) ∈ pool_classes ∧
        size + POOL_HEADER_SIZE ≤ r.2.hdr_size (header_of r.1) ∧
        ∀ c ∈ pool_classes, size + POOL_HEADER_SIZE ≤ c → r.2.hdr_size (header_of r.1) ≤ c) := by
  have hmp : MAX_POOL_SIZE = 2048 := by decide
  simp only [hmp, POOL_HEADER_SIZE] at hsz
  have hsize : (size + POOL_HEADER_SIZE) % WORD = size + 8 := by
    simp only [POOL_HEADER_SIZE, WORD]; omega
  obtain ⟨k, hk, hidx, hle, hmin⟩ := pool_index_of_spec (size + 8) (by omega) (by omega)
  have hmi : MAX_POOL_INDEX = 6 := by decide
  have hk6 : k ≤ MAX_POOL_INDEX := by omega
  have hd : MAX_POOL_INDEX - (MAX_POOL_INDEX - k) = k := by omega
  obtain ⟨hlt, hhdr⟩ := alloc_pool_below_header s (MAX_POOL_INDEX - k) (by omega) hty
  rw [hd, min_pool_size_shift] at hhdr
  rw [uacpi_kernel_alloc_pool_eq s size k (by rw [hsize, hmp]; omega) (by rw [hsize]; exact hidx)
    hk6]
  refine ⟨_, rfl, ?_⟩
  generalize alloc_pool_below s (MAX_POOL_INDEX - k) = b at hlt hhdr
  simp only []
  intro hne
  by_cases hb : b.1 = 0
  · simp [hb] at hne
  · simp only [hb, ne_eq, not_false_eq_true, if_true, header_of_payload b.1 hlt, hhdr hb]
    refine ⟨?_, ?_, ?_⟩
    · rw [mem_pool_classes]
      have : k = 0 ∨ k = 1 ∨ k = 2 ∨ k = 3 ∨ k = 4 ∨ k = 5 := by omega
      rcases this with rfl | rfl | rfl | rfl | rfl | rfl <;> simp
    · simp only [POOL_HEADER_SIZE]; exact hle
    · intro c hc hcle
      rw [mem_pool_classes] at hc
      simp only [POOL_HEADER_SIZE] at hcle
      have : k = 0 ∨ k = 1 ∨ k = 2 ∨ k = 3 ∨ k = 4 ∨ k = 5 := by omega
      rcases this with rfl | rfl | rfl | rfl | rfl | rfl <;> simp at hmin ⊢ <;> omega

theorem pool_typed_one_page_heap : pool_typed one_page_heap := by
  intro k _ a ha
  simp [one_page_heap] at ha

theorem uacpi_kernel_alloc_smallest_class_witness :
    ∃ r, uacpi_kernel_alloc one_page_heap 100 = some r ∧
      (r.1 ≠ 0 →
        r.2.hdr_size (header_of r.1) ∈ pool_classes ∧
        100 + POOL_HEADER_SIZE ≤ r.2.hdr_size (header_of r.1) ∧
        ∀ c ∈ pool_classes, 100 + POOL_HEADER_SIZE ≤ c → r.2.hdr_size (header_of r.1) ≤ c) :=
  uacpi_kernel_alloc_smallest_class one_page_heap 100 pool_typed_one_page_heap
    (by decide) (by decide)

/-- C7 fails on the code at `size = 2 ^ 64 - 7`: `size + sizeof(pool_header_t)`
wraps to `1`, the request is served from the 64-byte class, and the header of
the returned non-null pointer records `64`, far below `size + 8`. -/
theorem uacpi_kernel_alloc_size_wraps :
    ∃ r, uacpi_kernel_alloc one_page_heap (2 ^ 64 - 7) = some r ∧ r.1 = 8136 ∧
      r.2.hdr_size (header_of r.1) = 64 ∧
      ¬ (2 ^ 64 - 7 + POOL_HEADER_SIZE ≤ r.2.hdr_size (header_of r.1)) :=
  ⟨_, rfl, by decide, by decide, by decide⟩

theorem highest_set_bit_class (k : Nat) (hk : k < 6) :
    highest_set_bit (MIN_POOL_SIZE <<< k) = some (k + MIN_POOL_SHIFT) := by
  have : k = 0 ∨ k = 1 ∨ k = 2 ∨ k = 3 ∨ k = 4 ∨ k = 5 := by omega
  rcases this with rfl | rfl | rfl | rfl | rfl | rfl <;> decide

/-- The pool path of `uacpi_kernel_free` on a block whose header records the
class of index `k`: the block is pushed on the front of list `k`. -/
theorem uacpi_kernel_free_pool_eq (s : Heap) (p k : Nat) (hp : p ≠ 0) (hk : k < MAX_POOL_INDEX)
    (hsz : s.hdr_size (header_of p) = MIN_POOL_SIZE <<< k) :
    uacpi_kernel_free s p =
      some (s.set_pool k (header_of p :: s.m_alloc_pool_lists k)) := by
  have hmi : MAX_POOL_INDEX = 6 := by decide
  have hk' : k < 6 := by omega
  have hle : ¬ MIN_POOL_SIZE <<< k > MAX_POOL_SIZE := by
    have : k = 0 ∨ k = 1 ∨ k = 2 ∨ k = 3 ∨ k = 4 ∨ k = 5 := by omega
    rcases this with rfl | rfl | rfl | rfl | rfl | rfl <;> decide
  have hbit : ¬ k + MIN_POOL_SHIFT < MIN_POOL_SHIFT := by omega
  simp only [uacpi_kernel_free, hp, if_false, hsz, hle, highest_set_bit_class k hk', hbit,
    Nat.add_sub_cancel]

/-- C8 (LIFO reuse).  Let `p` be a live pool block: a non-null 64-bit payload
pointer whose header, at the non-null address `p - 8`, records the class of
index `k < 6`.  Then `uacpi_kernel_free p` is defined, and the next
`uacpi_kernel_alloc` of any size that maps to index `k` returns exactly `p`. -/
theorem uacpi_kernel_free_then_alloc (s : Heap) (p k size : Nat) (hp : p ≠ 0) (hp64 : p < WORD)
    (hhdr : header_of p ≠ 0) (hk : k < MAX_POOL_INDEX)
    (hsz : s.hdr_size (header_of p) = MIN_POOL_SIZE <<< k)
    (hsize : (size + POOL_HEADER_SIZE) % WORD ≤ MAX_POOL_SIZE)
    (hidx : pool_index_of ((size + POOL_HEADER_SIZE) % WORD) = some k) :
    ∃ s₁, uacpi_kernel_free s p = some s₁ ∧ ∃ s₂, uacpi_kernel_alloc s₁ size = some (p, s₂) := by
  have hmi : MAX_POOL_INDEX = 6 := by decide
  refine ⟨_, uacpi_kernel_free_pool_eq s p k hp hk hsz, ?_⟩
  rw [uacpi_kernel_alloc_pool_eq _ size k hsize hidx (by omega)]
  obtain ⟨d, hd⟩ : ∃ d, MAX_POOL_INDEX - k = d + 1 := ⟨MAX_POOL_INDEX - k - 1, by omega⟩
  have hkd : MAX_POOL_INDEX - (d + 1) = k := by omega
  have hback : (header_of p + POOL_HEADER_SIZE) % WORD = p := by
    simp only [header_of, POOL_HEADER_SIZE, WORD] at *
    omega
  rw [hd]
  simp only [alloc_pool_below, hkd, Heap.set_pool, if_true, pool_set_header_fst, hhdr, ne_eq,
    not_false_eq_true, hback]
  exact ⟨_, rfl⟩

theorem uacpi_kernel_free_then_alloc_witness :
    ∃ s₁, uacpi_kernel_free heap_after_alloc 8072 = some s₁ ∧
      ∃ s₂, uacpi_kernel_alloc s₁ 100 = some (8072, s₂) :=
  uacpi_kernel_free_then_alloc heap_after_alloc 8072 1 100
    (by decide) (by decide) (by decide) (by decide) (by decide) (by decide) (by decide)

/-- The page path of `uacpi_kernel_free`, taken when the header records more
than `MAX_POOL_SIZE`. -/
theorem uacpi_kernel_free_page_eq (s : Heap) (p : Nat) (hp : p ≠ 0)
    (hbig : s.hdr_size (header_of p) > MAX_POOL_SIZE) :
    uacpi_kernel_free s p = some { s with
      m_memory_map :=
        page_free s.m_memory_map (header_of p) (SIZE_TO_PAGES (s.hdr_size (header_of p))) } := by
  simp only [uacpi_kernel_free, hp, if_false, hbig, if_true]

/-- C10 (page-backed blocks).  Let `2048 < size + 8 < 2 ^ 64` and
`n = ⌈(size + 8) / 4096⌉`, on a page free list satisfying the list invariant.
`uacpi_kernel_alloc size` has a defined result; when its pointer is not `NULL`
it is `base + 8` for the non-null result `base` of `page_alloc n`, the page
free list is the one `page_alloc n` leaves, the six pool lists are untouched,
the header at `base` records `n * 4096 > 2048`, and `uacpi_kernel_free` of the
pointer is exactly `page_free base n` on the page free list. -/
theorem uacpi_kernel_alloc_page_backed (s : Heap) (size : Nat)
    (hinv : list_invariant s.m_memory_map)
    (hlo : MAX_POOL_SIZE < size + POOL_HEADER_SIZE) (hhi : size + POOL_HEADER_SIZE < WORD) :
    ∃ r, uacpi_kernel_alloc s size = some r ∧
      (r.1 ≠ 0 →
        (page_alloc s.m_memory_map ((size + POOL_HEADER_SIZE + PAGE_SIZE - 1) / PAGE_SIZE)).1 ≠ 0 ∧
        r.1 = (page_alloc s.m_memory_map
          ((size + POOL_HEADER_SIZE + PAGE_SIZE - 1) / PAGE_SIZE)).1 + POOL_HEADER_SIZE ∧
        r.2.m_memory_map = (page_alloc s.m_memory_map
          ((size + POOL_HEADER_SIZE + PAGE_SIZE - 1) / PAGE_SIZE)).2 ∧
        r.2.m_alloc_pool_lists = s.m_alloc_pool_lists ∧
        r.2.hdr_size (header_of r.1)
          = (size + POOL_HEADER_SIZE + PAGE_SIZE - 1) / PAGE_SIZE * PAGE_SIZE ∧
        MAX_POOL_SIZE < r.2.hdr_size (header_of r.1) ∧
        uacpi_kernel_free r.2 r.1 = some { r.2 with
          m_memory_map := page_free r.2.m_memory_map
            (page_alloc s.m_memory_map ((size + POOL_HEADER_SIZE + PAGE_SIZE - 1) / PAGE_SIZE)).1
            ((size + POOL_HEADER_SIZE + PAGE_SIZE - 1) / PAGE_SIZE) }) := by
  have hmp : MAX_POOL_SIZE = 2048 := by decide
  have hgt : (size + POOL_HEADER_SIZE) % WORD > MAX_POOL_SIZE := by
    simp only [POOL_HEADER_SIZE, WORD] at *; omega
  have hn : SIZE_TO_PAGES ((size + POOL_HEADER_SIZE) % WORD)
      = (size + POOL_HEADER_SIZE + PAGE_SIZE - 1) / PAGE_SIZE := by
    rw [SIZE_TO_PAGES_eq]; simp only [POOL_HEADER_SIZE, WORD, PAGE_SIZE] at *; omega
  have hn1 : 1 ≤ (size + POOL_HEADER_SIZE + PAGE_SIZE - 1) / PAGE_SIZE := by
    simp only [POOL_HEADER_SIZE, PAGE_SIZE] at *; omega
  generalize (size + POOL_HEADER_SIZE + PAGE_SIZE - 1) / PAGE_SIZE = n at *
  by_cases hbase : (page_alloc s.m_memory_map n).1 = 0
  · refine ⟨(0, { s with m_memory_map := (page_alloc s.m_memory_map n).2 }), ?_, ?_⟩
    · simp only [uacpi_kernel_alloc, hgt, if_true, hn, hbase]
    · intro h; exact absurd rfl h
  · have hs := page_alloc_max_ne_null s.m_memory_map n UINT64_MAX hbase
    obtain ⟨-, hal, hle, -⟩ :=
      page_alloc_scan_post s.m_memory_map n UINT64_MAX hinv hn1 (by decide) _ hs
    change (page_alloc s.m_memory_map n).1 % PAGE_SIZE = 0 at hal
    change (page_alloc s.m_memory_map n).1 + n * PAGE_SIZE ≤ UINT64_MAX + 1 at hle
    simp only [PAGE_SIZE, UINT64_MAX] at hal hle
    have hp : ((page_alloc s.m_memory_map n).1 + POOL_HEADER_SIZE) % WORD
        = (page_alloc s.m_memory_map n).1 + POOL_HEADER_SIZE := by
      simp only [POOL_HEADER_SIZE, WORD]; omega
    have hh : header_of ((page_alloc s.m_memory_map n).1 + POOL_HEADER_SIZE)
        = (page_alloc s.m_memory_map n).1 := by
      simp only [header_of, POOL_HEADER_SIZE, WORD]; omega
    have hps : PAGES_TO_SIZE n = n * PAGE_SIZE := by
      rw [PAGES_TO_SIZE_eq]; simp only [PAGE_SIZE]; omega
    have hne : (page_alloc s.m_memory_map n).1 + POOL_HEADER_SIZE ≠ 0 := by
      simp only [POOL_HEADER_SIZE]; omega
    have hbig : n * PAGE_SIZE > MAX_POOL_SIZE := by
      rw [hmp]; simp only [PAGE_SIZE]; omega
    have hback : SIZE_TO_PAGES (n * PAGE_SIZE) = n := by
      rw [SIZE_TO_PAGES_eq]; simp only [PAGE_SIZE]; omega
    refine ⟨((page_alloc s.m_memory_map n).1 + POOL_HEADER_SIZE,
      ({ s with m_memory_map := (page_alloc s.m_memory_map n).2 } : Heap).set_size
        (page_alloc s.m_memory_map n).1 (n * PAGE_SIZE)), ?_, ?_⟩
    · simp only [uacpi_kernel_alloc, hgt, if_true, hn, hbase, if_false, hp, hps]
    · intro _
      have hsz : (({ s with m_memory_map := (page_alloc s.m_memory_map n).2 } : Heap).set_size
          (page_alloc s.m_memory_map n).1 (n * PAGE_SIZE)).hdr_size
            (page_alloc s.m_memory_map n).1 = n * PAGE_SIZE := by
        simp only [Heap.set_size, if_true]
      refine ⟨hbase, rfl, rfl, rfl, ?_, ?_, ?_⟩
      · show Heap.hdr_size _ (header_of _) = _
        rw [hh, hsz]
      · show _ < Heap.hdr_size _ (header_of _)
        rw [hh, hsz]; exact hbig
      · show uacpi_kernel_free _ _ = _
        rw [uacpi_kernel_free_page_eq _ _ hne (by rw [hh, hsz]; exact hbig), hh, hsz, hback]

theorem list_invariant_sixteen : list_invariant sixteen_page_heap.m_memory_map := by
  constructor
  · intro nd hnd
    simp only [sixteen_page_heap, List.mem_singleton] at hnd
    subst hnd; decide
  · simp [sixteen_page_heap]

theorem uacpi_kernel_alloc_page_backed_witness :
    ∃ r, uacpi_kernel_alloc sixteen_page_heap 5000 = some r ∧
      (r.1 ≠ 0 →
        (page_alloc sixteen_page_heap.m_memory_map
          ((5000 + POOL_HEADER_SIZE + PAGE_SIZE - 1) / PAGE_SIZE)).1 ≠ 0 ∧
        r.1 = (page_alloc sixteen_page_heap.m_memory_map
          ((5000 + POOL_HEADER_SIZE + PAGE_SIZE - 1) / PAGE_SIZE)).1 + POOL_HEADER_SIZE ∧
        r.2.m_memory_map = (page_alloc sixteen_page_heap.m_memory_map
          ((5000 + POOL_HEADER_SIZE + PAGE_SIZE - 1) / PAGE_SIZE)).2 ∧
        r.2.m_alloc_pool_lists = sixteen_page_heap.m_alloc_pool_lists ∧
        r.2.hdr_size (header_of r.1)
          = (5000 + POOL_HEADER_SIZE + PAGE_SIZE - 1) / PAGE_SIZE * PAGE_SIZE ∧
        MAX_POOL_SIZE < r.2.hdr_size (header_of r.1) ∧
        uacpi_kernel_free r.2 r.1 = some { r.2 with
          m_memory_map := page_free r.2.m_memory_map
            (page_alloc sixteen_page_heap.m_memory_map
              ((5000 + POOL_HEADER_SIZE + PAGE_SIZE - 1) / PAGE_SIZE)).1
            ((5000 + POOL_HEADER_SIZE + PAGE_SIZE - 1) / PAGE_SIZE) }) :=
  uacpi_kernel_alloc_page_backed sixteen_page_heap 5000 list_invariant_sixteen
    (by decide) (by decide)


/-! ## Ticks and deadlines -/

theorem uacpi_kernel_get_ticks_lt (tsc : Nat) : uacpi_kernel_get_ticks tsc < UINT64_MAX := by
  simp only [uacpi_kernel_get_ticks, m_tsc_frequency, WORD, UINT64_MAX, Nat.div_one]
  omega

theorem wait_deadline_forever (now : Nat) : wait_deadline UINT16_MAX now = UINT64_MAX := by
  simp [wait_deadline]

/-! ## The mutex and the spinlock -/

theorem mutex_spin_set (env : Nat → Bool → Bool) (tsc : Nat → Nat) (deadline fuel i : Nat)
    (flag : Bool) (h : env i flag = true) :
    mutex_spin env tsc deadline (fuel + 1) i flag = some (true, true) := by
  simp [mutex_spin, h]

theorem mutex_spin_no_timeout (env : Nat → Bool → Bool) (tsc : Nat → Nat) (fuel i : Nat)
    (flag after : Bool) :
    mutex_spin env tsc UINT64_MAX fuel i flag ≠ some (false, after) := by
  induction fuel generalizing i flag with
  | zero => simp [mutex_spin]
  | succ fuel ih =>
    have hlt := uacpi_kernel_get_ticks_lt (tsc i)
    have hge : ¬ uacpi_kernel_get_ticks (tsc i) ≥ UINT64_MAX := by omega
    simp only [mutex_spin]
    cases env i flag with
    | true => simp
    | false => simp only [Bool.not_false, if_true, hge, if_false]; exact ih _ _

/-- In whatever way a call of `uacpi_kernel_acquire_mutex` returns, it leaves
the flag set. -/
theorem mutex_spin_leaves_set (env : Nat → Bool → Bool) (tsc : Nat → Nat) (deadline fuel i : Nat)
    (flag : Bool) (r : Bool × Bool) (h : mutex_spin env tsc deadline fuel i flag = some r) :
    r.2 = true := by
  induction fuel generalizing i flag with
  | zero => simp [mutex_spin] at h
  | succ fuel ih =>
    simp only [mutex_spin] at h
    cases henv : env i flag with
    | true => simp [henv] at h; rw [← h]
    | false =>
      simp only [henv, Bool.not_false, if_true] at h
      split at h
      · simp at h; rw [← h]
      · exact ih _ _ h

/-- C12 fails on the code: a first `uacpi_kernel_acquire_mutex` on a free
mutex (timeout `100`, the tick count standing still) returns true and leaves
the flag set, and a second call with no release in between returns true as
well, at its first test-and-set. -/
theorem uacpi_kernel_acquire_mutex_twice :
    uacpi_kernel_acquire_mutex no_interference 0 (fun _ => 0) 2 false 100 = some (true, true) ∧
    uacpi_kernel_acquire_mutex no_interference 0 (fun _ => 0) 1 true 100 = some (true, true) := by
  decide

/-- C13 fails on the code: on a free mutex with timeout `0` and the tick count
standing still, `uacpi_kernel_acquire_mutex` returns false and leaves the flag
set, although the flag was clear before the call. -/
theorem uacpi_kernel_acquire_mutex_timeout_takes_lock :
    uacpi_kernel_acquire_mutex no_interference 0 (fun _ => 0) 1 false 0 = some (false, true) := by
  decide

/-- C17 fails on the code: on a spinlock whose flag is set and stays set,
`uacpi_kernel_lock_spinlock` returns after a single test-and-set, for every
value of the processor flags. -/
theorem uacpi_kernel_lock_spinlock_held_returns (eflags fuel : Nat) :
    uacpi_kernel_lock_spinlock no_interference (fuel + 1) eflags true
      = some { flags := eflags, interrupts := false, flag := true, iterations := 1 } := by
  simp [uacpi_kernel_lock_spinlock, spinlock_spin, no_interference]

/-! ## The event -/

theorem event_wait_loop_no_timeout (env : Nat → Nat → Nat) (tsc : Nat → Nat)
    (fuel i checks count shared : Nat) :
    (event_wait_loop env tsc UINT64_MAX fuel i checks count shared).map (·.returned)
      ≠ some false := by
  induction fuel generalizing i checks count shared with
  | zero => simp [event_wait_loop]
  | succ fuel ih =>
    have hlt := uacpi_kernel_get_ticks_lt (tsc checks)
    have hge : ¬ uacpi_kernel_get_ticks (tsc checks) ≥ UINT64_MAX := by omega
    simp only [event_wait_loop]
    split_ifs <;> first | exact ih _ _ _ _ | simp

/-- C16 (wait-forever sentinel).  With `timeout = 0xFFFF` the deadline is
`UINT64_MAX`, the value `uacpi_kernel_get_ticks` computes from any reading of
the cycle counter is below `UINT64_MAX`, and neither
`uacpi_kernel_acquire_mutex` nor `uacpi_kernel_wait_for_event` returns false,
whatever the other contexts do, the tick readings are and however long the
call runs. -/
theorem wait_forever_never_times_out :
    (∀ now, wait_deadline 0xFFFF now = UINT64_MAX) ∧
    (∀ tsc, ¬ uacpi_kernel_get_ticks tsc ≥ UINT64_MAX) ∧
    (∀ env now tsc fuel flag after,
      uacpi_kernel_acquire_mutex env now tsc fuel flag 0xFFFF ≠ some (false, after)) ∧
    (∀ env now tsc fuel count,
      (uacpi_kernel_wait_for_event env now tsc fuel count 0xFFFF).map (·.returned)
        ≠ some false) := by
  refine ⟨wait_deadline_forever, ?_, ?_, ?_⟩
  · intro tsc
    have := uacpi_kernel_get_ticks_lt tsc
    omega
  · intro env now tsc fuel flag after
    have h := wait_deadline_forever now
    simp only [UINT16_MAX] at h
    simp only [uacpi_kernel_acquire_mutex, h]
    exact mutex_spin_no_timeout env tsc fuel 0 flag after
  · intro env now tsc fuel count
    have h := wait_deadline_forever now
    simp only [UINT16_MAX] at h
    simp only [uacpi_kernel_wait_for_event, h]
    exact event_wait_loop_no_timeout env tsc fuel 0 0 0 count

theorem event_wait_loop_writes (env : Nat → Nat → Nat) (tsc : Nat → Nat)
    (deadline fuel i checks count shared : Nat) (o : wait_outcome)
    (h : event_wait_loop env tsc deadline fuel i checks count shared = some o) :
    (o.returned = true → ∃ c, c ≠ 0 ∧ o.writes = [(c, c - 1)] ∧ o.count = c - 1) ∧
    (o.returned = false → o.writes = []) := by
  induction fuel generalizing i checks count shared with
  | zero => simp [event_wait_loop] at h
  | succ fuel ih =>
    simp only [event_wait_loop] at h
    split_ifs at h with h1 h2 h3 h4
    · simp only [Option.some.injEq] at h
      subst h
      simp
    · exact ih _ _ _ _ h
    · exact ih _ _ _ _ h
    · simp only [Option.some.injEq] at h
      subst h
      exact ⟨fun _ => ⟨count, h1, rfl, rfl⟩, fun hf => by simp at hf⟩
    · exact ih _ _ _ _ h

/-- C15 (event wait decrements exactly when it succeeds).  Whatever the other
contexts do to the counter between the operations of the call, the tick
readings are and the timeout is: a call of `uacpi_kernel_wait_for_event` that
returns true has made exactly one store, the successful compare-and-swap of a
non-zero `c` by `c - 1`, and a call that returns false has made no store. -/
theorem uacpi_kernel_wait_for_event_stores (env : Nat → Nat → Nat) (now : Nat)
    (tsc : Nat → Nat) (fuel count timeout : Nat) (o : wait_outcome)
    (h : uacpi_kernel_wait_for_event env now tsc fuel count timeout = some o) :
    (o.returned = true → ∃ c, c ≠ 0 ∧ o.writes = [(c, c - 1)] ∧ o.count = c - 1) ∧
    (o.returned = false → o.writes = []) :=
  event_wait_loop_writes env tsc _ fuel 0 0 0 count o h

theorem uacpi_kernel_wait_for_event_stores_witness :
    uacpi_kernel_wait_for_event (fun i v => if i = 1 then 7 else v) 0 (fun j => j) 5 3 10
      = some ⟨true, 6, [(7, 6)], 0⟩ ∧
    ((⟨true, 6, [(7, 6)], 0⟩ : wait_outcome).returned = true →
      ∃ c, c ≠ 0 ∧ (⟨true, 6, [(7, 6)], 0⟩ : wait_outcome).writes = [(c, c - 1)] ∧
        (⟨true, 6, [(7, 6)], 0⟩ : wait_outcome).count = c - 1) ∧
    ((⟨true, 6, [(7, 6)], 0⟩ : wait_outcome).returned = false →
      (⟨true, 6, [(7, 6)], 0⟩ : wait_outcome).writes = []) :=
  ⟨by decide,
   uacpi_kernel_wait_for_event_stores (fun i v => if i = 1 then 7 else v) 0 (fun j => j) 5 3 10
    ⟨true, 6, [(7, 6)], 0⟩ (by decide)⟩

theorem signal_iterate (N : Nat) (hN : N < 2 ^ 64) :
    Nat.iterate uacpi_kernel_signal_event N 0 = N := by
  induction N with
  | zero => rfl
  | succ n ih =>
    rw [Function.iterate_succ_apply', ih (by omega)]
    simp only [uacpi_kernel_signal_event, WORD]
    omega

theorem event_wait_nonzero (now : Nat) (tsc : Nat → Nat) (fuel c timeout : Nat)
    (hc : c ≠ 0) :
    uacpi_kernel_wait_for_event no_interference now tsc (fuel + 2) c timeout
      = some { returned := true, count := c - 1, writes := [(c, c - 1)], checks := 0 } := by
  simp [uacpi_kernel_wait_for_event, event_wait_loop, no_interference, hc]

theorem event_wait_sequence_all (timeout now : Nat → Nat) (tsc : Nat → Nat → Nat) (fuel n : Nat) :
    ∃ os, event_wait_sequence timeout now tsc (fuel + 2) n n = some (os, 0) ∧
      os.length = n ∧ ∀ o ∈ os, o.returned = true ∧ o.checks = 0 := by
  induction n with
  | zero => exact ⟨[], rfl, rfl, by simp⟩
  | succ n ih =>
    obtain ⟨os, hos, hlen, hall⟩ := ih
    refine ⟨⟨true, n, [(n + 1, n)], 0⟩ :: os, ?_, by simp [hlen], ?_⟩
    · simp only [event_wait_sequence, event_wait_nonzero _ _ _ (n + 1) _ (Nat.succ_ne_zero n),
        Nat.add_sub_cancel, hos]
    · intro o ho
      simp only [List.mem_cons] at ho
      rcases ho with rfl | ho
      · exact ⟨rfl, rfl⟩
      · exact hall o ho

theorem event_wait_zero_never_true (tsc : Nat → Nat) (deadline fuel i checks : Nat) :
    (event_wait_loop no_interference tsc deadline fuel i checks 0 0).map (·.returned)
      ≠ some true := by
  induction fuel generalizing i checks with
  | zero => simp [event_wait_loop]
  | succ fuel ih =>
    simp only [event_wait_loop, no_interference, if_true]
    split
    · simp
    · exact ih _ _

theorem event_wait_zero_times_out (tsc : Nat → Nat) (deadline j : Nat) :
    ∀ i checks, uacpi_kernel_get_ticks (tsc (checks + j)) ≥ deadline →
      ∃ fuel o, event_wait_loop no_interference tsc deadline fuel i checks 0 0 = some o ∧
        o.returned = false ∧ o.count = 0 ∧ o.writes = [] := by
  induction j with
  | zero =>
    intro i checks h
    refine ⟨1, ⟨false, 0, [], checks + 1⟩, ?_, rfl, rfl, rfl⟩
    simp only [Nat.add_zero] at h
    simp [event_wait_loop, no_interference, h]
  | succ j ih =>
    intro i checks h
    by_cases hnow : uacpi_kernel_get_ticks (tsc checks) ≥ deadline
    · refine ⟨1, ⟨false, 0, [], checks + 1⟩, ?_, rfl, rfl, rfl⟩
      simp [event_wait_loop, no_interference, hnow]
    · have h' : uacpi_kernel_get_ticks (tsc (checks + 1 + j)) ≥ deadline := by
        have : checks + 1 + j = checks + (j + 1) := by omega
        rw [this]; exact h
      obtain ⟨fuel, o, ho, hr⟩ := ih (i + 1) (checks + 1) h'
      refine ⟨fuel + 1, o, ?_, hr⟩
      simp only [event_wait_loop, no_interference, if_true, hnow, if_false]
      exact ho

/-- The deadline of a wait with a finite timeout: the tick count at the call
plus `timeout * 10000`, in 64 bits. -/
theorem wait_deadline_finite (timeout now : Nat) (h : timeout < UINT16_MAX) :
    wait_deadline timeout now = (uacpi_kernel_get_ticks now + timeout * 10000) % WORD := by
  have hlt : timeout * 10000 < WORD := by
    simp only [UINT16_MAX] at h
    simp only [WORD]
    omega
  simp only [wait_deadline, h, if_true, Nat.mod_eq_of_lt hlt]

/-- A wait on a counter that stays `0` has not returned as long as every tick
reading it has made is below the deadline. -/
theorem event_wait_zero_spins (tsc : Nat → Nat) (deadline fuel : Nat) :
    ∀ i checks, (∀ k, k < fuel → uacpi_kernel_get_ticks (tsc (checks + k)) < deadline) →
      event_wait_loop no_interference tsc deadline fuel i checks 0 0 = none := by
  induction fuel with
  | zero => intro i checks _; rfl
  | succ fuel ih =>
    intro i checks h
    have h0 : ¬ uacpi_kernel_get_ticks (tsc checks) ≥ deadline := by
      have := h 0 (Nat.succ_pos fuel)
      rw [Nat.add_zero] at this
      omega
    simp only [event_wait_loop, no_interference, if_true, h0, if_false]
    apply ih
    intro k hk
    have := h (k + 1) (by omega)
    have e : checks + 1 + k = checks + (k + 1) := by omega
    rw [e]; exact this

/-- A wait on a counter that stays `0` returns false at the first tick reading
at or above the deadline: when the readings `checks .. checks + j - 1` are
below the deadline and the reading `checks + j` is not, the call returns
false after `j + 1` readings, with any fuel above `j`. -/
theorem event_wait_zero_returns_at (tsc : Nat → Nat) (deadline j : Nat) :
    ∀ i checks fuel, (∀ k, k < j → uacpi_kernel_get_ticks (tsc (checks + k)) < deadline) →
      uacpi_kernel_get_ticks (tsc (checks + j)) ≥ deadline → j < fuel →
      event_wait_loop no_interference tsc deadline fuel i checks 0 0
        = some { returned := false, count := 0, writes := [], checks := checks + j + 1 } := by
  induction j with
  | zero =>
    intro i checks fuel _ h hfuel
    obtain ⟨f, rfl⟩ : ∃ f, fuel = f + 1 := ⟨fuel - 1, by omega⟩
    rw [Nat.add_zero] at h
    simp only [event_wait_loop, no_interference, if_true, h, Nat.add_zero]
  | succ j ih =>
    intro i checks fuel hlow h hfuel
    obtain ⟨f, rfl⟩ : ∃ f, fuel = f + 1 := ⟨fuel - 1, by omega⟩
    have h0 : ¬ uacpi_kernel_get_ticks (tsc checks) ≥ deadline := by
      have := hlow 0 (Nat.succ_pos j)
      rw [Nat.add_zero] at this
      omega
    have e : checks + 1 + j = checks + (j + 1) := by omega
    have hstep := ih (i + 1) (checks + 1) f
      (by
        intro k hk
        have := hlow (k + 1) (by omega)
        have e' : checks + 1 + k = checks + (k + 1) := by omega
        rw [e']; exact this)
      (by rw [e]; exact h) (by omega)
    simp only [event_wait_loop, no_interference, if_true, h0, if_false]
    rw [hstep, e]

/-- C14 (event counting).  For `N < 2 ^ 64`: `N` calls of
`uacpi_kernel_signal_event` take the counter from `0` to `N`; the next `N`
calls of `uacpi_kernel_wait_for_event`, run one after the other, all return
true without making a timeout check and leave the counter at `0`.  A further
wait with a timeout `t` below `0xFFFF` never returns true.  Its deadline is
the tick count at the call plus `t * 10000`, in 64 bits.  As long as every
tick reading is below that deadline the wait has not returned; at the first
reading at or above the deadline, the `(j + 1)`-th, it returns false with
the counter still `0`, after exactly `j + 1` timeout checks. -/
theorem event_counting (N : Nat) (hN : N < 2 ^ 64) (timeout now : Nat → Nat)
    (tsc : Nat → Nat → Nat) (fuel : Nat) (hfuel : 2 ≤ fuel) :
    Nat.iterate uacpi_kernel_signal_event N 0 = N ∧
    (∃ os, event_wait_sequence timeout now tsc fuel N N = some (os, 0) ∧
      os.length = N ∧ ∀ o ∈ os, o.returned = true ∧ o.checks = 0) ∧
    (∀ t n ts fl, t < UINT16_MAX →
      (uacpi_kernel_wait_for_event no_interference n ts fl 0 t).map (·.returned) ≠ some true) ∧
    (∀ t n ts j, t < UINT16_MAX → uacpi_kernel_get_ticks (ts j) ≥ wait_deadline t n →
      ∃ fl o, uacpi_kernel_wait_for_event no_interference n ts fl 0 t = some o ∧
        o.returned = false ∧ o.count = 0 ∧ o.writes = []) ∧
    (∀ t n, t < UINT16_MAX →
      wait_deadline t n = (uacpi_kernel_get_ticks n + t * 10000) % WORD) ∧
    (∀ t n ts j, t < UINT16_MAX →
      (∀ k, k < j → uacpi_kernel_get_ticks (ts k) < wait_deadline t n) →
      (∀ fl, fl ≤ j → uacpi_kernel_wait_for_event no_interference n ts fl 0 t = none) ∧
      (uacpi_kernel_get_ticks (ts j) ≥ wait_deadline t n → ∀ fl, j < fl →
        uacpi_kernel_wait_for_event no_interference n ts fl 0 t
          = some { returned := false, count := 0, writes := [], checks := j + 1 })) := by
  obtain ⟨f, rfl⟩ : ∃ f, fuel = f + 2 := ⟨fuel - 2, by omega⟩
  refine ⟨signal_iterate N hN, event_wait_sequence_all timeout now tsc f N, ?_, ?_, ?_, ?_⟩
  · intro t n ts fl _
    exact event_wait_zero_never_true ts _ fl 0 0
  · intro t n ts j _ h
    exact event_wait_zero_times_out ts _ j 0 0 (by simpa using h)
  · intro t n ht
    exact wait_deadline_finite t n ht
  · intro t n ts j _ hlow
    constructor
    · intro fl hfl
      apply event_wait_zero_spins ts _ fl 0 0
      intro k hk
      rw [Nat.zero_add]
      exact hlow k (by omega)
    · intro h fl hfl
      have := event_wait_zero_returns_at ts (wait_deadline t n) j 0 0 fl
        (by intro k hk; rw [Nat.zero_add]; exact hlow k hk)
        (by rw [Nat.zero_add]; exact h) hfl
      rw [Nat.zero_add] at this
      exact this

theorem event_counting_witness :
    (uacpi_kernel_wait_for_event no_interference 0 (fun j => j) 1 0 10 = none ∧
      uacpi_kernel_wait_for_event no_interference 0 (fun j => j) 2 0 10
        = some { returned := false, count := 0, writes := [], checks := 2 }) ∧
    (Nat.iterate uacpi_kernel_signal_event 3 0 = 3 ∧
    (∃ os, event_wait_sequence (fun _ => 10) (fun _ => 0) (fun _ j => j) 2 3 3 = some (os, 0) ∧
      os.length = 3 ∧ ∀ o ∈ os, o.returned = true ∧ o.checks = 0) ∧
    (∀ t n ts fl, t < UINT16_MAX →
      (uacpi_kernel_wait_for_event no_interference n ts fl 0 t).map (·.returned) ≠ some true) ∧
    (∀ t n ts j, t < UINT16_MAX → uacpi_kernel_get_ticks (ts j) ≥ wait_deadline t n →
      ∃ fl o, uacpi_kernel_wait_for_event no_interference n ts fl 0 t = some o ∧
        o.returned = false ∧ o.count = 0 ∧ o.writes = []) ∧
    (∀ t n, t < UINT16_MAX →
      wait_deadline t n = (uacpi_kernel_get_ticks n + t * 10000) % WORD) ∧
    (∀ t n ts j, t < UINT16_MAX →
      (∀ k, k < j → uacpi_kernel_get_ticks (ts k) < wait_deadline t n) →
      (∀ fl, fl ≤ j → uacpi_kernel_wait_for_event no_interference n ts fl 0 t = none) ∧
      (uacpi_kernel_get_ticks (ts j) ≥ wait_deadline t n → ∀ fl, j < fl →
        uacpi_kernel_wait_for_event no_interference n ts fl 0 t
          = some { returned := false, count := 0, writes := [], checks := j + 1 }))) :=
  ⟨⟨by decide, by decide⟩,
    event_counting 3 (by decide) (fun _ => 10) (fun _ => 0) (fun _ j => j) 2 (by decide)⟩

/-! ## Splitting a block down the pool classes -/

theorem pool_set_header_of_ne (hdr : Nat) (s : Heap) (k : Nat) (h : hdr ≠ 0) :
    pool_set_header hdr s k = (hdr, s.set_size hdr (MIN_POOL_SIZE <<< k)) := by
  simp [pool_set_header, h]

theorem pool_set_header_null (s : Heap) (k : Nat) : pool_set_header 0 s k = (0, s) := by
  simp [pool_set_header]

/-- One level of `alloc_pool_by_index` whose list is not empty: the first
block is unlinked and returned. -/
theorem alloc_pool_below_pop (s : Heap) (d hdr : Nat) (rest : List Nat)
    (hl : s.m_alloc_pool_lists (MAX_POOL_INDEX - (d + 1)) = hdr :: rest) :
    alloc_pool_below s (d + 1)
      = pool_set_header hdr (s.set_pool (MAX_POOL_INDEX - (d + 1)) rest)
          (MAX_POOL_INDEX - (d + 1)) := by
  simp only [alloc_pool_below, hl]

/-- One level of `alloc_pool_by_index` whose list is empty and whose upper
level fails: the failure is passed on. -/
theorem alloc_pool_below_fail (s : Heap) (d : Nat)
    (hl : s.m_alloc_pool_lists (MAX_POOL_INDEX - (d + 1)) = [])
    (h0 : (alloc_pool_below s d).1 = 0) :
    alloc_pool_below s (d + 1) = (0, (alloc_pool_below s d).2) := by
  simp only [alloc_pool_below, hl, h0, ne_eq, not_true_eq_false, if_false, pool_set_header_null]

/-- One level of `alloc_pool_by_index` whose list is empty and whose upper
level returns a block recording `2 * c` bytes: the lower half goes on the list
with recorded size `c`, the upper half is returned with recorded size
`MIN_POOL_SIZE << pool_index`. -/
theorem alloc_pool_below_split (s : Heap) (d c : Nat)
    (hl : s.m_alloc_pool_lists (MAX_POOL_INDEX - (d + 1)) = [])
    (h0 : (alloc_pool_below s d).1 ≠ 0)
    (hsz : (alloc_pool_below s d).2.hdr_size (alloc_pool_below s d).1 = 2 * c)
    (hfit : (alloc_pool_below s d).1 + c < WORD) :
    alloc_pool_below s (d + 1)
      = ((alloc_pool_below s d).1 + c,
          ((((alloc_pool_below s d).2.set_size (alloc_pool_below s d).1 c).set_pool
            (MAX_POOL_INDEX - (d + 1))
            ((alloc_pool_below s d).1 ::
              (alloc_pool_below s d).2.m_alloc_pool_lists (MAX_POOL_INDEX - (d + 1)))).set_size
            ((alloc_pool_below s d).1 + c) (MIN_POOL_SIZE <<< (MAX_POOL_INDEX - (d + 1))))) := by
  have hhalf : (alloc_pool_below s d).2.hdr_size (alloc_pool_below s d).1 >>> 1 = c := by
    rw [hsz, Nat.shiftRight_eq_div_pow]; omega
  have hmod : ((alloc_pool_below s d).1 + c) % WORD = (alloc_pool_below s d).1 + c :=
    Nat.mod_eq_of_lt hfit
  have hne : (alloc_pool_below s d).1 + c ≠ 0 := by omega
  simp only [alloc_pool_below, hl, h0, ne_eq, not_false_eq_true, if_true, hhalf]
  have hread : (((alloc_pool_below s d).2.set_size (alloc_pool_below s d).1 c).set_pool
      (MAX_POOL_INDEX - (d + 1))
      ((alloc_pool_below s d).1 ::
        ((alloc_pool_below s d).2.set_size (alloc_pool_below s d).1 c).m_alloc_pool_lists
          (MAX_POOL_INDEX - (d + 1)))).hdr_size (alloc_pool_below s d).1 = c := by
    simp [Heap.set_pool, Heap.set_size]
  rw [hread, hmod, pool_set_header_of_ne _ _ _ hne]
  rfl

theorem set_size_lists (s : Heap) (a v : Nat) :
    (s.set_size a v).m_alloc_pool_lists = s.m_alloc_pool_lists := rfl

theorem set_size_map (s : Heap) (a v : Nat) :
    (s.set_size a v).m_memory_map = s.m_memory_map := rfl

theorem set_size_read (s : Heap) (a v : Nat) : (s.set_size a v).hdr_size a = v := by
  simp [Heap.set_size]

theorem set_size_read_ne (s : Heap) (a v b : Nat) (h : b ≠ a) :
    (s.set_size a v).hdr_size b = s.hdr_size b := by
  simp [Heap.set_size, h]

theorem set_pool_lists (s : Heap) (k j : Nat) (l : List Nat) :
    (s.set_pool k l).m_alloc_pool_lists j = if j = k then l else s.m_alloc_pool_lists j := rfl

theorem set_pool_map (s : Heap) (k : Nat) (l : List Nat) :
    (s.set_pool k l).m_memory_map = s.m_memory_map := rfl

theorem set_pool_size (s : Heap) (k : Nat) (l : List Nat) :
    (s.set_pool k l).hdr_size = s.hdr_size := rfl

/-- Splitting a fresh page: with the six lists empty and the single page `P`
on the page free list, `alloc_pool_by_index` at index `6 - d` returns the top
block of the page and leaves on every list from that index up the lower half
of the block split at that level. -/
theorem alloc_pool_below_fresh (s : Heap) (P : Nat) (hP : P ≠ 0) (hfit : P + 4096 ≤ 2 ^ 64)
    (hm : s.m_memory_map = [⟨P, 1⟩])
    (hempty : ∀ k, k < 6 → s.m_alloc_pool_lists k = []) (d : Nat) (hd : d ≤ 6) :
    (alloc_pool_below s d).1 = P + 4096 - 64 * 2 ^ (6 - d) ∧
    (alloc_pool_below s d).2.m_memory_map = [] ∧
    (∀ j, j < 6 → (alloc_pool_below s d).2.m_alloc_pool_lists j
      = if 6 - d ≤ j then [P + 4096 - 128 * 2 ^ j] else []) ∧
    (alloc_pool_below s d).2.hdr_size (alloc_pool_below s d).1 = 64 * 2 ^ (6 - d) := by
  have hmi : MAX_POOL_INDEX = 6 := by decide
  induction d with
  | zero =>
    have hpa : page_alloc [⟨P, 1⟩] 1 = (P, []) :=
      page_alloc_single P 1 hP (le_refl _) (by omega)
    simp only [alloc_pool_below, hm, hpa, pool_set_header_of_ne _ _ _ hP, set_size_read,
      set_size_lists, set_size_map, min_pool_size_shift, hmi]
    refine ⟨by omega, trivial, ?_, by norm_num⟩
    intro j hj
    rw [hempty j hj, if_neg (by omega)]
  | succ d ih =>
    obtain ⟨h1, h2, h3, h4⟩ := ih (by omega)
    have hk : MAX_POOL_INDEX - (d + 1) = 5 - d := by omega
    have hpow : (2 : Nat) ^ (6 - d) = 2 * 2 ^ (5 - d) := by
      have : 6 - d = (5 - d) + 1 := by omega
      rw [this, pow_succ]; omega
    have hpos : 0 < 2 ^ (5 - d) := Nat.pow_pos (by norm_num)
    have hle : 2 ^ (5 - d) ≤ 32 := by
      have : (2 : Nat) ^ (5 - d) ≤ 2 ^ 5 := Nat.pow_le_pow_right (by norm_num) (by omega)
      simpa using this
    have hsplit := alloc_pool_below_split s d (64 * 2 ^ (5 - d))
      (by rw [hk]; exact hempty _ (by omega))
      (by rw [h1, hpow]; omega)
      (by rw [h4, hpow]; omega)
      (by rw [h1, hpow]; simp only [WORD]; omega)
    rw [hsplit]
    have e6 : 6 - (d + 1) = 5 - d := by omega
    simp only [set_size_read, set_size_lists, set_size_map, set_pool_map, set_pool_lists, hk,
      min_pool_size_shift, e6]
    refine ⟨by rw [h1, hpow]; omega, h2, ?_, trivial⟩
    intro j hj
    by_cases hjk : j = 5 - d
    · subst hjk
      rw [if_pos rfl, if_pos (le_refl _), h3 _ (by omega), if_neg (by omega), h1, hpow]
      congr 1; omega
    · rw [if_neg hjk, h3 j hj]
      by_cases hge : 6 - d ≤ j
      · rw [if_pos hge, if_pos (by omega)]
      · rw [if_neg hge, if_neg (by omega)]

/-- C11 (on-demand splitting).  With the six pool lists empty and a page free
list holding the single page `P` (page aligned, not `NULL`),
`uacpi_kernel_alloc` of 64, 128 and 256 bytes in that order returns the
non-null pointers `P + 3976`, `P + 3592` and `P + 3080`; their blocks, of
recorded sizes 128, 256 and 512, lie one below the other inside
`[P, P + 4096)`; the first call makes one call of `page_alloc`, which empties
the page free list, and the other two make none. -/
theorem pool_on_demand_splitting (s : Heap) (P : Nat) (hP : P ≠ 0) (_hal : P % PAGE_SIZE = 0)
    (hfit : P + PAGE_SIZE ≤ WORD) (hm : s.m_memory_map = [⟨P, 1⟩])
    (hempty : ∀ k, k < MAX_POOL_INDEX → s.m_alloc_pool_lists k = []) :
    ∃ s₁ s₂ s₃,
      uacpi_kernel_alloc s 64 = some (P + 3976, s₁) ∧
      uacpi_kernel_alloc s₁ 128 = some (P + 3592, s₂) ∧
      uacpi_kernel_alloc s₂ 256 = some (P + 3080, s₃) ∧
      (P + 3976 ≠ 0 ∧ P + 3592 ≠ 0 ∧ P + 3080 ≠ 0) ∧
      (s₃.hdr_size (header_of (P + 3976)) = 128 ∧ s₃.hdr_size (header_of (P + 3592)) = 256 ∧
        s₃.hdr_size (header_of (P + 3080)) = 512) ∧
      (P ≤ header_of (P + 3080) ∧
        header_of (P + 3080) + s₃.hdr_size (header_of (P + 3080)) ≤ header_of (P + 3592) ∧
        header_of (P + 3592) + s₃.hdr_size (header_of (P + 3592)) ≤ header_of (P + 3976) ∧
        header_of (P + 3976) + s₃.hdr_size (header_of (P + 3976)) ≤ P + PAGE_SIZE) ∧
      (uacpi_kernel_alloc_page_calls s 64 = some 1 ∧ s₁.m_memory_map = [] ∧
        uacpi_kernel_alloc_page_calls s₁ 128 = some 0 ∧
        uacpi_kernel_alloc_page_calls s₂ 256 = some 0 ∧ s₃.m_memory_map = []) := by
  have hmi : MAX_POOL_INDEX = 6 := by decide
  simp only [PAGE_SIZE, WORD, hmi] at hfit hempty
  obtain ⟨f1, f2, f3, f4⟩ := alloc_pool_below_fresh s P hP hfit hm hempty 5 (by omega)
  have hw : ∀ a, a ≤ 4000 → (P + a + POOL_HEADER_SIZE) % WORD = P + a + 8 := by
    intro a ha; simp only [POOL_HEADER_SIZE, WORD]; omega
  have hh : ∀ a, a ≤ 4000 → header_of (P + a + 8) = P + a := by
    intro a ha; simp only [header_of, POOL_HEADER_SIZE, WORD]; omega
  have p1 : (64 : Nat) * 2 ^ (6 - 5) = 128 := by decide
  have p2 : (128 : Nat) * 2 ^ 2 = 512 := by decide
  have p3 : (128 : Nat) * 2 ^ 3 = 1024 := by decide
  -- first call: index 1, the page is split down to a 128-byte block
  have e1 : (alloc_pool_below s 5).1 = P + 3968 := by rw [f1, p1]; omega
  have a1 : uacpi_kernel_alloc s 64 = some (P + 3976, (alloc_pool_below s 5).2) := by
    rw [uacpi_kernel_alloc_pool_eq s 64 1 (by decide) (by decide) (by decide)]
    have : MAX_POOL_INDEX - 1 = 5 := by decide
    rw [this, e1, if_pos (by omega), hw 3968 (by omega)]
  rw [e1, p1] at f4
  have c1 : uacpi_kernel_alloc_page_calls s 64 = some 1 := by
    have hi : pool_index_of ((64 + POOL_HEADER_SIZE) % WORD) = some 1 := by decide
    have hs : ¬ (64 + POOL_HEADER_SIZE) % WORD > MAX_POOL_SIZE := by decide
    simp only [uacpi_kernel_alloc_page_calls, hi, hs, if_false, hmi]
    simp [page_alloc_calls_below, hmi, hempty]
  generalize (alloc_pool_below s 5).2 = s₁ at *
  have l2 : s₁.m_alloc_pool_lists 2 = [P + 3584] := by
    have e : P + 4096 - 128 * 2 ^ 2 = P + 3584 := by omega
    rw [f3 2 (by omega), if_pos (show 6 - 5 ≤ 2 by decide), e]
  have l3 : s₁.m_alloc_pool_lists 3 = [P + 3072] := by
    have e : P + 4096 - 128 * 2 ^ 3 = P + 3072 := by omega
    rw [f3 3 (by omega), if_pos (show 6 - 5 ≤ 3 by decide), e]
  -- second call: index 2, the 256-byte block left on list 2 is taken
  have b2 : alloc_pool_below s₁ 4
      = (P + 3584, (s₁.set_pool 2 []).set_size (P + 3584) 256) := by
    have hl : s₁.m_alloc_pool_lists (MAX_POOL_INDEX - (3 + 1)) = (P + 3584) :: [] := by
      rw [show MAX_POOL_INDEX - (3 + 1) = 2 by decide]; exact l2
    rw [alloc_pool_below_pop s₁ 3 _ _ hl, pool_set_header_of_ne _ _ _ (by omega : P + 3584 ≠ 0)]
    rfl
  have a2 : uacpi_kernel_alloc s₁ 128
      = some (P + 3592, (s₁.set_pool 2 []).set_size (P + 3584) 256) := by
    rw [uacpi_kernel_alloc_pool_eq s₁ 128 2 (by decide) (by decide) (by decide)]
    have : MAX_POOL_INDEX - 2 = 4 := by decide
    rw [this, b2]
    simp only []
    rw [if_pos (by omega), hw 3584 (by omega)]
  -- third call: index 3, the 512-byte block left on list 3 is taken
  have b3 : alloc_pool_below ((s₁.set_pool 2 []).set_size (P + 3584) 256) 3
      = (P + 3072,
          ((((s₁.set_pool 2 []).set_size (P + 3584) 256).set_pool 3 []).set_size
            (P + 3072) 512)) := by
    have hl : ((s₁.set_pool 2 []).set_size (P + 3584) 256).m_alloc_pool_lists
        (MAX_POOL_INDEX - (2 + 1)) = (P + 3072) :: [] := by
      rw [show MAX_POOL_INDEX - (2 + 1) = 3 by decide, set_size_lists, set_pool_lists,
        if_neg (by decide)]
      exact l3
    rw [alloc_pool_below_pop _ 2 _ _ hl, pool_set_header_of_ne _ _ _ (by omega : P + 3072 ≠ 0)]
    rfl
  have a3 : uacpi_kernel_alloc ((s₁.set_pool 2 []).set_size (P + 3584) 256) 256
      = some (P + 3080,
          ((((s₁.set_pool 2 []).set_size (P + 3584) 256).set_pool 3 []).set_size
            (P + 3072) 512)) := by
    rw [uacpi_kernel_alloc_pool_eq _ 256 3 (by decide) (by decide) (by decide)]
    have : MAX_POOL_INDEX - 3 = 3 := by decide
    rw [this, b3]
    simp only []
    rw [if_pos (by omega), hw 3072 (by omega)]
  have c2 : uacpi_kernel_alloc_page_calls s₁ 128 = some 0 := by
    have hi : pool_index_of ((128 + POOL_HEADER_SIZE) % WORD) = some 2 := by decide
    have hs : ¬ (128 + POOL_HEADER_SIZE) % WORD > MAX_POOL_SIZE := by decide
    simp only [uacpi_kernel_alloc_page_calls, hi, hs, if_false, hmi]
    simp [page_alloc_calls_below, hmi, l2]
  have c3 : uacpi_kernel_alloc_page_calls ((s₁.set_pool 2 []).set_size (P + 3584) 256) 256
      = some 0 := by
    have hi : pool_index_of ((256 + POOL_HEADER_SIZE) % WORD) = some 3 := by decide
    have hs : ¬ (256 + POOL_HEADER_SIZE) % WORD > MAX_POOL_SIZE := by decide
    simp only [uacpi_kernel_alloc_page_calls, hi, hs, if_false, hmi]
    simp [page_alloc_calls_below, hmi, l3, set_size_lists, set_pool_lists]
  have g1 : ((((s₁.set_pool 2 []).set_size (P + 3584) 256).set_pool 3 []).set_size
      (P + 3072) 512).hdr_size (P + 3968) = 128 := by
    rw [set_size_read_ne _ _ _ _ (by omega), set_pool_size,
      set_size_read_ne _ _ _ _ (by omega), set_pool_size]
    exact f4
  have g2 : ((((s₁.set_pool 2 []).set_size (P + 3584) 256).set_pool 3 []).set_size
      (P + 3072) 512).hdr_size (P + 3584) = 256 := by
    rw [set_size_read_ne _ _ _ _ (by omega), set_pool_size, set_size_read]
  have g3 : ((((s₁.set_pool 2 []).set_size (P + 3584) 256).set_pool 3 []).set_size
      (P + 3072) 512).hdr_size (P + 3072) = 512 := by
    rw [set_size_read]
  refine ⟨s₁, _, _, a1, a2, a3, ⟨by omega, by omega, by omega⟩, ?_, ?_, ?_⟩
  · rw [hh 3968 (by omega), hh 3584 (by omega), hh 3072 (by omega)]
    exact ⟨g1, g2, g3⟩
  · rw [hh 3968 (by omega), hh 3584 (by omega), hh 3072 (by omega), g1, g2, g3]
    simp only [PAGE_SIZE]
    omega
  · exact ⟨c1, f2, c2, c3, f2⟩

theorem pool_on_demand_splitting_witness :
    ∃ s₁ s₂ s₃,
      uacpi_kernel_alloc one_page_heap 64 = some (4096 + 3976, s₁) ∧
      uacpi_kernel_alloc s₁ 128 = some (4096 + 3592, s₂) ∧
      uacpi_kernel_alloc s₂ 256 = some (4096 + 3080, s₃) ∧
      (4096 + 3976 ≠ 0 ∧ 4096 + 3592 ≠ 0 ∧ 4096 + 3080 ≠ 0) ∧
      (s₃.hdr_size (header_of (4096 + 3976)) = 128 ∧
        s₃.hdr_size (header_of (4096 + 3592)) = 256 ∧
        s₃.hdr_size (header_of (4096 + 3080)) = 512) ∧
      (4096 ≤ header_of (4096 + 3080) ∧
        header_of (4096 + 3080) + s₃.hdr_size (header_of (4096 + 3080))
          ≤ header_of (4096 + 3592) ∧
        header_of (4096 + 3592) + s₃.hdr_size (header_of (4096 + 3592))
          ≤ header_of (4096 + 3976) ∧
        header_of (4096 + 3976) + s₃.hdr_size (header_of (4096 + 3976)) ≤ 4096 + PAGE_SIZE) ∧
      (uacpi_kernel_alloc_page_calls one_page_heap 64 = some 1 ∧ s₁.m_memory_map = [] ∧
        uacpi_kernel_alloc_page_calls s₁ 128 = some 0 ∧
        uacpi_kernel_alloc_page_calls s₂ 256 = some 0 ∧ s₃.m_memory_map = []) :=
  pool_on_demand_splitting one_page_heap 4096 (by decide) (by decide) (by decide) rfl
    (fun _ _ => rfl)



/-! ## Carving from the top -/

/-- C19 (carve from the top).  On a free list satisfying the list invariant, a
non-null result `p` of `page_alloc_max n max_address` lies at a whole-page
offset inside a node of the list, with `[p, p + n * 4096)` inside that node
and its last byte at or below `max_address`; no address with these three
properties in any node of the list is higher than `p`; and in the list after
the call the node is replaced by the part below `p` (one node at the same
address with the count reduced, absent when nothing remains) followed by the
part above `p + n * 4096` (a separate node, absent when nothing remains). -/
theorem page_alloc_max_carves_top (m : List free_page_list_t) (n max_address : Nat)
    (hinv : list_invariant m) (hn : 1 ≤ n) (hmax : max_address ≤ UINT64_MAX)
    (h : (page_alloc_max m n max_address).1 ≠ 0) :
    (∃ pre nd post, m = pre ++ nd :: post ∧
      (∃ k, (page_alloc_max m n max_address).1 = nd.addr + k * PAGE_SIZE) ∧
      (page_alloc_max m n max_address).1 + n * PAGE_SIZE ≤ nd.limit ∧
      (page_alloc_max m n max_address).1 + n * PAGE_SIZE - 1 ≤ max_address ∧
      (page_alloc_max m n max_address).2 =
        pre ++ (((if nd.addr < (page_alloc_max m n max_address).1 then
              [⟨nd.addr, ((page_alloc_max m n max_address).1 - nd.addr) / PAGE_SIZE⟩]
            else []) ++
          (if (page_alloc_max m n max_address).1 + n * PAGE_SIZE < nd.limit then
              [⟨(page_alloc_max m n max_address).1 + n * PAGE_SIZE,
                (nd.limit - ((page_alloc_max m n max_address).1 + n * PAGE_SIZE)) / PAGE_SIZE⟩]
            else [])) ++ post)) ∧
    (∀ nd ∈ m, ∀ k, nd.addr + k * PAGE_SIZE + n * PAGE_SIZE ≤ nd.limit →
      nd.addr + k * PAGE_SIZE + n * PAGE_SIZE - 1 ≤ max_address →
      nd.addr + k * PAGE_SIZE ≤ (page_alloc_max m n max_address).1) := by
  have hmax' : max_address < 2 ^ 64 := by simp only [UINT64_MAX] at hmax; omega
  have hs := page_alloc_max_ne_null m n max_address h
  obtain ⟨pre, A, N, post, hm, hcn, hlow, hpost, hr⟩ :=
    page_alloc_scan_inv m n max_address hinv hn hmax' _ hs
  obtain ⟨hct, htn, htm⟩ := clamped_top_bounds A N n max_address hcn hlow
  have htop : ∀ j, j ≤ N → A + j * 4096 ≤ max_address + 1 → j ≤ clamped_top A N max_address := by
    intro j hjN hj
    have : j ≤ (max_address + 1 - A) / 4096 :=
      (Nat.le_div_iff_mul_le (by norm_num)).2 (by omega)
    simp only [clamped_top, PAGE_SIZE]
    omega
  rw [hr]
  generalize clamped_top A N max_address = t at *
  simp only [PAGE_SIZE, free_page_list_t.limit]
  have hsub : (t - n) * 4096 + n * 4096 = t * 4096 := by
    rw [← Nat.add_mul]; congr 1; omega
  constructor
  · refine ⟨pre, ⟨A, N⟩, post, hm, ⟨t - n, rfl⟩, by simp only; omega, by omega, ?_⟩
    simp only
    have e1 : (A + (t - n) * 4096 - A) / 4096 = t - n := by
      rw [Nat.add_sub_cancel_left]; exact Nat.mul_div_cancel _ (by norm_num)
    have e2 : A + (t - n) * 4096 + n * 4096 = A + t * 4096 := by omega
    have e3 : (A + N * 4096 - (A + t * 4096)) / 4096 = N - t := by
      have : A + N * 4096 - (A + t * 4096) = (N - t) * 4096 := by
        rw [Nat.sub_mul]; omega
      rw [this]; exact Nat.mul_div_cancel _ (by norm_num)
    rw [e1, e2, e3]
    have c1 : (A < A + (t - n) * 4096) ↔ (0 < t - n) := by omega
    have c2 : (A + t * 4096 < A + N * 4096) ↔ (t < N) := by omega
    simp only [c1, c2]
  · intro nd hnd k hin hlast
    subst hm
    have hinv' := hinv
    obtain ⟨hall, hp⟩ := hinv
    rw [List.pairwise_append] at hp
    obtain ⟨-, hp2, hp3⟩ := hp
    rw [List.pairwise_cons] at hp2
    simp only [List.mem_append, List.mem_cons] at hnd
    rcases hnd with hnd | rfl | hnd
    · have := hp3 nd hnd ⟨A, N⟩ (by simp)
      simp only [free_page_list_t.limit, PAGE_SIZE] at this
      omega
    · simp only at hin hlast ⊢
      have hkn : k + n ≤ N := by
        have : (k + n) * 4096 ≤ N * 4096 := by rw [Nat.add_mul]; omega
        omega
      have := htop (k + n) hkn (by rw [Nat.add_mul]; omega)
      have : k ≤ t - n := by omega
      have : k * 4096 ≤ (t - n) * 4096 := Nat.mul_le_mul_right _ this
      omega
    · exfalso
      have hwf := hall nd (by simp [hnd])
      simp only [free_page_list_t.limit, PAGE_SIZE, WORD] at hwf
      have hfit : page_fits ⟨nd.addr, nd.number_of_pages⟩ n max_address = true :=
        (page_fits_iff nd.addr nd.number_of_pages n max_address hwf.2.2 hn).2
          ⟨by
            have : n * 4096 ≤ nd.number_of_pages * 4096 := by omega
            omega, by omega⟩
      have := hpost nd hnd
      rw [this] at hfit
      cases hfit

theorem page_alloc_max_carves_top_witness :
    (∃ (pre : List free_page_list_t) (nd : free_page_list_t) (post : List free_page_list_t),
      [⟨4096, 4⟩, ⟨40960, 2⟩] = pre ++ nd :: post ∧
      (∃ k, (page_alloc_max [⟨4096, 4⟩, ⟨40960, 2⟩] 2 16383).1 = nd.addr + k * PAGE_SIZE) ∧
      (page_alloc_max [⟨4096, 4⟩, ⟨40960, 2⟩] 2 16383).1 + 2 * PAGE_SIZE ≤ nd.limit ∧
      (page_alloc_max [⟨4096, 4⟩, ⟨40960, 2⟩] 2 16383).1 + 2 * PAGE_SIZE - 1 ≤ 16383 ∧
      (page_alloc_max [⟨4096, 4⟩, ⟨40960, 2⟩] 2 16383).2 =
        pre ++ (((if nd.addr < (page_alloc_max [⟨4096, 4⟩, ⟨40960, 2⟩] 2 16383).1 then
              [⟨nd.addr,
                ((page_alloc_max [⟨4096, 4⟩, ⟨40960, 2⟩] 2 16383).1 - nd.addr) / PAGE_SIZE⟩]
            else []) ++
          (if (page_alloc_max [⟨4096, 4⟩, ⟨40960, 2⟩] 2 16383).1 + 2 * PAGE_SIZE < nd.limit then
              [⟨(page_alloc_max [⟨4096, 4⟩, ⟨40960, 2⟩] 2 16383).1 + 2 * PAGE_SIZE,
                (nd.limit - ((page_alloc_max [⟨4096, 4⟩, ⟨40960, 2⟩] 2 16383).1 + 2 * PAGE_SIZE))
                  / PAGE_SIZE⟩]
            else [])) ++ post)) ∧
    (∀ nd ∈ ([⟨4096, 4⟩, ⟨40960, 2⟩] : List free_page_list_t), ∀ k,
      nd.addr + k * PAGE_SIZE + 2 * PAGE_SIZE ≤ nd.limit →
      nd.addr + k * PAGE_SIZE + 2 * PAGE_SIZE - 1 ≤ 16383 →
      nd.addr + k * PAGE_SIZE ≤ (page_alloc_max [⟨4096, 4⟩, ⟨40960, 2⟩] 2 16383).1) :=
  page_alloc_max_carves_top [⟨4096, 4⟩, ⟨40960, 2⟩] 2 16383 list_invariant_two
    (by decide) (by decide) (by decide)

/-! ## The free-list invariant under `page_free` and `page_alloc_max` -/

theorem list_invariant_nil : list_invariant [] := by
  simp [list_invariant]

theorem list_invariant_append (X Y : List free_page_list_t) :
    list_invariant (X ++ Y) ↔
      list_invariant X ∧ list_invariant Y ∧ ∀ a ∈ X, ∀ b ∈ Y, a.limit < b.addr := by
  simp only [list_invariant, List.pairwise_append, List.mem_append]
  constructor
  · rintro ⟨h1, h2, h3, h4⟩
    exact ⟨⟨fun nd h => h1 nd (Or.inl h), h2⟩, ⟨fun nd h => h1 nd (Or.inr h), h3⟩, h4⟩
  · rintro ⟨⟨h1, h2⟩, ⟨h3, h4⟩, h5⟩
    exact ⟨fun nd h => h.elim (h1 nd) (h3 nd), h2, h4, h5⟩

theorem list_invariant_cons (e : free_page_list_t) (Y : List free_page_list_t) :
    list_invariant (e :: Y) ↔
      (e.addr % PAGE_SIZE = 0 ∧ e.addr ≠ 0 ∧ e.limit ≤ WORD) ∧ list_invariant Y ∧
        ∀ b ∈ Y, e.limit < b.addr := by
  simp only [list_invariant, List.pairwise_cons, List.mem_cons, forall_eq_or_imp]
  constructor
  · rintro ⟨⟨h1, h2⟩, h3, h4⟩
    exact ⟨h1, ⟨h2, h4⟩, h3⟩
  · rintro ⟨h1, ⟨h2, h4⟩, h3⟩
    exact ⟨⟨h1, h2⟩, h3, h4⟩

theorem free_list_invariant_append (X Y : List free_page_list_t) :
    free_list_invariant (X ++ Y) ↔
      free_list_invariant X ∧ free_list_invariant Y ∧ ∀ a ∈ X, ∀ b ∈ Y, a.limit < b.addr := by
  simp only [free_list_invariant, list_invariant_append, List.mem_append]
  constructor
  · rintro ⟨⟨h1, h2, h3⟩, h4⟩
    exact ⟨⟨h1, fun nd h => h4 nd (Or.inl h)⟩, ⟨h2, fun nd h => h4 nd (Or.inr h)⟩, h3⟩
  · rintro ⟨⟨h1, h4⟩, ⟨h2, h5⟩, h3⟩
    exact ⟨⟨h1, h2, h3⟩, fun nd h => h.elim (h4 nd) (h5 nd)⟩

theorem free_list_invariant_cons (e : free_page_list_t) (Y : List free_page_list_t) :
    free_list_invariant (e :: Y) ↔
      (e.addr % PAGE_SIZE = 0 ∧ e.addr ≠ 0 ∧ e.limit ≤ WORD ∧ 1 ≤ e.number_of_pages) ∧
        free_list_invariant Y ∧ ∀ b ∈ Y, e.limit < b.addr := by
  simp only [free_list_invariant, list_invariant_cons, List.mem_cons, forall_eq_or_imp]
  constructor
  · rintro ⟨⟨⟨h1, h2, h3⟩, h4, h5⟩, h6, h7⟩
    exact ⟨⟨h1, h2, h3, h6⟩, ⟨h4, h7⟩, h5⟩
  · rintro ⟨⟨h1, h2, h3, h6⟩, ⟨h4, h7⟩, h5⟩
    exact ⟨⟨⟨h1, h2, h3⟩, h4, h5⟩, h6, h7⟩

theorem free_list_invariant_nil : free_list_invariant [] := by
  simp [free_list_invariant, list_invariant_nil]

theorem is_free_nil (x : Nat) : ¬ is_free [] x := by
  simp [is_free]

/-- The test of `page_merge_nodes` on two aligned nodes in address order whose
runs do not overlap: the nodes are merged exactly when the first ends where
the second begins. -/
theorem page_merge_nodes_eq (a b : free_page_list_t) (ha : a.addr % 4096 = 0)
    (hb : b.addr % 4096 = 0) (hab : a.addr + a.number_of_pages * 4096 ≤ b.addr)
    (hbw : b.addr + b.number_of_pages * 4096 ≤ 2 ^ 64) (hb1 : 1 ≤ b.number_of_pages) :
    page_merge_nodes a b =
      if a.addr + a.number_of_pages * 4096 = b.addr then
        [⟨a.addr, a.number_of_pages + b.number_of_pages⟩]
      else [a, b] := by
  have hlt : b.addr < 2 ^ 64 := by omega
  have hcond : (((b.addr + WORD - a.addr) % WORD) >>> PAGE_SHIFT = a.number_of_pages) ↔
      (a.addr + a.number_of_pages * 4096 = b.addr) := by
    rw [shr12]; simp only [WORD]
    constructor
    · intro h; omega
    · intro h; omega
  have hsum : a.addr + a.number_of_pages * 4096 = b.addr →
      (a.number_of_pages + b.number_of_pages) % WORD = a.number_of_pages + b.number_of_pages := by
    intro h; simp only [WORD]; omega
  unfold page_merge_nodes
  by_cases hc : a.addr + a.number_of_pages * 4096 = b.addr
  · rw [if_pos (hcond.2 hc), if_pos hc, hsum hc]
  · rw [if_neg (fun h => hc (hcond.1 h)), if_neg hc]

/-- Replacing a stretch `om` of the free list by `nm`, whose nodes stay within
the bounds that separate the stretch from the rest of the list. -/
theorem free_list_sandwich (I R om nm : List free_page_list_t) (lo hi ptr len : Nat)
    (hold : free_list_invariant (I ++ (om ++ R)))
    (hI : ∀ a ∈ I, a.limit < lo) (hR : ∀ b ∈ R, hi < b.addr)
    (hnm : free_list_invariant nm) (hb : ∀ e ∈ nm, lo ≤ e.addr ∧ e.limit ≤ hi)
    (hcov : ∀ x, is_free nm x ↔ (is_free om x ∨ (ptr ≤ x ∧ x < ptr + len))) :
    free_list_invariant (I ++ (nm ++ R)) ∧
      ∀ x, is_free (I ++ (nm ++ R)) x ↔
        (is_free (I ++ (om ++ R)) x ∨ (ptr ≤ x ∧ x < ptr + len)) := by
  rw [free_list_invariant_append, free_list_invariant_append] at hold
  obtain ⟨hIinv, ⟨-, hRinv, -⟩, hIR⟩ := hold
  constructor
  · rw [free_list_invariant_append, free_list_invariant_append]
    refine ⟨hIinv, ⟨hnm, hRinv, ?_⟩, ?_⟩
    · intro a ha b hb'
      have := (hb a ha).2
      have := hR b hb'
      omega
    · intro a ha b hb'
      simp only [List.mem_append] at hb'
      rcases hb' with hb' | hb'
      · have := (hb b hb').1
        have := hI a ha
        omega
      · exact hIR a ha b (by simp [hb'])
  · intro x
    simp only [is_free_append, hcov x]
    tauto

theorem page_free_first (m : List free_page_list_t) (ptr n : Nat)
    (hB : m.takeWhile (fun pages => !decide (ptr < pages.addr)) = [])
    (hA : m.dropWhile (fun pages => !decide (ptr < pages.addr)) = []) :
    page_free m ptr n = [⟨ptr, n⟩] := by
  simp only [page_free, hB, hA, List.reverse_nil]

theorem page_free_head (m : List free_page_list_t) (ptr n : Nat) (node : free_page_list_t)
    (rest : List free_page_list_t)
    (hB : m.takeWhile (fun pages => !decide (ptr < pages.addr)) = [])
    (hA : m.dropWhile (fun pages => !decide (ptr < pages.addr)) = node :: rest) :
    page_free m ptr n = page_merge_nodes ⟨ptr, n⟩ node ++ rest := by
  simp only [page_free, hB, hA, List.reverse_nil]

theorem page_free_tail (m : List free_page_list_t) (ptr n : Nat) (prev : free_page_list_t)
    (init : List free_page_list_t)
    (hB : m.takeWhile (fun pages => !decide (ptr < pages.addr)) = init ++ [prev])
    (hA : m.dropWhile (fun pages => !decide (ptr < pages.addr)) = []) :
    page_free m ptr n = init ++ page_merge_nodes prev ⟨ptr, n⟩ := by
  simp only [page_free, hB, hA, List.reverse_append, List.reverse_cons, List.reverse_nil,
    List.nil_append, List.singleton_append, List.reverse_reverse]

theorem page_free_middle (m : List free_page_list_t) (ptr n : Nat) (prev node : free_page_list_t)
    (init rest : List free_page_list_t)
    (hB : m.takeWhile (fun pages => !decide (ptr < pages.addr)) = init ++ [prev])
    (hA : m.dropWhile (fun pages => !decide (ptr < pages.addr)) = node :: rest) :
    page_free m ptr n =
      match page_merge_nodes prev ⟨ptr, n⟩ with
      | [merged] => init ++ (page_merge_nodes merged node ++ rest)
      | _ => init ++ (prev :: (page_merge_nodes ⟨ptr, n⟩ node ++ rest)) := by
  simp only [page_free, hB, hA, List.reverse_append, List.reverse_cons, List.reverse_nil,
    List.nil_append, List.singleton_append, List.reverse_reverse]

/-- The scan of `page_free` splits the list into the nodes at or below `ptr`
and the nodes above it. -/
theorem page_free_scan (m : List free_page_list_t) (ptr : Nat) :
    m = m.takeWhile (fun pages => !decide (ptr < pages.addr)) ++
        m.dropWhile (fun pages => !decide (ptr < pages.addr)) ∧
      (∀ nd ∈ m.takeWhile (fun pages => !decide (ptr < pages.addr)), nd.addr ≤ ptr) ∧
      (∀ node rest, m.dropWhile (fun pages => !decide (ptr < pages.addr)) = node :: rest →
        ptr < node.addr) := by
  refine ⟨(List.takeWhile_append_dropWhile _ _).symm, ?_, ?_⟩
  · intro nd hnd
    have := List.mem_takeWhile_imp hnd
    simp only [Bool.not_eq_true', decide_eq_false_iff_not] at this
    omega
  · intro node rest h
    have := List.head?_dropWhile_not (fun pages => !decide (ptr < pages.addr)) m
    rw [h] at this
    simp only [List.head?_cons, Bool.not_eq_false', decide_eq_true_eq] at this
    exact this

theorem is_free_one (a : free_page_list_t) (x : Nat) :
    is_free [a] x ↔ (a.addr ≤ x ∧ x < a.addr + a.number_of_pages * 4096) := by
  simp [is_free, free_page_list_t.limit, PAGE_SIZE]

theorem is_free_two (a b : free_page_list_t) (x : Nat) :
    is_free [a, b] x ↔ (a.addr ≤ x ∧ x < a.addr + a.number_of_pages * 4096) ∨
      (b.addr ≤ x ∧ x < b.addr + b.number_of_pages * 4096) := by
  simp [is_free, free_page_list_t.limit, PAGE_SIZE]

theorem is_free_three (a b c : free_page_list_t) (x : Nat) :
    is_free [a, b, c] x ↔ (a.addr ≤ x ∧ x < a.addr + a.number_of_pages * 4096) ∨
      (b.addr ≤ x ∧ x < b.addr + b.number_of_pages * 4096) ∨
      (c.addr ≤ x ∧ x < c.addr + c.number_of_pages * 4096) := by
  simp [is_free, free_page_list_t.limit, PAGE_SIZE]

/-- A node that is well formed on its own: aligned, not `NULL`, inside the
address space and with at least one page. -/
theorem free_list_invariant_one (a : free_page_list_t) :
    free_list_invariant [a] ↔
      (a.addr % 4096 = 0 ∧ a.addr ≠ 0 ∧ a.addr + a.number_of_pages * 4096 ≤ 2 ^ 64 ∧
        1 ≤ a.number_of_pages) := by
  simp [free_list_invariant_cons, free_list_invariant_nil, free_page_list_t.limit, PAGE_SIZE,
    WORD]

theorem free_list_invariant_two (a b : free_page_list_t) :
    free_list_invariant [a, b] ↔
      (a.addr % 4096 = 0 ∧ a.addr ≠ 0 ∧ a.addr + a.number_of_pages * 4096 ≤ 2 ^ 64 ∧
        1 ≤ a.number_of_pages) ∧
      (b.addr % 4096 = 0 ∧ b.addr ≠ 0 ∧ b.addr + b.number_of_pages * 4096 ≤ 2 ^ 64 ∧
        1 ≤ b.number_of_pages) ∧
      a.addr + a.number_of_pages * 4096 < b.addr := by
  rw [free_list_invariant_cons, free_list_invariant_one]
  simp only [free_page_list_t.limit, PAGE_SIZE, WORD, List.mem_singleton, forall_eq]

theorem free_list_invariant_three (a b c : free_page_list_t) :
    free_list_invariant [a, b, c] ↔
      (a.addr % 4096 = 0 ∧ a.addr ≠ 0 ∧ a.addr + a.number_of_pages * 4096 ≤ 2 ^ 64 ∧
        1 ≤ a.number_of_pages) ∧
      ((b.addr % 4096 = 0 ∧ b.addr ≠ 0 ∧ b.addr + b.number_of_pages * 4096 ≤ 2 ^ 64 ∧
        1 ≤ b.number_of_pages) ∧
      (c.addr % 4096 = 0 ∧ c.addr ≠ 0 ∧ c.addr + c.number_of_pages * 4096 ≤ 2 ^ 64 ∧
        1 ≤ c.number_of_pages) ∧
      b.addr + b.number_of_pages * 4096 < c.addr) ∧
      a.addr + a.number_of_pages * 4096 < b.addr ∧
      a.addr + a.number_of_pages * 4096 < c.addr := by
  rw [free_list_invariant_cons, free_list_invariant_two]
  simp only [free_page_list_t.limit, PAGE_SIZE, WORD, List.mem_cons, List.mem_singleton,
    forall_eq_or_imp, forall_eq, List.not_mem_nil, false_implies, implies_true, and_true]

/-- The new node in front of the first node of the list. -/
theorem page_free_head_spec (node : free_page_list_t) (rest : List free_page_list_t)
    (ptr n : Nat) (hinv : free_list_invariant (node :: rest)) (hal : ptr % 4096 = 0)
    (hne : ptr ≠ 0) (hn : 1 ≤ n) (hgap : ptr + n * 4096 ≤ node.addr) :
    free_list_invariant (page_merge_nodes ⟨ptr, n⟩ node ++ rest) ∧
      ∀ x, is_free (page_merge_nodes ⟨ptr, n⟩ node ++ rest) x ↔
        (is_free (node :: rest) x ∨ (ptr ≤ x ∧ x < ptr + n * 4096)) := by
  have hnode := ((free_list_invariant_cons _ _).1 hinv).1
  have hrest := ((free_list_invariant_cons _ _).1 hinv).2.2
  simp only [free_page_list_t.limit, PAGE_SIZE, WORD] at hnode hrest
  obtain ⟨h1, h2, h3, h4⟩ := hnode
  rw [page_merge_nodes_eq ⟨ptr, n⟩ node hal h1 hgap h3 h4]
  have hs := free_list_sandwich [] rest [node]
    (if ptr + n * 4096 = node.addr then [⟨ptr, n + node.number_of_pages⟩]
      else [⟨ptr, n⟩, node]) ptr (node.addr + node.number_of_pages * 4096) ptr (n * 4096)
    (by simpa using hinv) (by simp) hrest
  simp only [List.nil_append, List.singleton_append] at hs
  apply hs
  · split
    · rw [free_list_invariant_one]; simp only; refine ⟨hal, hne, ?_, by omega⟩
      rw [Nat.add_mul]; omega
    · rw [free_list_invariant_two]; simp only
      exact ⟨⟨hal, hne, by omega, hn⟩, ⟨h1, h2, h3, h4⟩, by omega⟩
  · intro e he
    split at he
    · simp only [List.mem_singleton] at he; subst he
      simp only [free_page_list_t.limit, PAGE_SIZE]
      rw [Nat.add_mul]; omega
    · simp only [List.mem_cons, List.mem_singleton, List.not_mem_nil, or_false] at he
      rcases he with rfl | rfl <;> simp only [free_page_list_t.limit, PAGE_SIZE] <;> omega
  · intro x
    split
    · rw [is_free_one, is_free_one]; simp only; rw [Nat.add_mul]; omega
    · rw [is_free_two, is_free_one]; simp only; omega

/-- The new node behind the last node of the list. -/
theorem page_free_tail_spec (prev : free_page_list_t) (init : List free_page_list_t)
    (ptr n : Nat) (hinv : free_list_invariant (init ++ [prev])) (hal : ptr % 4096 = 0)
    (hn : 1 ≤ n) (hfit : ptr + n * 4096 ≤ 2 ^ 64)
    (hgap : prev.addr + prev.number_of_pages * 4096 ≤ ptr) :
    free_list_invariant (init ++ page_merge_nodes prev ⟨ptr, n⟩) ∧
      ∀ x, is_free (init ++ page_merge_nodes prev ⟨ptr, n⟩) x ↔
        (is_free (init ++ [prev]) x ∨ (ptr ≤ x ∧ x < ptr + n * 4096)) := by
  have hparts := (free_list_invariant_append _ _).1 hinv
  have hprev := (free_list_invariant_one prev).1 hparts.2.1
  have hinit : ∀ a ∈ init, a.limit < prev.addr := fun a ha => hparts.2.2 a ha prev (by simp)
  obtain ⟨h1, h2, h3, h4⟩ := hprev
  rw [page_merge_nodes_eq prev ⟨ptr, n⟩ h1 hal hgap hfit hn]
  have hs := free_list_sandwich init [] [prev]
    (if prev.addr + prev.number_of_pages * 4096 = ptr then [⟨prev.addr, prev.number_of_pages + n⟩]
      else [prev, ⟨ptr, n⟩]) prev.addr (ptr + n * 4096) ptr (n * 4096)
    (by simpa using hinv) hinit (by simp)
  simp only [List.append_nil] at hs
  apply hs
  · split
    · rw [free_list_invariant_one]; simp only; refine ⟨h1, h2, ?_, by omega⟩
      rw [Nat.add_mul]; omega
    · rw [free_list_invariant_two]; simp only
      exact ⟨⟨h1, h2, h3, h4⟩, ⟨hal, by omega, hfit, hn⟩, by omega⟩
  · intro e he
    split at he
    · simp only [List.mem_singleton] at he; subst he
      simp only [free_page_list_t.limit, PAGE_SIZE]
      rw [Nat.add_mul]; omega
    · simp only [List.mem_cons, List.mem_singleton, List.not_mem_nil, or_false] at he
      rcases he with rfl | rfl <;> simp only [free_page_list_t.limit, PAGE_SIZE] <;> omega
  · intro x
    split
    · rw [is_free_one, is_free_one]; simp only; rw [Nat.add_mul]; omega
    · rw [is_free_two, is_free_one]

/-- The new node between two nodes of the list. -/
theorem page_free_middle_spec (prev node : free_page_list_t) (init rest : List free_page_list_t)
    (ptr n : Nat) (hinv : free_list_invariant (init ++ (prev :: node :: rest)))
    (hal : ptr % 4096 = 0) (hn : 1 ≤ n)
    (hlo : prev.addr + prev.number_of_pages * 4096 ≤ ptr)
    (hhi : ptr + n * 4096 ≤ node.addr) :
    free_list_invariant
        (match page_merge_nodes prev ⟨ptr, n⟩ with
          | [merged] => init ++ (page_merge_nodes merged node ++ rest)
          | _ => init ++ (prev :: (page_merge_nodes ⟨ptr, n⟩ node ++ rest))) ∧
      ∀ x, is_free
        (match page_merge_nodes prev ⟨ptr, n⟩ with
          | [merged] => init ++ (page_merge_nodes merged node ++ rest)
          | _ => init ++ (prev :: (page_merge_nodes ⟨ptr, n⟩ node ++ rest))) x ↔
        (is_free (init ++ (prev :: node :: rest)) x ∨ (ptr ≤ x ∧ x < ptr + n * 4096)) := by
  have hparts := (free_list_invariant_append _ _).1 hinv
  have hinit : ∀ a ∈ init, a.limit < prev.addr := fun a ha => hparts.2.2 a ha prev (by simp)
  have hpn := (free_list_invariant_cons _ _).1 hparts.2.1
  have hprev := hpn.1
  have hnr := (free_list_invariant_cons _ _).1 hpn.2.1
  have hnode := hnr.1
  have hrest : ∀ b ∈ rest, node.limit < b.addr := hnr.2.2
  simp only [free_page_list_t.limit, PAGE_SIZE, WORD] at hprev hnode hrest hinit
  obtain ⟨p1, p2, p3, p4⟩ := hprev
  obtain ⟨n1, n2, n3, n4⟩ := hnode
  have hold : free_list_invariant (init ++ ([prev, node] ++ rest)) := by simpa using hinv
  have hfit : ptr + n * 4096 ≤ 2 ^ 64 := by omega
  rw [page_merge_nodes_eq prev ⟨ptr, n⟩ p1 hal hlo hfit hn]
  by_cases hc : prev.addr + prev.number_of_pages * 4096 = ptr
  · rw [if_pos hc]
    simp only []
    have hab : prev.addr + (prev.number_of_pages + n) * 4096 ≤ node.addr := by
      rw [Nat.add_mul]; omega
    rw [page_merge_nodes_eq ⟨prev.addr, prev.number_of_pages + n⟩ node p1 n1 hab n3 n4]
    have hs := free_list_sandwich init rest [prev, node]
      (if prev.addr + (prev.number_of_pages + n) * 4096 = node.addr then
          [⟨prev.addr, prev.number_of_pages + n + node.number_of_pages⟩]
        else [⟨prev.addr, prev.number_of_pages + n⟩, node])
      prev.addr (node.addr + node.number_of_pages * 4096) ptr (n * 4096) hold
      (by simpa [free_page_list_t.limit, PAGE_SIZE] using hinit)
      (by simpa [free_page_list_t.limit, PAGE_SIZE] using hrest)
    have hold' : init ++ (prev :: node :: rest) = init ++ ([prev, node] ++ rest) := by simp
    rw [hold']
    apply hs
    · split
      · rw [free_list_invariant_one]; simp only; refine ⟨p1, p2, ?_, by omega⟩
        rw [Nat.add_mul, Nat.add_mul]; rw [Nat.add_mul] at hab; omega
      · rw [free_list_invariant_two]; simp only
        refine ⟨⟨p1, p2, by omega, by omega⟩, ⟨n1, n2, n3, n4⟩, by omega⟩
    · intro e he
      split at he
      · simp only [List.mem_singleton] at he; subst he
        simp only [free_page_list_t.limit, PAGE_SIZE]
        rw [Nat.add_mul, Nat.add_mul]; rw [Nat.add_mul] at hab; omega
      · simp only [List.mem_cons, List.mem_singleton, List.not_mem_nil, or_false] at he
        rcases he with rfl | rfl <;> simp only [free_page_list_t.limit, PAGE_SIZE] <;> omega
    · intro x
      split
      · rw [is_free_one, is_free_two]; simp only
        rw [Nat.add_mul, Nat.add_mul]; rw [Nat.add_mul] at hab; omega
      · rw [is_free_two, is_free_two]; simp only
        rw [Nat.add_mul]; rw [Nat.add_mul] at hab; omega
  · rw [if_neg hc]
    simp only []
    rw [page_merge_nodes_eq ⟨ptr, n⟩ node hal n1 hhi n3 n4]
    have hs := free_list_sandwich init rest [prev, node]
      (prev :: (if ptr + n * 4096 = node.addr then [⟨ptr, n + node.number_of_pages⟩]
        else [⟨ptr, n⟩, node]))
      prev.addr (node.addr + node.number_of_pages * 4096) ptr (n * 4096) hold
      (by simpa [free_page_list_t.limit, PAGE_SIZE] using hinit)
      (by simpa [free_page_list_t.limit, PAGE_SIZE] using hrest)
    have hold' : init ++ (prev :: node :: rest) = init ++ ([prev, node] ++ rest) := by simp
    rw [hold']
    simp only [List.cons_append] at hs ⊢
    apply hs
    · split
      · rw [free_list_invariant_two]; simp only
        refine ⟨⟨p1, p2, p3, p4⟩, ⟨hal, by omega, ?_, by omega⟩, by omega⟩
        rw [Nat.add_mul]; omega
      · rw [free_list_invariant_three]; simp only
        refine ⟨⟨p1, p2, p3, p4⟩, ⟨⟨hal, by omega, hfit, hn⟩, ⟨n1, n2, n3, n4⟩, by omega⟩,
          by omega, by omega⟩
    · intro e he
      simp only [List.mem_cons] at he
      rcases he with rfl | he
      · simp only [free_page_list_t.limit, PAGE_SIZE]; omega
      · split at he
        · simp only [List.mem_singleton] at he; subst he
          simp only [free_page_list_t.limit, PAGE_SIZE]
          rw [Nat.add_mul]; omega
        · simp only [List.mem_cons, List.mem_singleton, List.not_mem_nil, or_false] at he
          rcases he with rfl | rfl <;> simp only [free_page_list_t.limit, PAGE_SIZE] <;> omega
    · intro x
      split
      · rw [is_free_two, is_free_two]; simp only; rw [Nat.add_mul]; omega
      · rw [is_free_three, is_free_two]; simp only; omega

/-- What `page_free` does to a free list satisfying the free-list invariant,
when it is handed a run of whole pages that is free nowhere in the list: the
invariant holds afterwards and the free bytes are the old ones and the run. -/
theorem page_free_spec (m : List free_page_list_t) (ptr n : Nat)
    (hinv : free_list_invariant m) (hal : ptr % PAGE_SIZE = 0) (hne : ptr ≠ 0) (hn : 1 ≤ n)
    (hfit : ptr + n * PAGE_SIZE ≤ WORD)
    (hdis : ∀ x, ptr ≤ x → x < ptr + n * PAGE_SIZE → ¬ is_free m x) :
    free_list_invariant (page_free m ptr n) ∧
      ∀ x, is_free (page_free m ptr n) x ↔
        (is_free m x ∨ (ptr ≤ x ∧ x < ptr + n * PAGE_SIZE)) := by
  simp only [PAGE_SIZE, WORD] at hal hfit hdis ⊢
  -- a node at or below `ptr` ends at or below it, a node above starts above the run
  have hbelow : ∀ nd ∈ m, nd.addr ≤ ptr → nd.addr + nd.number_of_pages * 4096 ≤ ptr := by
    intro nd hnd hle
    by_contra hcon
    exact hdis ptr (le_refl _) (by omega)
      ⟨nd, hnd, hle, by simp only [free_page_list_t.limit, PAGE_SIZE]; omega⟩
  have habove : ∀ nd ∈ m, ptr < nd.addr → ptr + n * 4096 ≤ nd.addr := by
    intro nd hnd hlt
    by_contra hcon
    have h1 := hinv.2 nd hnd
    exact hdis nd.addr (by omega) (by omega)
      ⟨nd, hnd, le_refl _, by simp only [free_page_list_t.limit, PAGE_SIZE]; omega⟩
  obtain ⟨hm, hB, hA⟩ := page_free_scan m ptr
  rcases List.eq_nil_or_concat (m.takeWhile (fun pages => !decide (ptr < pages.addr)))
    with hBnil | ⟨init, prev, hBc'⟩
  · cases hAc : m.dropWhile (fun pages => !decide (ptr < pages.addr)) with
    | nil =>
      rw [page_free_first m ptr n hBnil hAc]
      have hmnil : m = [] := by rw [hm, hBnil, hAc]; rfl
      subst hmnil
      refine ⟨(free_list_invariant_one _).2 ⟨hal, hne, hfit, hn⟩, fun x => ?_⟩
      rw [is_free_one]
      simp [is_free_nil]
    | cons node rest =>
      rw [page_free_head m ptr n node rest hBnil hAc]
      have hmeq : m = node :: rest := by rw [hm, hBnil, hAc]; rfl
      rw [hmeq] at hinv ⊢
      exact page_free_head_spec node rest ptr n hinv hal hne hn
        (habove node (by rw [hmeq]; simp) (hA node rest hAc))
  · have hBc : m.takeWhile (fun pages => !decide (ptr < pages.addr)) = init ++ [prev] := by
      rw [hBc', List.concat_eq_append]
    have hprev_mem : prev ∈ m := by
      rw [hm, hBc]; simp
    have hprev_le : prev.addr ≤ ptr := hB prev (by rw [hBc]; simp)
    cases hAc : m.dropWhile (fun pages => !decide (ptr < pages.addr)) with
    | nil =>
      rw [page_free_tail m ptr n prev init hBc hAc]
      have hmeq : m = init ++ [prev] := by rw [hm, hBc, hAc]; simp
      rw [hmeq] at hinv ⊢
      exact page_free_tail_spec prev init ptr n hinv hal hn hfit
        (hbelow prev hprev_mem hprev_le)
    | cons node rest =>
      rw [page_free_middle m ptr n prev node init rest hBc hAc]
      have hmeq : m = init ++ (prev :: node :: rest) := by rw [hm, hBc, hAc]; simp
      have hnode_mem : node ∈ m := by rw [hmeq]; simp
      rw [hmeq] at hinv
      have := page_free_middle_spec prev node init rest ptr n hinv hal hn
        (hbelow prev hprev_mem hprev_le) (habove node hnode_mem (hA node rest hAc))
      rw [hmeq]
      exact this

theorem page_alloc_max_keeps_invariant (m : List free_page_list_t) (n max_address : Nat)
    (hinv : free_list_invariant m) (hn : 1 ≤ n) (hmax : max_address ≤ UINT64_MAX) :
    free_list_invariant (page_alloc_max m n max_address).2 := by
  have hmax' : max_address < 2 ^ 64 := by simp only [UINT64_MAX] at hmax; omega
  cases hs : page_alloc_scan n max_address m with
  | none => rw [page_alloc_max_of_none m _ _ hs]; exact hinv
  | some r =>
    rw [page_alloc_max_of_some m _ _ r hs]
    refine ⟨(page_alloc_scan_post m n max_address hinv.1 hn hmax' r hs).2.2.2.1, ?_⟩
    obtain ⟨pre, A, N, post, hm, hcn, hlow, -, hr⟩ :=
      page_alloc_scan_inv m n max_address hinv.1 hn hmax' r hs
    obtain ⟨hct, htn, -⟩ := clamped_top_bounds A N n max_address hcn hlow
    subst hm hr
    intro nd hnd
    simp only [List.mem_append] at hnd
    rcases hnd with hnd | (hnd | hnd) | hnd
    · exact hinv.2 nd (by simp [hnd])
    · split at hnd
      · simp only [List.mem_singleton] at hnd; subst hnd; simp only; omega
      · simp at hnd
    · split at hnd
      · simp only [List.mem_singleton] at hnd; subst hnd; simp only; omega
      · simp at hnd
    · exact hinv.2 nd (by simp [hnd])

/-- C18, as stated, fails: the list with the single node
`(0xFFFFFFFFFFFFF000, 2 pages)`, whose run wraps past the end of the address
space, satisfies the predicate as stated, and after
`page_alloc_max(2, UINT64_MAX)` the list is
`(0xFFFFFFFFFFFFF000, 2^64 - 1 pages), (0, 1 page)`, whose node addresses are
not increasing. -/
theorem free_list_predicate_as_stated_broken :
    free_list_predicate_as_stated [⟨0xFFFFFFFFFFFFF000, 2⟩] ∧
    (page_alloc_max [⟨0xFFFFFFFFFFFFF000, 2⟩] 2 UINT64_MAX).2
      = [⟨0xFFFFFFFFFFFFF000, 2 ^ 64 - 1⟩, ⟨0, 1⟩] ∧
    ¬ free_list_predicate_as_stated (page_alloc_max [⟨0xFFFFFFFFFFFFF000, 2⟩] 2 UINT64_MAX).2 := by
  have h : (page_alloc_max [⟨0xFFFFFFFFFFFFF000, 2⟩] 2 UINT64_MAX).2
      = [⟨0xFFFFFFFFFFFFF000, 2 ^ 64 - 1⟩, ⟨0, 1⟩] := by decide
  refine ⟨?_, h, ?_⟩
  · simp [free_list_predicate_as_stated, PAGE_SIZE]
  · rw [h]
    simp [free_list_predicate_as_stated]

/-- C18, amended.  The free-list invariant (node addresses page aligned and
not `NULL`, no run wrapping past the end of the address space, every run
ending strictly below the start of every later one, every node with at least
one page) is preserved by `page_free ptr n` for every page-aligned non-null
`ptr` and `n ≥ 1` whose run lies inside the address space and shares no byte
with a free node, and by `page_alloc_max n max_address` for every `n ≥ 1` and
every `max_address`. -/
theorem free_list_invariant_preserved :
    (∀ m ptr n, free_list_invariant m → ptr % PAGE_SIZE = 0 → ptr ≠ 0 → 1 ≤ n →
      ptr + n * PAGE_SIZE ≤ WORD →
      (∀ x, ptr ≤ x → x < ptr + n * PAGE_SIZE → ¬ is_free m x) →
      free_list_invariant (page_free m ptr n)) ∧
    (∀ m n max_address, free_list_invariant m → 1 ≤ n → max_address ≤ UINT64_MAX →
      free_list_invariant (page_alloc_max m n max_address).2) :=
  ⟨fun m ptr n hinv hal hne hn hfit hdis =>
      (page_free_spec m ptr n hinv hal hne hn hfit hdis).1,
   page_alloc_max_keeps_invariant⟩

theorem free_list_invariant_two_nodes : free_list_invariant [⟨4096, 4⟩, ⟨40960, 2⟩] := by
  rw [free_list_invariant_two]; decide

theorem free_list_invariant_preserved_witness :
    free_list_invariant (page_free [⟨4096, 4⟩, ⟨40960, 2⟩] 20480 3) ∧
    free_list_invariant (page_alloc_max [⟨4096, 4⟩, ⟨40960, 2⟩] 2 16383).2 :=
  ⟨free_list_invariant_preserved.1 [⟨4096, 4⟩, ⟨40960, 2⟩] 20480 3
      free_list_invariant_two_nodes (by decide) (by decide) (by decide) (by decide)
      (by
        intro x h1 h2 hfree
        rw [is_free_two] at hfree
        simp only [PAGE_SIZE] at h2 hfree
        omega),
   free_list_invariant_preserved.2 [⟨4096, 4⟩, ⟨40960, 2⟩] 2 16383
      free_list_invariant_two_nodes (by decide) (by decide)⟩



/-! ## Covers of the pool and of the live blocks -/

theorem class_cover_set_size (s : Heap) (a v k x : Nat) :
    class_cover (s.set_size a v) k x = class_cover s k x := rfl

theorem pool_cover_set_size (s : Heap) (a v x : Nat) :
    pool_cover (s.set_size a v) x = pool_cover s x := rfl

theorem pool_cover_map (s : Heap) (m : List free_page_list_t) (x : Nat) :
    pool_cover { s with m_memory_map := m } x = pool_cover s x := rfl

theorem live_cover_map (s : Heap) (m : List free_page_list_t) (live : List Nat) (x : Nat) :
    live_cover { s with m_memory_map := m } live x = live_cover s live x := rfl

theorem live_cover_set_pool (s : Heap) (k : Nat) (l : List Nat) (live : List Nat) (x : Nat) :
    live_cover (s.set_pool k l) live x = live_cover s live x := rfl

/-- Linking a block in front of list `k` adds its bytes to the cover. -/
theorem pool_cover_push (s : Heap) (k a x : Nat) (hk : k < 6) :
    pool_cover (s.set_pool k (a :: s.m_alloc_pool_lists k)) x
      = pool_cover s x + (if a ≤ x ∧ x < a + MIN_POOL_SIZE <<< k then 1 else 0) := by
  have hk' : k = 0 ∨ k = 1 ∨ k = 2 ∨ k = 3 ∨ k = 4 ∨ k = 5 := by omega
  rcases hk' with rfl | rfl | rfl | rfl | rfl | rfl <;>
    simp only [pool_cover, class_cover, Heap.set_pool, List.countP_cons, if_true,
      decide_eq_true_eq] <;>
    simp <;> omega

/-- Unlinking the first block of list `k` takes its bytes out of the cover. -/
theorem pool_cover_pop (s : Heap) (k a x : Nat) (rest : List Nat) (hk : k < 6)
    (hl : s.m_alloc_pool_lists k = a :: rest) :
    pool_cover s x
      = pool_cover (s.set_pool k rest) x
        + (if a ≤ x ∧ x < a + MIN_POOL_SIZE <<< k then 1 else 0) := by
  have h := pool_cover_push (s.set_pool k rest) k a x hk
  have hs : (s.set_pool k rest).set_pool k (a :: (s.set_pool k rest).m_alloc_pool_lists k) = s := by
    cases s
    simp only [Heap.set_pool, if_true] at hl ⊢
    congr 1
    funext j
    by_cases hj : j = k
    · subst hj; simp [hl]
    · simp [hj]
  rw [hs] at h
  exact h

theorem live_cover_cons (s : Heap) (p : Nat) (live : List Nat) (x : Nat) :
    live_cover s (p :: live) x
      = live_cover s live x
        + (if header_of p ≤ x ∧ x < header_of p + s.hdr_size (header_of p) then 1 else 0) := by
  simp only [live_cover, List.countP_cons, decide_eq_true_eq]

theorem live_cover_erase (s : Heap) (p : Nat) (live : List Nat) (x : Nat) (hp : p ∈ live) :
    live_cover s live x
      = live_cover s (live.erase p) x
        + (if header_of p ≤ x ∧ x < header_of p + s.hdr_size (header_of p) then 1 else 0) := by
  rw [← live_cover_cons]
  exact (List.perm_cons_erase hp).countP_eq _

/-- The cover of the live blocks only reads the headers of the live blocks. -/
theorem live_cover_congr (s s' : Heap) (live : List Nat) (x : Nat)
    (h : ∀ p ∈ live, s'.hdr_size (header_of p) = s.hdr_size (header_of p)) :
    live_cover s' live x = live_cover s live x := by
  induction live with
  | nil => simp only [live_cover, List.countP_nil]
  | cons p live ih =>
    rw [live_cover_cons, live_cover_cons, ih (fun q hq => h q (by simp [hq])),
      h p (by simp)]

theorem class_cover_eq_zero (s : Heap) (k x : Nat) (h : class_cover s k x = 0) :
    ∀ a ∈ s.m_alloc_pool_lists k, ¬ (a ≤ x ∧ x < a + MIN_POOL_SIZE <<< k) := by
  intro a ha
  have := (List.countP_eq_zero.1 h) a ha
  simpa using this

theorem pool_cover_eq_zero (s : Heap) (x : Nat) (h : pool_cover s x = 0) :
    ∀ k, k < 6 → ∀ a ∈ s.m_alloc_pool_lists k, ¬ (a ≤ x ∧ x < a + MIN_POOL_SIZE <<< k) := by
  intro k hk
  simp only [pool_cover] at h
  have hk' : k = 0 ∨ k = 1 ∨ k = 2 ∨ k = 3 ∨ k = 4 ∨ k = 5 := by omega
  rcases hk' with rfl | rfl | rfl | rfl | rfl | rfl <;>
    exact class_cover_eq_zero s _ x (by omega)

theorem live_cover_eq_zero (s : Heap) (live : List Nat) (x : Nat) (h : live_cover s live x = 0) :
    ∀ p ∈ live, ¬ (header_of p ≤ x ∧ x < header_of p + s.hdr_size (header_of p)) := by
  intro p hp
  have := (List.countP_eq_zero.1 h) p hp
  simpa using this

/-! ## The pool invariant, step by step -/

theorem min_pool_size_shift_pos (k : Nat) : 64 ≤ MIN_POOL_SIZE <<< k := by
  rw [min_pool_size_shift]
  have : 0 < 2 ^ k := Nat.pow_pos (by norm_num)
  omega

theorem header_of_add (h : Nat) (hh : h + POOL_HEADER_SIZE < WORD) :
    header_of (h + POOL_HEADER_SIZE) = h := by
  simp only [header_of, POOL_HEADER_SIZE, WORD] at *
  omega

/-- A byte that lies in no block, pool or live. -/
theorem cover_zero (s : Heap) (live : List Nat) (x : Nat)
    (h : pool_cover s x + live_cover s live x = 0) :
    (∀ k, k < 6 → ∀ a ∈ s.m_alloc_pool_lists k, ¬ (a ≤ x ∧ x < a + MIN_POOL_SIZE <<< k)) ∧
    (∀ p ∈ live, ¬ (header_of p ≤ x ∧ x < header_of p + s.hdr_size (header_of p))) :=
  ⟨pool_cover_eq_zero s x (by omega), live_cover_eq_zero s live x (by omega)⟩

/-- Every live block has at least 64 bytes. -/
theorem live_size_pos (s : Heap) (live : List Nat) (hinv : pool_invariant s live) (p : Nat)
    (hp : p ∈ live) : 64 ≤ s.hdr_size (header_of p) := by
  obtain ⟨-, -, hlive, -, -⟩ := hinv
  obtain ⟨-, -, -, -, hk | hpg⟩ := hlive p hp
  · obtain ⟨k, -, hk⟩ := hk
    rw [hk]; exact min_pool_size_shift_pos k
  · obtain ⟨-, n, hn, hsz⟩ := hpg
    rw [hsz]; simp only [PAGE_SIZE]; omega

/-- Pages taken from the page free list become a live block. -/
theorem pool_invariant_take_pages (s : Heap) (live : List Nat) (B n : Nat)
    (m' : List free_page_list_t) (hinv : pool_invariant s live) (hB : B ≠ 0)
    (hal : B % PAGE_SIZE = 0) (hn : 1 ≤ n) (hfit : B + n * PAGE_SIZE ≤ WORD)
    (hm' : free_list_invariant m')
    (hblock : ∀ x, B ≤ x → x < B + n * PAGE_SIZE → is_free s.m_memory_map x)
    (hsub : ∀ x, is_free m' x →
      is_free s.m_memory_map x ∧ ¬ (B ≤ x ∧ x < B + n * PAGE_SIZE)) :
    pool_invariant (({ s with m_memory_map := m' } : Heap).set_size B (n * PAGE_SIZE))
      ((B + POOL_HEADER_SIZE) :: live) := by
  have hsz := live_size_pos s live hinv
  obtain ⟨-, hlists, hlive, hcov, hfree⟩ := hinv
  have hmi : MAX_POOL_INDEX = 6 := by decide
  have hB8 : B + POOL_HEADER_SIZE < WORD := by
    simp only [PAGE_SIZE, POOL_HEADER_SIZE, WORD] at *; omega
  have hhdr : header_of (B + POOL_HEADER_SIZE) = B := header_of_add B hB8
  -- the first byte of the run lies in no block
  have hzero := cover_zero s live B
    (hfree B (hblock B (le_refl _) (by simp only [PAGE_SIZE]; omega)))
  have hlist_ne : ∀ k, k < 6 → ∀ a ∈ s.m_alloc_pool_lists k, a ≠ B := by
    intro k hk a ha hab
    have := min_pool_size_shift_pos k
    exact hzero.1 k hk a ha ⟨by omega, by omega⟩
  have hlive_ne : ∀ p ∈ live, header_of p ≠ B := by
    intro p hp hab
    have := hsz p hp
    exact hzero.2 p hp ⟨by omega, by omega⟩
  have hlc : ∀ x, live_cover (({ s with m_memory_map := m' } : Heap).set_size B (n * PAGE_SIZE))
      live x = live_cover s live x := by
    intro x
    apply live_cover_congr
    intro p hp
    exact set_size_read_ne _ _ _ _ (hlive_ne p hp)
  have hcover : ∀ x, pool_cover (({ s with m_memory_map := m' } : Heap).set_size B (n * PAGE_SIZE)) x
      + live_cover (({ s with m_memory_map := m' } : Heap).set_size B (n * PAGE_SIZE))
          ((B + POOL_HEADER_SIZE) :: live) x
      = pool_cover s x + live_cover s live x
        + (if B ≤ x ∧ x < B + n * PAGE_SIZE then 1 else 0) := by
    intro x
    rw [live_cover_cons, hlc, hhdr, set_size_read, pool_cover_set_size, pool_cover_map]
    omega
  refine ⟨hm', ?_, ?_, ?_, ?_⟩
  · intro k hk a ha
    rw [hmi] at hk
    obtain ⟨h1, h2, h3⟩ := hlists k (by omega) a ha
    exact ⟨h1, h2, by rw [set_size_read_ne _ _ _ _ (hlist_ne k hk a ha)]; exact h3⟩
  · intro p hp
    simp only [List.mem_cons] at hp
    rcases hp with rfl | hp
    · rw [hhdr, set_size_read]
      refine ⟨hB8, rfl, hB, hfit, Or.inr ⟨hal, n, hn, rfl⟩⟩
    · rw [set_size_read_ne _ _ _ _ (hlive_ne p hp)]
      exact hlive p hp
  · intro x
    rw [hcover]
    by_cases hx : B ≤ x ∧ x < B + n * PAGE_SIZE
    · rw [if_pos hx, hfree x (hblock x hx.1 hx.2)]
    · rw [if_neg hx]; exact hcov x
  · intro x hx
    rw [hcover]
    obtain ⟨h1, h2⟩ := hsub x hx
    rw [if_neg h2]
    exact hfree x h1

theorem set_size_same (s : Heap) (a v : Nat) (h : s.hdr_size a = v) :
    (s.set_size a v).hdr_size = s.hdr_size := by
  funext b
  by_cases hb : b = a
  · subst hb; rw [set_size_read, h]
  · exact set_size_read_ne _ _ _ _ hb

/-- The first block of a pool list, unlinked, becomes a live block. -/
theorem pool_invariant_pop (s : Heap) (live : List Nat) (k a : Nat) (rest : List Nat)
    (hinv : pool_invariant s live) (hk : k < 6)
    (hl : s.m_alloc_pool_lists k = a :: rest) :
    pool_invariant ((s.set_pool k rest).set_size a (MIN_POOL_SIZE <<< k))
      ((a + POOL_HEADER_SIZE) :: live) := by
  obtain ⟨hmap, hlists, hlive, hcov, hfree⟩ := hinv
  have hmi : MAX_POOL_INDEX = 6 := by decide
  obtain ⟨ha0, hafit, hasz⟩ := hlists k (by omega) a (by rw [hl]; simp)
  have hpos := min_pool_size_shift_pos k
  have ha8 : a + POOL_HEADER_SIZE < WORD := by
    simp only [POOL_HEADER_SIZE, WORD] at *; omega
  have hhdr : header_of (a + POOL_HEADER_SIZE) = a := header_of_add a ha8
  have hsame : ((s.set_pool k rest).set_size a (MIN_POOL_SIZE <<< k)).hdr_size = s.hdr_size :=
    set_size_same (s.set_pool k rest) a _ hasz
  have hlc : ∀ x, live_cover ((s.set_pool k rest).set_size a (MIN_POOL_SIZE <<< k)) live x
      = live_cover s live x := by
    intro x
    apply live_cover_congr
    intro p _
    rw [hsame]
  have hcover : ∀ x, pool_cover ((s.set_pool k rest).set_size a (MIN_POOL_SIZE <<< k)) x
      + live_cover ((s.set_pool k rest).set_size a (MIN_POOL_SIZE <<< k))
          ((a + POOL_HEADER_SIZE) :: live) x
      = pool_cover s x + live_cover s live x := by
    intro x
    rw [live_cover_cons, hlc, hhdr, hsame, hasz, pool_cover_set_size,
      pool_cover_pop s k a x rest hk hl]
    omega
  refine ⟨hmap, ?_, ?_, ?_, ?_⟩
  · intro j hj b hb
    rw [hsame]
    rw [set_size_lists, set_pool_lists] at hb
    by_cases hjk : j = k
    · subst hjk
      rw [if_pos rfl] at hb
      exact hlists j hj b (by rw [hl]; simp [hb])
    · rw [if_neg hjk] at hb
      exact hlists j hj b hb
  · intro p hp
    rw [hsame]
    simp only [List.mem_cons] at hp
    rcases hp with rfl | hp
    · rw [hhdr]
      exact ⟨ha8, rfl, ha0, by rw [hasz]; exact hafit, Or.inl ⟨k, by omega, hasz⟩⟩
    · exact hlive p hp
  · intro x; rw [hcover]; exact hcov x
  · intro x hx; rw [hcover]; exact hfree x hx

theorem indicator_split (h c x : Nat) :
    (if h ≤ x ∧ x < h + 2 * c then 1 else 0)
      = (if h ≤ x ∧ x < h + c then 1 else 0) + (if h + c ≤ x ∧ x < h + c + c then 1 else 0) := by
  split_ifs <;> omega

/-- A live block that records `2 * c` bytes, `c` the size of class `k`, split
in two: the lower half goes on list `k`, the upper half is the live block. -/
theorem pool_invariant_split (s : Heap) (live : List Nat) (k p : Nat)
    (hinv : pool_invariant s (p :: live)) (hk : k < 6)
    (hsz : s.hdr_size (header_of p) = 2 * (MIN_POOL_SIZE <<< k)) :
    pool_invariant
      (((s.set_size (header_of p) (MIN_POOL_SIZE <<< k)).set_pool k
          (header_of p :: s.m_alloc_pool_lists k)).set_size
        (header_of p + MIN_POOL_SIZE <<< k) (MIN_POOL_SIZE <<< k))
      ((header_of p + MIN_POOL_SIZE <<< k + POOL_HEADER_SIZE) :: live) := by
  have hsizes := live_size_pos s (p :: live) hinv
  obtain ⟨hmap, hlists, hlive, hcov, hfree⟩ := hinv
  have hmi : MAX_POOL_INDEX = 6 := by decide
  have hpos := min_pool_size_shift_pos k
  obtain ⟨-, -, hh0, hhfit, -⟩ := hlive p (by simp)
  rw [hsz] at hhfit
  have hc8 : header_of p + MIN_POOL_SIZE <<< k + POOL_HEADER_SIZE < WORD := by
    simp only [POOL_HEADER_SIZE, WORD] at *; omega
  have hhdr := header_of_add (header_of p + MIN_POOL_SIZE <<< k) hc8
  -- no other block touches the block that is split
  have hcov' : ∀ x, pool_cover s x + live_cover s live x
      + (if header_of p ≤ x ∧ x < header_of p + 2 * (MIN_POOL_SIZE <<< k) then 1 else 0) ≤ 1 := by
    intro x
    have := hcov x
    rw [live_cover_cons, hsz] at this
    omega
  have hrest : ∀ x, header_of p ≤ x → x < header_of p + 2 * (MIN_POOL_SIZE <<< k) →
      pool_cover s x + live_cover s live x = 0 := by
    intro x h1 h2
    have := hcov' x
    rw [if_pos ⟨h1, h2⟩] at this
    omega
  have hlist_out : ∀ j, j < 6 → ∀ a ∈ s.m_alloc_pool_lists j,
      ¬ (header_of p ≤ a ∧ a < header_of p + 2 * (MIN_POOL_SIZE <<< k)) := by
    intro j hj a ha hin
    have := min_pool_size_shift_pos j
    exact (cover_zero s live a (hrest a hin.1 hin.2)).1 j hj a ha ⟨le_refl _, by omega⟩
  have hlive_out : ∀ q ∈ live,
      ¬ (header_of p ≤ header_of q ∧ header_of q < header_of p + 2 * (MIN_POOL_SIZE <<< k)) := by
    intro q hq hin
    have := hsizes q (by simp [hq])
    exact (cover_zero s live (header_of q) (hrest _ hin.1 hin.2)).2 q hq ⟨le_refl _, by omega⟩
  have hread : ∀ b, b ≠ header_of p → b ≠ header_of p + MIN_POOL_SIZE <<< k →
      (((s.set_size (header_of p) (MIN_POOL_SIZE <<< k)).set_pool k
          (header_of p :: s.m_alloc_pool_lists k)).set_size
        (header_of p + MIN_POOL_SIZE <<< k) (MIN_POOL_SIZE <<< k)).hdr_size b = s.hdr_size b := by
    intro b hb1 hb2
    rw [set_size_read_ne _ _ _ _ hb2, set_pool_size, set_size_read_ne _ _ _ _ hb1]
  have hlc : ∀ x, live_cover
      (((s.set_size (header_of p) (MIN_POOL_SIZE <<< k)).set_pool k
          (header_of p :: s.m_alloc_pool_lists k)).set_size
        (header_of p + MIN_POOL_SIZE <<< k) (MIN_POOL_SIZE <<< k)) live x
      = live_cover s live x := by
    intro x
    apply live_cover_congr
    intro q hq
    have := hlive_out q hq
    exact hread _ (by omega) (by omega)
  have hpc : ∀ x, pool_cover
      (((s.set_size (header_of p) (MIN_POOL_SIZE <<< k)).set_pool k
          (header_of p :: s.m_alloc_pool_lists k)).set_size
        (header_of p + MIN_POOL_SIZE <<< k) (MIN_POOL_SIZE <<< k)) x
      = pool_cover s x
        + (if header_of p ≤ x ∧ x < header_of p + MIN_POOL_SIZE <<< k then 1 else 0) := by
    intro x
    rw [pool_cover_set_size]
    exact pool_cover_push (s.set_size (header_of p) (MIN_POOL_SIZE <<< k)) k (header_of p) x hk
  have hcover : ∀ x, pool_cover
      (((s.set_size (header_of p) (MIN_POOL_SIZE <<< k)).set_pool k
          (header_of p :: s.m_alloc_pool_lists k)).set_size
        (header_of p + MIN_POOL_SIZE <<< k) (MIN_POOL_SIZE <<< k)) x
      + live_cover
      (((s.set_size (header_of p) (MIN_POOL_SIZE <<< k)).set_pool k
          (header_of p :: s.m_alloc_pool_lists k)).set_size
        (header_of p + MIN_POOL_SIZE <<< k) (MIN_POOL_SIZE <<< k))
        ((header_of p + MIN_POOL_SIZE <<< k + POOL_HEADER_SIZE) :: live) x
      = pool_cover s x + live_cover s live x
        + (if header_of p ≤ x ∧ x < header_of p + 2 * (MIN_POOL_SIZE <<< k) then 1 else 0) := by
    intro x
    rw [live_cover_cons, hlc, hpc, hhdr, set_size_read, indicator_split]
    omega
  refine ⟨hmap, ?_, ?_, ?_, ?_⟩
  · intro j hj a ha
    rw [set_size_lists, set_pool_lists, set_size_lists] at ha
    have hold : a ∈ s.m_alloc_pool_lists j → a ≠ 0 ∧ a + MIN_POOL_SIZE <<< j ≤ WORD ∧
        (((s.set_size (header_of p) (MIN_POOL_SIZE <<< k)).set_pool k
          (header_of p :: s.m_alloc_pool_lists k)).set_size
        (header_of p + MIN_POOL_SIZE <<< k) (MIN_POOL_SIZE <<< k)).hdr_size a
          = MIN_POOL_SIZE <<< j := by
      intro ha'
      obtain ⟨h1, h2, h3⟩ := hlists j hj a ha'
      have := hlist_out j (by omega) a ha'
      exact ⟨h1, h2, by rw [hread a (by omega) (by omega)]; exact h3⟩
    by_cases hjk : j = k
    · subst hjk
      rw [if_pos rfl] at ha
      simp only [List.mem_cons] at ha
      rcases ha with ha | ha
      · rw [ha]
        have hne : header_of p ≠ header_of p + MIN_POOL_SIZE <<< j := by omega
        have hle : header_of p + MIN_POOL_SIZE <<< j ≤ WORD := by omega
        refine ⟨hh0, hle, ?_⟩
        rw [set_size_read_ne _ _ _ _ hne, set_pool_size, set_size_read]
      · exact hold ha
    · rw [if_neg hjk] at ha
      exact hold ha
  · intro q hq
    simp only [List.mem_cons] at hq
    rcases hq with rfl | hq
    · rw [hhdr, set_size_read]
      exact ⟨hc8, rfl, by omega, by omega, Or.inl ⟨k, by omega, rfl⟩⟩
    · have := hlive_out q hq
      rw [hread _ (by omega) (by omega)]
      exact hlive q (by simp [hq])
  · intro x; rw [hcover]; exact hcov' x
  · intro x hx
    rw [hcover]
    have := hfree x hx
    rw [live_cover_cons, hsz] at this
    omega

/-- A live block that records the size of class `k`, linked in front of list
`k`. -/
theorem pool_invariant_free_pool (s : Heap) (live : List Nat) (k p : Nat)
    (hinv : pool_invariant s live) (hp : p ∈ live) (hk : k < 6)
    (hsz : s.hdr_size (header_of p) = MIN_POOL_SIZE <<< k) :
    pool_invariant (s.set_pool k (header_of p :: s.m_alloc_pool_lists k)) (live.erase p) := by
  obtain ⟨hmap, hlists, hlive, hcov, hfree⟩ := hinv
  obtain ⟨-, -, hh0, hhfit, -⟩ := hlive p hp
  have hcover : ∀ x, pool_cover (s.set_pool k (header_of p :: s.m_alloc_pool_lists k)) x
      + live_cover (s.set_pool k (header_of p :: s.m_alloc_pool_lists k)) (live.erase p) x
      = pool_cover s x + live_cover s live x := by
    intro x
    rw [pool_cover_push s k _ x hk, live_cover_set_pool, live_cover_erase s p live x hp, hsz]
    omega
  refine ⟨hmap, ?_, ?_, ?_, ?_⟩
  · intro j hj a ha
    rw [set_pool_size]
    rw [set_pool_lists] at ha
    by_cases hjk : j = k
    · rw [if_pos hjk] at ha
      simp only [List.mem_cons] at ha
      rcases ha with ha | ha
      · rw [ha, hjk]
        exact ⟨hh0, by rw [← hsz]; exact hhfit, hsz⟩
      · exact hlists j hj a (by rw [hjk]; exact ha)
    · rw [if_neg hjk] at ha
      exact hlists j hj a ha
  · intro q hq
    rw [set_pool_size]
    exact hlive q (List.mem_of_mem_erase hq)
  · intro x; rw [hcover]; exact hcov x
  · intro x hx; rw [hcover]; exact hfree x hx

/-- A live block of whole pages, handed back to `page_free`. -/
theorem pool_invariant_free_pages (s : Heap) (live : List Nat) (n p : Nat)
    (hinv : pool_invariant s live) (hp : p ∈ live) (hn : 1 ≤ n)
    (hal : header_of p % PAGE_SIZE = 0)
    (hsz : s.hdr_size (header_of p) = n * PAGE_SIZE) :
    pool_invariant { s with m_memory_map := page_free s.m_memory_map (header_of p) n }
      (live.erase p) := by
  obtain ⟨hmap, hlists, hlive, hcov, hfree⟩ := hinv
  obtain ⟨-, -, hh0, hhfit, -⟩ := hlive p hp
  rw [hsz] at hhfit
  have hsplit : ∀ x, live_cover s live x = live_cover s (live.erase p) x
      + (if header_of p ≤ x ∧ x < header_of p + n * PAGE_SIZE then 1 else 0) := by
    intro x
    rw [live_cover_erase s p live x hp, hsz]
  have hdis : ∀ x, header_of p ≤ x → x < header_of p + n * PAGE_SIZE →
      ¬ is_free s.m_memory_map x := by
    intro x h1 h2 hx
    have := hfree x hx
    rw [hsplit, if_pos ⟨h1, h2⟩] at this
    omega
  obtain ⟨hinv', hiff⟩ := page_free_spec s.m_memory_map (header_of p) n hmap hal hh0 hn hhfit hdis
  refine ⟨hinv', hlists, ?_, ?_, ?_⟩
  · intro q hq
    exact hlive q (List.mem_of_mem_erase hq)
  · intro x
    rw [pool_cover_map, live_cover_map]
    have := hcov x
    rw [hsplit] at this
    omega
  · intro x hx
    rw [pool_cover_map, live_cover_map]
    have hc := hcov x
    rw [hsplit] at hc
    rcases (hiff x).1 hx with h | h
    · have := hfree x h
      rw [hsplit] at this
      omega
    · rw [if_pos h] at hc
      omega

/-- The pool invariant through `alloc_pool_by_index`: a failed call leaves it
in place, a successful one adds the returned block to the live blocks, with
the size of the class asked for recorded in its header. -/
theorem alloc_pool_below_invariant (s : Heap) (live : List Nat) (d : Nat) (hd : d ≤ 6)
    (hinv : pool_invariant s live) :
    ((alloc_pool_below s d).1 = 0 → pool_invariant (alloc_pool_below s d).2 live) ∧
    ((alloc_pool_below s d).1 ≠ 0 →
      pool_invariant (alloc_pool_below s d).2
        (((alloc_pool_below s d).1 + POOL_HEADER_SIZE) :: live) ∧
      (alloc_pool_below s d).2.hdr_size (alloc_pool_below s d).1 = MIN_POOL_SIZE <<< (6 - d) ∧
      (alloc_pool_below s d).1 + POOL_HEADER_SIZE < WORD) := by
  have hmi : MAX_POOL_INDEX = 6 := by decide
  induction d with
  | zero =>
    have hpage : alloc_pool_below s 0
        = pool_set_header (page_alloc s.m_memory_map 1).1
            { s with m_memory_map := (page_alloc s.m_memory_map 1).2 } MAX_POOL_INDEX := rfl
    rw [hpage]
    by_cases h0 : (page_alloc s.m_memory_map 1).1 = 0
    · rw [h0, pool_set_header_null]
      refine ⟨fun _ => ?_, fun h => absurd rfl h⟩
      have hnone : page_alloc_scan 1 UINT64_MAX s.m_memory_map = none := by
        cases hs : page_alloc_scan 1 UINT64_MAX s.m_memory_map with
        | none => rfl
        | some r =>
          have := (page_alloc_scan_post s.m_memory_map 1 UINT64_MAX hinv.1.1 (le_refl _)
            (by decide) r hs).1
          rw [page_alloc, page_alloc_max_of_some _ _ _ r hs] at h0
          exact absurd h0 this
      have hsame : (page_alloc s.m_memory_map 1).2 = s.m_memory_map := by
        rw [page_alloc, page_alloc_max_of_none _ _ _ hnone]
      rw [hsame]
      exact hinv
    · rw [pool_set_header_of_ne _ _ _ h0]
      refine ⟨fun h => absurd h h0, fun _ => ?_⟩
      have hs := page_alloc_max_ne_null s.m_memory_map 1 UINT64_MAX h0
      obtain ⟨-, hal, hle, -, hblock, hsub⟩ :=
        page_alloc_scan_post s.m_memory_map 1 UINT64_MAX hinv.1.1 (le_refl _) (by decide) _ hs
      have hkeep := page_alloc_max_keeps_invariant s.m_memory_map 1 UINT64_MAX hinv.1
        (le_refl _) (le_refl _)
      have hfit : (page_alloc s.m_memory_map 1).1 + 1 * PAGE_SIZE ≤ WORD := by
        have : UINT64_MAX + 1 = WORD := by decide
        rw [← this]; exact hle
      have h4096 : MIN_POOL_SIZE <<< MAX_POOL_INDEX = 1 * PAGE_SIZE := by decide
      rw [h4096]
      refine ⟨pool_invariant_take_pages s live _ 1 _ hinv h0 hal (le_refl _) hfit hkeep
        hblock hsub, ?_, ?_⟩
      · rw [set_size_read]; decide
      · simp only [PAGE_SIZE, POOL_HEADER_SIZE, WORD] at hfit ⊢; omega
  | succ d ih =>
    obtain ⟨ih0, ih1⟩ := ih (by omega)
    have hk : MAX_POOL_INDEX - (d + 1) = 5 - d := by omega
    have hk6 : 5 - d < 6 := by omega
    cases hl : s.m_alloc_pool_lists (5 - d) with
    | cons a rest =>
      have hl' : s.m_alloc_pool_lists (MAX_POOL_INDEX - (d + 1)) = a :: rest := by rw [hk, hl]
      obtain ⟨ha0, hafit, -⟩ := hinv.2.1 (5 - d) (by omega) a (by rw [hl]; simp)
      have hpos := min_pool_size_shift_pos (5 - d)
      rw [alloc_pool_below_pop s d a rest hl', pool_set_header_of_ne _ _ _ ha0, hk]
      refine ⟨fun h => absurd h ha0, fun _ => ⟨pool_invariant_pop s live (5 - d) a rest hinv hk6 hl,
        ?_, ?_⟩⟩
      · have e : 6 - (d + 1) = 5 - d := by omega
        rw [set_size_read, e]
      · simp only [POOL_HEADER_SIZE, WORD] at hafit ⊢; omega
    | nil =>
      have hl' : s.m_alloc_pool_lists (MAX_POOL_INDEX - (d + 1)) = [] := by rw [hk, hl]
      by_cases h0 : (alloc_pool_below s d).1 = 0
      · rw [alloc_pool_below_fail s d hl' h0]
        exact ⟨fun _ => ih0 h0, fun h => absurd rfl h⟩
      · obtain ⟨hinv1, hsz1, hfit1⟩ := ih1 h0
        have hpow : MIN_POOL_SIZE <<< (6 - d) = 2 * (MIN_POOL_SIZE <<< (5 - d)) := by
          rw [min_pool_size_shift, min_pool_size_shift]
          have : 6 - d = (5 - d) + 1 := by omega
          rw [this, pow_succ]; omega
        have hhdr := header_of_add (alloc_pool_below s d).1 hfit1
        have hsz2 : (alloc_pool_below s d).2.hdr_size
            (header_of ((alloc_pool_below s d).1 + POOL_HEADER_SIZE))
            = 2 * (MIN_POOL_SIZE <<< (5 - d)) := by rw [hhdr, hsz1, hpow]
        have hlimit := (hinv1.2.2.1 ((alloc_pool_below s d).1 + POOL_HEADER_SIZE)
          (List.mem_cons_self _ _)).2.2.2.1
        rw [hsz2, hhdr] at hlimit
        have hpos := min_pool_size_shift_pos (5 - d)
        have hsplit := alloc_pool_below_split s d (MIN_POOL_SIZE <<< (5 - d)) hl' h0
          (by rw [hsz1, hpow]) (by omega)
        have hstep := pool_invariant_split (alloc_pool_below s d).2 live (5 - d)
          ((alloc_pool_below s d).1 + POOL_HEADER_SIZE) hinv1 hk6 hsz2
        rw [hhdr] at hstep
        rw [hsplit, hk]
        refine ⟨fun h => ?_, fun _ => ⟨hstep, ?_, ?_⟩⟩
        · exfalso; simp only at h; omega
        · have e : 6 - (d + 1) = 5 - d := by omega
          rw [set_size_read, e]
        · simp only [POOL_HEADER_SIZE, WORD] at hlimit ⊢
          omega

theorem pool_index_of_zero : pool_index_of 0 = none := by decide

/-- The page path of `uacpi_kernel_alloc`, taken when the size with its header
is above `MAX_POOL_SIZE`. -/
theorem uacpi_kernel_alloc_page_eq (s : Heap) (size : Nat)
    (hbig : (size + POOL_HEADER_SIZE) % WORD > MAX_POOL_SIZE) :
    uacpi_kernel_alloc s size =
      if (page_alloc s.m_memory_map (SIZE_TO_PAGES ((size + POOL_HEADER_SIZE) % WORD))).1 = 0
      then some (0, { s with m_memory_map :=
        (page_alloc s.m_memory_map (SIZE_TO_PAGES ((size + POOL_HEADER_SIZE) % WORD))).2 })
      else some (((page_alloc s.m_memory_map
            (SIZE_TO_PAGES ((size + POOL_HEADER_SIZE) % WORD))).1 + POOL_HEADER_SIZE) % WORD,
          ({ s with m_memory_map :=
            (page_alloc s.m_memory_map (SIZE_TO_PAGES ((size + POOL_HEADER_SIZE) % WORD))).2 }
            : Heap).set_size
            (page_alloc s.m_memory_map (SIZE_TO_PAGES ((size + POOL_HEADER_SIZE) % WORD))).1
            (PAGES_TO_SIZE (SIZE_TO_PAGES ((size + POOL_HEADER_SIZE) % WORD)))) := by
  simp only [uacpi_kernel_alloc, hbig, if_true]

/-- The pool invariant through `uacpi_kernel_alloc`: whenever the call has a
defined result, the invariant holds after it, with the returned pointer added
to the live pointers unless it is `NULL`. -/
theorem uacpi_kernel_alloc_invariant (s : Heap) (live : List Nat) (size p : Nat) (s' : Heap)
    (hinv : pool_invariant s live) (h : uacpi_kernel_alloc s size = some (p, s')) :
    pool_invariant s' (if p = 0 then live else p :: live) := by
  have hmi : MAX_POOL_INDEX = 6 := by decide
  by_cases hbig : (size + POOL_HEADER_SIZE) % WORD > MAX_POOL_SIZE
  · -- whole pages
    have hlt : (size + POOL_HEADER_SIZE) % WORD < WORD := Nat.mod_lt _ (by decide)
    have hn1 : 1 ≤ SIZE_TO_PAGES ((size + POOL_HEADER_SIZE) % WORD) := by
      rw [SIZE_TO_PAGES_eq]
      simp only [MAX_POOL_SIZE, MAX_POOL_SHIFT, PAGE_SHIFT] at hbig
      omega
    rw [uacpi_kernel_alloc_page_eq s size hbig] at h
    generalize SIZE_TO_PAGES ((size + POOL_HEADER_SIZE) % WORD) = n at hn1 h
    by_cases h0 : (page_alloc s.m_memory_map n).1 = 0
    · have hnone : page_alloc_scan n UINT64_MAX s.m_memory_map = none := by
        cases hs : page_alloc_scan n UINT64_MAX s.m_memory_map with
        | none => rfl
        | some r =>
          have := (page_alloc_scan_post s.m_memory_map n UINT64_MAX hinv.1.1 hn1
            (by decide) r hs).1
          rw [page_alloc, page_alloc_max_of_some _ _ _ r hs] at h0
          exact absurd h0 this
      have hsame : (page_alloc s.m_memory_map n).2 = s.m_memory_map := by
        rw [page_alloc, page_alloc_max_of_none _ _ _ hnone]
      rw [if_pos h0, hsame, Option.some.injEq, Prod.mk.injEq] at h
      obtain ⟨hp, hs'⟩ := h
      rw [← hp, ← hs', if_pos rfl]
      exact hinv
    · have hs := page_alloc_max_ne_null s.m_memory_map n UINT64_MAX h0
      obtain ⟨-, hal, hle, -, hblock, hsub⟩ :=
        page_alloc_scan_post s.m_memory_map n UINT64_MAX hinv.1.1 hn1 (by decide) _ hs
      have hkeep := page_alloc_max_keeps_invariant s.m_memory_map n UINT64_MAX hinv.1
        hn1 (le_refl _)
      have hfit : (page_alloc s.m_memory_map n).1 + n * PAGE_SIZE ≤ WORD := by
        have : UINT64_MAX + 1 = WORD := by decide
        rw [← this]; exact hle
      have hstep := pool_invariant_take_pages s live _ n _ hinv h0 hal hn1 hfit hkeep
        hblock hsub
      have hsz : PAGES_TO_SIZE n = n * PAGE_SIZE := by
        rw [PAGES_TO_SIZE_eq]
        simp only [PAGE_SIZE, WORD] at hfit ⊢
        exact Nat.mod_eq_of_lt (by omega)
      have hpay : ((page_alloc s.m_memory_map n).1 + POOL_HEADER_SIZE) % WORD
          = (page_alloc s.m_memory_map n).1 + POOL_HEADER_SIZE := by
        simp only [PAGE_SIZE, POOL_HEADER_SIZE, WORD] at hfit ⊢
        exact Nat.mod_eq_of_lt (by omega)
      rw [if_neg h0, hsz, hpay, Option.some.injEq, Prod.mk.injEq] at h
      obtain ⟨hp, hs'⟩ := h
      have hp0 : ¬ p = 0 := by
        rw [← hp]; simp only [POOL_HEADER_SIZE]; omega
      rw [if_neg hp0, ← hp, ← hs']
      exact hstep
  · -- a pool block
    have hsmall : (size + POOL_HEADER_SIZE) % WORD ≤ MAX_POOL_SIZE := by omega
    by_cases hz : (size + POOL_HEADER_SIZE) % WORD = 0
    · simp only [uacpi_kernel_alloc, hz, pool_index_of_zero] at h
      simp at h
    · obtain ⟨k, hk, hidx, -, -⟩ := pool_index_of_spec ((size + POOL_HEADER_SIZE) % WORD)
        (by omega) (by simpa [MAX_POOL_SIZE, MAX_POOL_SHIFT, PAGE_SHIFT] using hsmall)
      rw [uacpi_kernel_alloc_pool_eq s size k hsmall hidx (by omega)] at h
      obtain ⟨i0, i1⟩ := alloc_pool_below_invariant s live (MAX_POOL_INDEX - k) (by omega) hinv
      simp only [Option.some.injEq, Prod.mk.injEq] at h
      obtain ⟨hp, hs'⟩ := h
      by_cases h0 : (alloc_pool_below s (MAX_POOL_INDEX - k)).1 = 0
      · rw [if_neg (not_not.2 h0)] at hp
        rw [← hp, ← hs', if_pos rfl]
        exact i0 h0
      · obtain ⟨hstep, -, hfit⟩ := i1 h0
        rw [if_pos h0, Nat.mod_eq_of_lt hfit] at hp
        have hp0 : ¬ p = 0 := by
          rw [← hp]; simp only [POOL_HEADER_SIZE]; omega
        rw [if_neg hp0, ← hp, ← hs']
        exact hstep

/-- The pool invariant through `uacpi_kernel_free` of a live pointer: the call
has a defined result, and the invariant holds after it with the pointer
removed from the live pointers. -/
theorem uacpi_kernel_free_invariant (s : Heap) (live : List Nat) (p : Nat)
    (hinv : pool_invariant s live) (hp : p ∈ live) :
    ∃ s', uacpi_kernel_free s p = some s' ∧ pool_invariant s' (live.erase p) := by
  obtain ⟨-, hpay, -, -, hkind⟩ := hinv.2.2.1 p hp
  have hp0 : p ≠ 0 := by
    rw [hpay]; simp only [POOL_HEADER_SIZE]; omega
  rcases hkind with ⟨k, hk, hsz⟩ | ⟨hal, n, hn, hsz⟩
  · have hk6 : k < 6 := hk
    exact ⟨_, uacpi_kernel_free_pool_eq s p k hp0 hk hsz,
      pool_invariant_free_pool s live k p hinv hp hk6 hsz⟩
  · have hbig : s.hdr_size (header_of p) > MAX_POOL_SIZE := by
      rw [hsz]
      simp only [MAX_POOL_SIZE, MAX_POOL_SHIFT, PAGE_SHIFT, PAGE_SIZE]
      have : (1 : Nat) <<< (12 - 1) = 2048 := by decide
      omega
    have hpages : SIZE_TO_PAGES (s.hdr_size (header_of p)) = n := by
      rw [hsz, SIZE_TO_PAGES_eq]
      simp only [PAGE_SIZE]
      omega
    refine ⟨_, uacpi_kernel_free_page_eq s p hp0 hbig, ?_⟩
    rw [hpages]
    exact pool_invariant_free_pages s live n p hinv hp hn hal hsz

/-- Every memory reached from empty pool lists by calls of
`uacpi_kernel_alloc` and by calls of `uacpi_kernel_free` on live pointers
satisfies the pool invariant. -/
theorem pool_reachable_invariant (s : Heap) (live : List Nat) (h : pool_reachable s live) :
    pool_invariant s live := by
  induction h with
  | init s hmap hempty =>
    have hcov : ∀ x, pool_cover s x + live_cover s [] x = 0 := by
      intro x
      simp only [pool_cover, class_cover, live_cover, hempty 0 (by decide), hempty 1 (by decide),
        hempty 2 (by decide), hempty 3 (by decide), hempty 4 (by decide),
        hempty 5 (by decide), List.countP_nil]
    refine ⟨hmap, ?_, ?_, ?_, ?_⟩
    · intro k hk a ha
      rw [hempty k hk] at ha
      exact absurd ha (List.not_mem_nil a)
    · intro p hp
      exact absurd hp (List.not_mem_nil p)
    · intro x; rw [hcov x]; exact Nat.zero_le _
    · intro x _; exact hcov x
  | alloc s live size p s' _ hcall ih => exact uacpi_kernel_alloc_invariant s live size p s' ih hcall
  | free s live p s' _ hp hcall ih =>
    obtain ⟨s₁, h1, h2⟩ := uacpi_kernel_free_invariant s live p ih hp
    rw [hcall] at h1
    rw [Option.some.injEq] at h1
    rw [h1]
    exact h2

theorem pool_invariant_class (s : Heap) (live : List Nat) (h : pool_invariant s live) :
    pool_class_invariant s := by
  intro k hk a ha
  rw [← min_pool_size_shift]
  exact (h.2.1 k hk a ha).2.2

/-- C20 (pool free-list class invariant).  The predicate "for every index `k`
in `0..5`, every block on list `k` has recorded header size `64 * 2 ^ k`"
holds for six empty lists.  It holds in every memory `s` reached from six
empty lists over a well-formed page free list by calls of
`uacpi_kernel_alloc` and by calls of `uacpi_kernel_free` on live pointers
(pointers `uacpi_kernel_alloc` returned that have not been freed since); in
such a memory it holds again after every `uacpi_kernel_alloc` that has a
defined result, and `uacpi_kernel_free` of every live pointer has a defined
result after which it holds again. -/
theorem pool_class_invariant_preserved (s : Heap) (live : List Nat)
    (h : pool_reachable s live) :
    (∀ s₀ : Heap, (∀ k, k < MAX_POOL_INDEX → s₀.m_alloc_pool_lists k = []) →
      pool_class_invariant s₀) ∧
    pool_class_invariant s ∧
    (∀ size p s', uacpi_kernel_alloc s size = some (p, s') → pool_class_invariant s') ∧
    (∀ p ∈ live, ∃ s', uacpi_kernel_free s p = some s' ∧ pool_class_invariant s') := by
  have hinv := pool_reachable_invariant s live h
  refine ⟨?_, pool_invariant_class s live hinv, ?_, ?_⟩
  · intro s₀ hempty k hk a ha
    rw [hempty k hk] at ha
    exact absurd ha (List.not_mem_nil a)
  · intro size p s' hcall
    exact pool_invariant_class s' _ (uacpi_kernel_alloc_invariant s live size p s' hinv hcall)
  · intro p hp
    obtain ⟨s', h1, h2⟩ := uacpi_kernel_free_invariant s live p hinv hp
    exact ⟨s', h1, pool_invariant_class s' _ h2⟩

theorem pool_class_invariant_preserved_witness :
    pool_reachable heap_after_alloc [8072] ∧
    ((∀ s₀ : Heap, (∀ k, k < MAX_POOL_INDEX → s₀.m_alloc_pool_lists k = []) →
      pool_class_invariant s₀) ∧
    pool_class_invariant heap_after_alloc ∧
    (∀ size p s', uacpi_kernel_alloc heap_after_alloc size = some (p, s') →
      pool_class_invariant s') ∧
    (∀ p ∈ [8072], ∃ s', uacpi_kernel_free heap_after_alloc p = some s' ∧
      pool_class_invariant s')) :=
  have hr : pool_reachable heap_after_alloc [8072] :=
    pool_reachable.alloc one_page_heap [] 100 8072 heap_after_alloc
      (pool_reachable.init one_page_heap
        ((free_list_invariant_one _).2 (by decide)) (fun _ _ => rfl)) rfl
  ⟨hr, pool_class_invariant_preserved heap_after_alloc [8072] hr⟩



/-! ## Tick readings -/

/-- C22 fails on the code: `(tsc / m_tsc_frequency) * 10000000u` is computed in
64 bits with `m_tsc_frequency = 1`, so the product wraps once the cycle counter
passes `1844674407370`.  The readings `t1 = 1 ≤ t2 = 1844674407371` give the
ticks `10000000` and `448384`, the later reading the smaller value.  Below
the wrap, for `t2 ≤ 1844674407370`, the ticks are monotonic. -/
theorem uacpi_kernel_get_ticks_wraps :
    (1 : Nat) ≤ 1844674407371 ∧ 1844674407371 < WORD ∧
    uacpi_kernel_get_ticks 1 = 10000000 ∧
    uacpi_kernel_get_ticks 1844674407371 = 448384 ∧
    ¬ (uacpi_kernel_get_ticks 1 ≤ uacpi_kernel_get_ticks 1844674407371) ∧
    (∀ t1 t2, t1 ≤ t2 → t2 ≤ 1844674407370 →
      uacpi_kernel_get_ticks t1 ≤ uacpi_kernel_get_ticks t2) := by
  refine ⟨by decide, by decide, by decide, by decide, by decide, ?_⟩
  intro t1 t2 h12 h2
  have e1 : (t1 * 10000000) % 2 ^ 64 = t1 * 10000000 := Nat.mod_eq_of_lt (by omega)
  have e2 : (t2 * 10000000) % 2 ^ 64 = t2 * 10000000 := Nat.mod_eq_of_lt (by omega)
  simp only [uacpi_kernel_get_ticks, m_tsc_frequency, Nat.div_one, WORD, e1, e2]
  omega

/-! ## Freeing a pool block -/

/-- C21 (no coalescing on pool free).  For every memory and every non-null
payload pointer `p` whose header records the class size `64 * 2 ^ k` with `k`
in `0..5`, `uacpi_kernel_free p` has a defined result: list `k` is the block
`header_of p` followed by the old list `k`, every recorded header size (that
of the block included) is unchanged, and the other five pool lists and the
page free list are exactly as they were. -/
theorem uacpi_kernel_free_no_coalescing (s : Heap) (p k : Nat) (hp : p ≠ 0)
    (hk : k < MAX_POOL_INDEX) (hsz : s.hdr_size (header_of p) = 64 * 2 ^ k) :
    ∃ s', uacpi_kernel_free s p = some s' ∧
      s'.m_alloc_pool_lists k = header_of p :: s.m_alloc_pool_lists k ∧
      s'.hdr_size = s.hdr_size ∧
      (∀ j, j ≠ k → s'.m_alloc_pool_lists j = s.m_alloc_pool_lists j) ∧
      s'.m_memory_map = s.m_memory_map := by
  rw [← min_pool_size_shift] at hsz
  refine ⟨_, uacpi_kernel_free_pool_eq s p k hp hk hsz, ?_, ?_, ?_, ?_⟩
  · rw [set_pool_lists, if_pos rfl]
  · rw [set_pool_size]
  · intro j hj
    rw [set_pool_lists, if_neg hj]
  · rw [set_pool_map]

theorem uacpi_kernel_free_no_coalescing_witness :
    ∃ s', uacpi_kernel_free heap_after_alloc 8072 = some s' ∧
      s'.m_alloc_pool_lists 1 = header_of 8072 :: heap_after_alloc.m_alloc_pool_lists 1 ∧
      s'.hdr_size = heap_after_alloc.hdr_size ∧
      (∀ j, j ≠ 1 → s'.m_alloc_pool_lists j = heap_after_alloc.m_alloc_pool_lists j) ∧
      s'.m_memory_map = heap_after_alloc.m_memory_map :=
  uacpi_kernel_free_no_coalescing heap_after_alloc 8072 1 (by decide) (by decide) (by decide)



/-! ## Disjoint blocks -/

/-- Non-empty ranges of which no byte lies in two are pairwise disjoint. -/
theorem pairwise_of_range_cover (l : List (Nat × Nat)) (hne : ∀ r ∈ l, r.1 < r.2)
    (hcov : ∀ x, range_cover l x ≤ 1) : l.Pairwise ranges_disjoint := by
  induction l with
  | nil => exact List.Pairwise.nil
  | cons r rest ih =>
    have hstep : ∀ x, range_cover (r :: rest) x
        = range_cover rest x + (if r.1 ≤ x ∧ x < r.2 then 1 else 0) := by
      intro x
      simp only [range_cover, List.countP_cons, decide_eq_true_eq]
    refine List.Pairwise.cons ?_ (ih (fun q hq => hne q (List.mem_cons_of_mem _ hq)) ?_)
    · intro q hq
      by_contra hcon
      simp only [ranges_disjoint, not_or, not_le] at hcon
      have hr := hne r (List.mem_cons_self _ _)
      have hq' := hne q (List.mem_cons_of_mem _ hq)
      have hx := hcov (max r.1 q.1)
      have hin : r.1 ≤ max r.1 q.1 ∧ max r.1 q.1 < r.2 := by
        constructor
        · exact le_max_left _ _
        · rcases max_cases r.1 q.1 with ⟨h, _⟩ | ⟨h, _⟩ <;> omega
      have hin' : q.1 ≤ max r.1 q.1 ∧ max r.1 q.1 < q.2 := by
        constructor
        · exact le_max_right _ _
        · rcases max_cases r.1 q.1 with ⟨h, _⟩ | ⟨h, _⟩ <;> omega
      have hpos : 0 < range_cover rest (max r.1 q.1) := by
        simp only [range_cover]
        exact List.countP_pos_iff.2 ⟨q, hq, by simpa using hin'⟩
      rw [hstep, if_pos hin] at hx
      omega
    · intro x
      have := hcov x
      rw [hstep] at this
      omega

theorem range_cover_append (l₁ l₂ : List (Nat × Nat)) (x : Nat) :
    range_cover (l₁ ++ l₂) x = range_cover l₁ x + range_cover l₂ x := by
  simp only [range_cover, List.countP_append]

/-- On a free list satisfying the list invariant a byte lies in at most one
node. -/
theorem range_cover_free_list (m : List free_page_list_t) (hinv : list_invariant m) (x : Nat) :
    range_cover (m.map (fun nd => (nd.addr, nd.limit))) x ≤ 1 := by
  induction m with
  | nil => simp [range_cover]
  | cons nd rest ih =>
    obtain ⟨-, hrest, hlt⟩ := (list_invariant_cons nd rest).1 hinv
    have hstep : range_cover ((nd :: rest).map (fun nd => (nd.addr, nd.limit))) x
        = range_cover (rest.map (fun nd => (nd.addr, nd.limit))) x
          + (if nd.addr ≤ x ∧ x < nd.limit then 1 else 0) := by
      simp only [range_cover, List.map_cons, List.countP_cons, decide_eq_true_eq]
    rw [hstep]
    by_cases hx : nd.addr ≤ x ∧ x < nd.limit
    · have hzero : range_cover (rest.map (fun nd => (nd.addr, nd.limit))) x = 0 := by
        simp only [range_cover, List.countP_eq_zero, List.mem_map, forall_exists_index, and_imp,
          decide_eq_true_eq]
        intro r b hb hr
        have := hlt b hb
        rw [← hr]
        simp only
        omega
      rw [hzero, if_pos hx]
    · rw [if_neg hx]
      exact ih hrest

/-- A byte counted in a node of the free list is free. -/
theorem is_free_of_range_cover (m : List free_page_list_t) (x : Nat)
    (h : 0 < range_cover (m.map (fun nd => (nd.addr, nd.limit))) x) : is_free m x := by
  simp only [range_cover] at h
  obtain ⟨r, hr, hx⟩ := List.countP_pos_iff.1 h
  obtain ⟨nd, hnd, rfl⟩ := List.mem_map.1 hr
  exact ⟨nd, hnd, by simpa using hx⟩

/-- The blocks of list `k`, each with the size of class `k` recorded, cover a
byte as often as `class_cover` counts. -/
theorem range_cover_class (s : Heap) (k x : Nat)
    (hsz : ∀ a ∈ s.m_alloc_pool_lists k, s.hdr_size a = MIN_POOL_SIZE <<< k) :
    range_cover ((s.m_alloc_pool_lists k).map (fun a => (a, a + s.hdr_size a))) x
      = class_cover s k x := by
  simp only [range_cover, class_cover, List.countP_map]
  apply List.countP_congr
  intro a ha
  simp only [Function.comp, decide_eq_true_eq, hsz a ha]

/-- The six pool lists, mapped and concatenated in index order. -/
theorem flatten_range_six (f : Nat → List (Nat × Nat)) :
    ((List.range MAX_POOL_INDEX).map f).flatten
      = f 0 ++ (f 1 ++ (f 2 ++ (f 3 ++ (f 4 ++ (f 5 ++ []))))) := by
  have hrange : List.range MAX_POOL_INDEX = [0, 1, 2, 3, 4, 5] := by decide
  rw [hrange]
  rfl

/-- The live blocks cover a byte as often as `live_cover` counts. -/
theorem range_cover_live (s : Heap) (live : List Nat) (x : Nat) :
    range_cover (live.map (fun p => (header_of p, header_of p + s.hdr_size (header_of p)))) x
      = live_cover s live x := by
  induction live with
  | nil => simp only [List.map_nil, range_cover, live_cover, List.countP_nil]
  | cons p rest ih =>
    rw [List.map_cons, live_cover_cons, ← ih]
    simp only [range_cover, List.countP_cons, decide_eq_true_eq]

/-- The count of the ranges of `block_ranges` that contain a byte, in the
counts of the pool invariant. -/
theorem range_cover_block_ranges (s : Heap) (live : List Nat) (x : Nat)
    (hsz : ∀ k, k < MAX_POOL_INDEX → ∀ a ∈ s.m_alloc_pool_lists k,
      s.hdr_size a = MIN_POOL_SIZE <<< k) :
    range_cover (block_ranges s live) x
      = live_cover s live x + (pool_cover s x
          + range_cover (s.m_memory_map.map (fun nd => (nd.addr, nd.limit))) x) := by
  unfold block_ranges
  rw [range_cover_append, range_cover_append, flatten_range_six, range_cover_append,
    range_cover_append, range_cover_append, range_cover_append, range_cover_append,
    range_cover_append, range_cover_live,
    range_cover_class s 0 x (hsz 0 (by decide)), range_cover_class s 1 x (hsz 1 (by decide)),
    range_cover_class s 2 x (hsz 2 (by decide)), range_cover_class s 3 x (hsz 3 (by decide)),
    range_cover_class s 4 x (hsz 4 (by decide)), range_cover_class s 5 x (hsz 5 (by decide))]
  have hnil : range_cover [] x = 0 := rfl
  rw [hnil]
  unfold pool_cover
  omega

/-- Under the pool invariant every range of `block_ranges` holds at least one
byte. -/
theorem pool_invariant_ranges_nonempty (s : Heap) (live : List Nat)
    (hinv : pool_invariant s live) : ∀ r ∈ block_ranges s live, r.1 < r.2 := by
  have hsz : ∀ k, k < MAX_POOL_INDEX → ∀ a ∈ s.m_alloc_pool_lists k,
      s.hdr_size a = MIN_POOL_SIZE <<< k := fun k hk a ha => (hinv.2.1 k hk a ha).2.2
  intro r hr
  simp only [block_ranges, List.mem_append, List.mem_map, List.mem_flatten, List.mem_range]
    at hr
  rcases hr with ⟨p, hp, rfl⟩ | ⟨l, ⟨k, hk, rfl⟩, hr⟩ | ⟨nd, hnd, rfl⟩
  · have := live_size_pos s live hinv p hp
    simp only
    omega
  · obtain ⟨a, ha, rfl⟩ := List.mem_map.1 hr
    have := min_pool_size_shift_pos k
    have := hsz k hk a ha
    simp only
    omega
  · have := hinv.1.2 nd hnd
    simp only [free_page_list_t.limit, PAGE_SIZE]
    omega

/-- Under the pool invariant the ranges of the live blocks, the pool blocks
and the free page runs are pairwise disjoint. -/
theorem pool_invariant_disjoint (s : Heap) (live : List Nat) (hinv : pool_invariant s live) :
    (block_ranges s live).Pairwise ranges_disjoint := by
  have hsz : ∀ k, k < MAX_POOL_INDEX → ∀ a ∈ s.m_alloc_pool_lists k,
      s.hdr_size a = MIN_POOL_SIZE <<< k := fun k hk a ha => (hinv.2.1 k hk a ha).2.2
  apply pairwise_of_range_cover _ (pool_invariant_ranges_nonempty s live hinv)
  intro x
  rw [range_cover_block_ranges s live x hsz]
  have hfree := range_cover_free_list s.m_memory_map hinv.1.1 x
  have hcov := hinv.2.2.2.1 x
  by_cases h0 : range_cover (s.m_memory_map.map (fun nd => (nd.addr, nd.limit))) x = 0
  · omega
  · have := hinv.2.2.2.2 x (is_free_of_range_cover s.m_memory_map x (by omega))
    omega

/-- C24 (pool blocks never overlap).  In every memory reached from six empty
pool lists over a page free list satisfying the free-list invariant, by any
finite sequence of `uacpi_kernel_alloc` calls and of `uacpi_kernel_free` calls
on live pointers, the byte ranges `[header, header + recorded size)` of the
live blocks and of the blocks on the six pool lists, and the runs of the nodes
of the page free list, each hold at least one byte and are pairwise
disjoint. -/
theorem pool_blocks_never_overlap (s : Heap) (live : List Nat) (h : pool_reachable s live) :
    (∀ r ∈ block_ranges s live, r.1 < r.2) ∧
    (block_ranges s live).Pairwise ranges_disjoint :=
  ⟨pool_invariant_ranges_nonempty s live (pool_reachable_invariant s live h),
    pool_invariant_disjoint s live (pool_reachable_invariant s live h)⟩

theorem pool_blocks_never_overlap_witness :
    pool_reachable heap_after_alloc [8072] ∧
    ((∀ r ∈ block_ranges heap_after_alloc [8072], r.1 < r.2) ∧
      (block_ranges heap_after_alloc [8072]).Pairwise ranges_disjoint) :=
  have hr : pool_reachable heap_after_alloc [8072] :=
    pool_reachable.alloc one_page_heap [] 100 8072 heap_after_alloc
      (pool_reachable.init one_page_heap
        ((free_list_invariant_one _).2 (by decide)) (fun _ _ => rfl)) rfl
  ⟨hr, pool_blocks_never_overlap heap_after_alloc [8072] hr⟩



/-! ## Allocating and freeing the same run -/

/-- The scan of `page_free` on a list given as its nodes at or below `ptr`
followed by its nodes above `ptr`. -/
theorem page_free_scan_split (B Aft : List free_page_list_t) (ptr : Nat)
    (hB : ∀ nd ∈ B, nd.addr ≤ ptr)
    (hA : ∀ node rest, Aft = node :: rest → ptr < node.addr) :
    (B ++ Aft).takeWhile (fun pages => !decide (ptr < pages.addr)) = B ∧
      (B ++ Aft).dropWhile (fun pages => !decide (ptr < pages.addr)) = Aft := by
  have hB' : ∀ a ∈ B, (fun pages : free_page_list_t => !decide (ptr < pages.addr)) a = true := by
    intro a ha
    have := hB a ha
    simp only [Bool.not_eq_true', decide_eq_false_iff_not, not_lt]
    exact this
  rw [List.takeWhile_append_of_pos hB', List.dropWhile_append_of_pos hB']
  cases Aft with
  | nil => simp only [List.takeWhile_nil, List.dropWhile_nil, List.append_nil, and_self]
  | cons node rest =>
    have hlt := hA node rest rfl
    simp [List.takeWhile_cons, List.dropWhile_cons, hlt]

/-- Freeing the run that `alloc_pages_on_node` carved out of the node `(A, N)`
puts the node back: with `T` the clamped top and `c ≤ T ≤ N` pages taken below
it, `page_free` of the `c` pages at `A + (T - c) * 4096` merges with the part
left below and the part split off above. -/
theorem page_free_restores (pre post : List free_page_list_t) (A N c T : Nat)
    (hinv : free_list_invariant (pre ++ ⟨A, N⟩ :: post))
    (hc : 1 ≤ c) (hcT : c ≤ T) (hTN : T ≤ N) :
    page_free
      (pre ++ (((if 0 < T - c then [⟨A, T - c⟩] else []) ++
        (if T < N then [⟨A + T * 4096, N - T⟩] else [])) ++ post))
      (A + (T - c) * 4096) c = pre ++ ⟨A, N⟩ :: post := by
  obtain ⟨hpre, hrest, hsep⟩ := (free_list_invariant_append pre (⟨A, N⟩ :: post)).1 hinv
  obtain ⟨⟨hAal, hA0, hAlim, hN1⟩, hpost, hAp⟩ := (free_list_invariant_cons ⟨A, N⟩ post).1 hrest
  simp only [free_page_list_t.limit, PAGE_SIZE, WORD] at hAal hAlim hAp hN1
  have hpreA : ∀ a ∈ pre, a.addr + a.number_of_pages * 4096 < A := by
    intro a ha
    have := hsep a ha ⟨A, N⟩ (List.mem_cons_self _ _)
    simpa only [free_page_list_t.limit, PAGE_SIZE] using this
  have hpre_al : ∀ a ∈ pre, a.addr % 4096 = 0 := by
    intro a ha
    have := (hpre.1.1 a ha).1
    simpa only [PAGE_SIZE] using this
  have hpost_nd : ∀ b ∈ post, b.addr % 4096 = 0 ∧ b.addr + b.number_of_pages * 4096 ≤ 2 ^ 64 ∧
      1 ≤ b.number_of_pages := by
    intro b hb
    have h1 := hpost.1.1 b hb
    have h2 := hpost.2 b hb
    simp only [free_page_list_t.limit, PAGE_SIZE, WORD] at h1
    exact ⟨h1.1, h1.2.2, h2⟩
  -- no merge with the node before `(A, k)`
  have hback : ∀ prev ∈ pre, ∀ k, 1 ≤ k → A + k * 4096 ≤ 2 ^ 64 →
      page_merge_nodes prev ⟨A, k⟩ = [prev, ⟨A, k⟩] := by
    intro prev hprev k hk hfit
    have hlt := hpreA prev hprev
    rw [page_merge_nodes_eq prev ⟨A, k⟩ (hpre_al prev hprev) hAal (by simp only; omega)
      (by simp only; omega) hk]
    exact if_neg (by simp only; omega)
  -- no merge of `(A, N)` with the node after
  have hfwd : ∀ node ∈ post, page_merge_nodes ⟨A, N⟩ node = [⟨A, N⟩, node] := by
    intro node hnode
    obtain ⟨h1, h2, h3⟩ := hpost_nd node hnode
    have hlt := hAp node hnode
    rw [page_merge_nodes_eq ⟨A, N⟩ node hAal h1 (by simp only; omega) h2 h3]
    exact if_neg (by simp only; omega)
  have hTc : T - c + c = T := by omega
  have hmul : ∀ a b : Nat, (a + b) * 4096 = a * 4096 + b * 4096 := fun a b => Nat.add_mul a b 4096
  have hTN4 : T * 4096 ≤ N * 4096 := Nat.mul_le_mul_right _ hTN
  have hbT : (T - c) * 4096 + c * 4096 = T * 4096 := by rw [← hmul, hTc]
  by_cases hb : 0 < T - c
  · -- a part of the node is left below the run
    rw [if_pos hb]
    have hB : ∀ nd ∈ pre ++ [(⟨A, T - c⟩ : free_page_list_t)], nd.addr ≤ A + (T - c) * 4096 := by
      intro nd hnd
      rcases List.mem_append.1 hnd with h | h
      · have := hpreA nd h; omega
      · rw [List.mem_singleton] at h; rw [h]; simp only; omega
    have hmerge1 : page_merge_nodes ⟨A, T - c⟩ ⟨A + (T - c) * 4096, c⟩ = [⟨A, T⟩] := by
      rw [page_merge_nodes_adjacent A (T - c) c (by rw [hTc]; omega) hc, hTc]
    by_cases hT : T < N
    · rw [if_pos hT]
      have hlist : pre ++ (([(⟨A, T - c⟩ : free_page_list_t)] ++ [⟨A + T * 4096, N - T⟩]) ++ post)
          = (pre ++ [⟨A, T - c⟩]) ++ (⟨A + T * 4096, N - T⟩ :: post) := by
        simp
      obtain ⟨hBt, hAd⟩ := page_free_scan_split (pre ++ [⟨A, T - c⟩])
        (⟨A + T * 4096, N - T⟩ :: post) (A + (T - c) * 4096) hB
        (by intro node rest h; rw [List.cons.injEq] at h; rw [← h.1]; simp only; omega)
      rw [hlist, page_free_middle _ _ _ _ _ _ _ hBt hAd, hmerge1]
      have hmerge2 : page_merge_nodes ⟨A, T⟩ ⟨A + T * 4096, N - T⟩ = [⟨A, N⟩] := by
        have e : T + (N - T) = N := by omega
        rw [page_merge_nodes_adjacent A T (N - T) (by rw [e]; omega) (by omega), e]
      simp only [hmerge2, List.singleton_append]
    · rw [if_neg hT]
      have hTeq : T = N := by omega
      subst hTeq
      cases post with
      | nil =>
        have hlist : pre ++ (([(⟨A, T - c⟩ : free_page_list_t)] ++ []) ++ [])
            = (pre ++ [⟨A, T - c⟩]) ++ [] := by
          simp
        obtain ⟨hBt, hAd⟩ := page_free_scan_split (pre ++ [⟨A, T - c⟩]) []
          (A + (T - c) * 4096) hB (by intro node rest h; cases h)
        rw [hlist, page_free_tail _ _ _ _ _ hBt hAd, hmerge1]
      | cons node rest =>
        have hlist : pre ++ (([(⟨A, T - c⟩ : free_page_list_t)] ++ []) ++ node :: rest)
            = (pre ++ [⟨A, T - c⟩]) ++ (node :: rest) := by
          simp
        have hnode := hAp node (List.mem_cons_self _ _)
        obtain ⟨hBt, hAd⟩ := page_free_scan_split (pre ++ [⟨A, T - c⟩]) (node :: rest)
          (A + (T - c) * 4096) hB
          (by intro nd rs h; rw [List.cons.injEq] at h; rw [← h.1]; omega)
        rw [hlist, page_free_middle _ _ _ _ _ _ _ hBt hAd, hmerge1]
        simp only [hfwd node (List.mem_cons_self _ _), List.cons_append, List.nil_append]
  · -- the run starts at the node
    rw [if_neg hb]
    have hcT' : c = T := by omega
    subst hcT'
    rw [Nat.sub_self, Nat.zero_mul, Nat.add_zero]
    have hB : ∀ nd ∈ pre, nd.addr ≤ A := by
      intro nd hnd
      have := hpreA nd hnd; omega
    have hT1 : 1 ≤ c := hc
    by_cases hT : c < N
    · rw [if_pos hT]
      have hlist : pre ++ ((([] : List free_page_list_t) ++ [⟨A + c * 4096, N - c⟩]) ++ post)
          = pre ++ (⟨A + c * 4096, N - c⟩ :: post) := by
        simp
      have hmerge2 : page_merge_nodes ⟨A, c⟩ ⟨A + c * 4096, N - c⟩ = [⟨A, N⟩] := by
        have e : c + (N - c) = N := by omega
        rw [page_merge_nodes_adjacent A c (N - c) (by rw [e]; omega) (by omega), e]
      obtain ⟨hBt, hAd⟩ := page_free_scan_split pre (⟨A + c * 4096, N - c⟩ :: post) A hB
        (by intro node rest h; rw [List.cons.injEq] at h; rw [← h.1]; simp only; omega)
      rw [hlist]
      rcases List.eq_nil_or_concat pre with hnil | ⟨init, prev, hcat⟩
      · rw [hnil] at hBt hAd ⊢
        rw [page_free_head _ _ _ _ _ hBt hAd, hmerge2]
        simp only [List.nil_append, List.singleton_append]
      · rw [List.concat_eq_append] at hcat
        rw [hcat] at hBt hAd
        have hprev : prev ∈ pre := by rw [hcat]; simp
        rw [hcat, page_free_middle _ _ _ _ _ _ _ hBt hAd, hback prev hprev c hT1 (by omega)]
        simp only [hmerge2, List.append_assoc, List.singleton_append]
    · rw [if_neg hT]
      have hTeq : c = N := by omega
      subst hTeq
      have hlist : pre ++ ((([] : List free_page_list_t) ++ []) ++ post) = pre ++ post := by
        simp
      rw [hlist]
      obtain ⟨hBt, hAd⟩ := page_free_scan_split pre post A hB
        (by intro node rest h
            have := hAp node (by rw [h]; exact List.mem_cons_self _ _)
            omega)
      rcases List.eq_nil_or_concat pre with hnil | ⟨init, prev, hcat⟩
      · rw [hnil] at hBt hAd ⊢
        cases post with
        | nil =>
          rw [page_free_first _ _ _ hBt hAd]
          simp only [List.nil_append]
        | cons node rest =>
          rw [page_free_head _ _ _ _ _ hBt hAd, hfwd node (List.mem_cons_self _ _)]
          simp only [List.nil_append, List.cons_append]
      · rw [List.concat_eq_append] at hcat
        rw [hcat] at hBt hAd
        have hprev : prev ∈ pre := by rw [hcat]; simp
        cases post with
        | nil =>
          rw [hcat, page_free_tail _ _ _ _ _ hBt hAd, hback prev hprev c hc hAlim]
          simp only [List.append_assoc, List.singleton_append]
        | cons node rest =>
          rw [hcat, page_free_middle _ _ _ _ _ _ _ hBt hAd, hback prev hprev c hc hAlim]
          simp only [hfwd node (List.mem_cons_self _ _), List.append_assoc, List.singleton_append,
            List.cons_append, List.nil_append]

/-- C23 (page allocate/free round trip).  On a free list `m` satisfying the
free-list invariant, for every `n ≥ 1` and every 64-bit `max_address`: when
`page_alloc_max n max_address` returns a non-null `p`, `page_free p n` on the
list the allocation left gives back exactly `m`, node for node, whether the
allocation shortened a node, split it at the ceiling or removed it. -/
theorem page_alloc_free_round_trip (m : List free_page_list_t) (n max_address : Nat)
    (hinv : free_list_invariant m) (hn : 1 ≤ n) (hmax : max_address ≤ UINT64_MAX)
    (h : (page_alloc_max m n max_address).1 ≠ 0) :
    page_free (page_alloc_max m n max_address).2 (page_alloc_max m n max_address).1 n = m := by
  have hmax' : max_address < 2 ^ 64 := by simp only [UINT64_MAX] at hmax; omega
  have hs := page_alloc_max_ne_null m n max_address h
  obtain ⟨pre, A, N, post, hm, hcn, hlow, -, hr⟩ :=
    page_alloc_scan_inv m n max_address hinv.1 hn hmax' _ hs
  obtain ⟨hct, htn, -⟩ := clamped_top_bounds A N n max_address hcn hlow
  rw [hr]
  simp only
  rw [hm] at hinv
  rw [page_free_restores pre post A N n (clamped_top A N max_address) hinv hn hct htn, hm]

theorem page_alloc_free_round_trip_witness :
    (page_alloc_max [⟨4096, 4⟩, ⟨40960, 2⟩] 2 16383).1 = 8192 ∧
    (page_alloc_max [⟨4096, 4⟩, ⟨40960, 2⟩] 2 16383).2
      = [⟨4096, 1⟩, ⟨16384, 1⟩, ⟨40960, 2⟩] ∧
    page_free (page_alloc_max [⟨4096, 4⟩, ⟨40960, 2⟩] 2 16383).2
      (page_alloc_max [⟨4096, 4⟩, ⟨40960, 2⟩] 2 16383).1 2 = [⟨4096, 4⟩, ⟨40960, 2⟩] :=
  ⟨by decide, by decide,
    page_alloc_free_round_trip [⟨4096, 4⟩, ⟨40960, 2⟩] 2 16383
      ((free_list_invariant_two _ _).2 (by decide)) (by decide) (by decide) (by decide)⟩



/-! ## Zeroed allocation -/

/-- The block `uacpi_kernel_alloc` returns has room for the bytes asked for:
when `size + 8` fits in 64 bits the call has a defined result, and the header
of a non-null result records at least `size + 8`. -/
theorem uacpi_kernel_alloc_capacity (s : Heap) (size : Nat) (hty : pool_typed s)
    (hinv : list_invariant s.m_memory_map) (hfit : size + POOL_HEADER_SIZE < WORD) :
    ∃ r, uacpi_kernel_alloc s size = some r ∧
      (r.1 ≠ 0 → size + POOL_HEADER_SIZE ≤ r.2.hdr_size (header_of r.1)) := by
  have hmp : MAX_POOL_SIZE = 2048 := by decide
  have hmi : MAX_POOL_INDEX = 6 := by decide
  have hsize : (size + POOL_HEADER_SIZE) % WORD = size + 8 := by
    simp only [POOL_HEADER_SIZE, WORD] at hfit ⊢; omega
  by_cases hbig : (size + POOL_HEADER_SIZE) % WORD > MAX_POOL_SIZE
  · -- whole pages
    rw [uacpi_kernel_alloc_page_eq s size hbig, hsize]
    have hn1 : 1 ≤ SIZE_TO_PAGES (size + 8) := by
      rw [SIZE_TO_PAGES_eq]; rw [hsize, hmp] at hbig; omega
    have hcap : size + 8 ≤ SIZE_TO_PAGES (size + 8) * 4096 := by
      rw [SIZE_TO_PAGES_eq]; omega
    generalize SIZE_TO_PAGES (size + 8) = n at hn1 hcap
    by_cases h0 : (page_alloc s.m_memory_map n).1 = 0
    · rw [if_pos h0]
      exact ⟨_, rfl, fun h => absurd rfl h⟩
    · rw [if_neg h0]
      refine ⟨_, rfl, fun _ => ?_⟩
      have hs := page_alloc_max_ne_null s.m_memory_map n UINT64_MAX h0
      obtain ⟨-, -, hle, -, -, -⟩ :=
        page_alloc_scan_post s.m_memory_map n UINT64_MAX hinv hn1 (by decide) _ hs
      have hle' : (page_alloc s.m_memory_map n).1 + n * 4096 ≤ 2 ^ 64 := by
        have e : UINT64_MAX + 1 = 2 ^ 64 := by decide
        rw [← e]; simpa only [PAGE_SIZE] using hle
      have hlt : (page_alloc s.m_memory_map n).1 < WORD := by
        simp only [WORD]; omega
      have hsz : PAGES_TO_SIZE n = n * 4096 := by
        rw [PAGES_TO_SIZE_eq]; exact Nat.mod_eq_of_lt (by omega)
      simp only
      rw [header_of_payload _ hlt, set_size_read, hsz]
      simp only [POOL_HEADER_SIZE]
      exact hcap
  · -- a pool block
    have hsmall : size + 8 ≤ 2048 := by rw [hsize, hmp] at hbig; omega
    obtain ⟨k, hk, hidx, hle, -⟩ := pool_index_of_spec (size + 8) (by omega) hsmall
    have hk6 : k ≤ MAX_POOL_INDEX := by omega
    have hd : MAX_POOL_INDEX - (MAX_POOL_INDEX - k) = k := by omega
    obtain ⟨hlt, hhdr⟩ := alloc_pool_below_header s (MAX_POOL_INDEX - k) (by omega) hty
    rw [hd, min_pool_size_shift] at hhdr
    rw [uacpi_kernel_alloc_pool_eq s size k (by rw [hsize, hmp]; omega)
      (by rw [hsize]; exact hidx) hk6]
    refine ⟨_, rfl, ?_⟩
    generalize alloc_pool_below s (MAX_POOL_INDEX - k) = b at hlt hhdr
    simp only []
    intro hne
    by_cases hb : b.1 = 0
    · simp [hb] at hne
    · simp only [hb, ne_eq, not_false_eq_true, if_true, header_of_payload b.1 hlt, hhdr hb]
      simp only [POOL_HEADER_SIZE]; exact hle

/-- Within the range of sizes that `uacpi_kernel_alloc` serves without
wrapping, on a memory satisfying the pool invariant, `uacpi_kernel_calloc` has
a defined result, and a non-null result is a block with room for
`count * size` bytes, inside the address space, whose first `count * size`
bytes are zero. -/
theorem uacpi_kernel_calloc_in_range (s : Heap) (live : List Nat) (count size : Nat)
    (hinv : pool_invariant s live) (hfit : count * size + POOL_HEADER_SIZE < WORD) :
    ∃ r, uacpi_kernel_calloc s count size = some r ∧
      (r.1 ≠ 0 → count * size + POOL_HEADER_SIZE ≤ r.2.hdr_size (header_of r.1) ∧
        r.1 + count * size ≤ WORD ∧
        ∀ i, i < count * size → r.2.bytes (r.1 + i) = 0) := by
  have hty : pool_typed s := by
    intro k hk a ha
    have h := (hinv.2.1 k hk a ha).2.1
    have := min_pool_size_shift_pos k
    omega
  obtain ⟨⟨ptr, s'⟩, ha, hcap⟩ :=
    uacpi_kernel_alloc_capacity s (count * size) hty hinv.1.1 hfit
  have hafter := uacpi_kernel_alloc_invariant s live (count * size) ptr s' hinv ha
  have hnot : ¬ count * size ≥ WORD := by omega
  simp only [uacpi_kernel_calloc, hnot, if_false, ha]
  by_cases hptr : ptr = 0
  · rw [hptr]
    exact ⟨_, rfl, fun h => absurd rfl h⟩
  · have hroom := hcap hptr
    simp only at hroom
    rw [if_neg hptr] at hafter
    obtain ⟨-, hpay, -, hend, -⟩ := hafter.2.2.1 ptr (List.mem_cons_self _ _)
    have hword : ptr + count * size ≤ WORD := by
      simp only [POOL_HEADER_SIZE] at hroom hpay
      omega
    simp only [hptr, ne_eq, not_false_eq_true, if_true, memset_zero, hroom, hword, and_self,
      Option.map_some']
    refine ⟨_, rfl, fun _ => ⟨hroom, hword, fun i hi => ?_⟩⟩
    simp only
    rw [if_pos ⟨by omega, by omega⟩]

/-- C9 fails on the code.  The overflow guard holds: whenever `count * size`
does not fit in 64 bits, `uacpi_kernel_calloc` returns `NULL` and leaves the
whole memory as it was.  But a product in `2 ^ 64 - 7 .. 2 ^ 64 - 1` passes the
guard, and `uacpi_kernel_alloc` then wraps `size + sizeof(pool_header_t)`: on
the memory with one free page, `uacpi_kernel_calloc 1 (2 ^ 64 - 7)` gets the
non-null pointer `8136` of a 64-byte block, and the `memset` of `2 ^ 64 - 7`
bytes runs past the end of that block, so the call has no defined result and
the first `count * size` bytes of the buffer are not zeroed.  Below the wrap,
for `count * size + 8 < 2 ^ 64` on a memory satisfying the pool invariant, the
call has a defined result and a non-null result has room for `count * size`
bytes, the first `count * size` of them zero. -/
theorem uacpi_kernel_calloc_overruns :
    (∀ (s : Heap) (count size : Nat), WORD ≤ count * size →
      uacpi_kernel_calloc s count size = some (0, s)) ∧
    (1 * (2 ^ 64 - 7) < WORD ∧
      (∃ r, uacpi_kernel_alloc one_page_heap (1 * (2 ^ 64 - 7)) = some r ∧ r.1 = 8136 ∧
        r.2.hdr_size (header_of r.1) = 64 ∧
        memset_zero r.2 r.1 (1 * (2 ^ 64 - 7)) = none) ∧
      uacpi_kernel_calloc one_page_heap 1 (2 ^ 64 - 7) = none) ∧
    (∀ (s : Heap) (live : List Nat) (count size : Nat), pool_invariant s live →
      count * size + POOL_HEADER_SIZE < WORD →
      ∃ r, uacpi_kernel_calloc s count size = some r ∧
        (r.1 ≠ 0 → count * size + POOL_HEADER_SIZE ≤ r.2.hdr_size (header_of r.1) ∧
          r.1 + count * size ≤ WORD ∧
          ∀ i, i < count * size → r.2.bytes (r.1 + i) = 0)) := by
  refine ⟨?_, ⟨by decide, ⟨_, rfl, by decide, by decide, rfl⟩, rfl⟩, ?_⟩
  · intro s count size h
    simp [uacpi_kernel_calloc, h]
  · intro s live count size hinv hfit
    exact uacpi_kernel_calloc_in_range s live count size hinv hfit

end Kernel
